import Mathlib

/-!
Verification of the delivery-reliability core of the error-logger repository:
the retry manager (bounded retries with exponential backoff and a circuit
breaker), the data sanitizer, and the multi-provider dispatcher.  All
definitions are shallow embeddings of the TypeScript sources under `src/`;
JavaScript numbers are modelled as rationals, timestamps as naturals,
promise rejection as `Except`, and `Math.random()` as an explicit parameter.
-/

namespace ErrLog

/-- RetryPolicy value object, from `src/utils/retry-manager.ts` (the
constructor of `RetryManager` fills the defaults 3 / 1000 / 30000 / true). -/
structure RetryPolicy where
  maxAttempts : Nat
  baseDelay : ℚ
  maxDelay : ℚ
  jitter : Bool
deriving DecidableEq, Repr

/-- Policy produced by `new RetryManager({})`: every field defaulted. -/
def defaultPolicy : RetryPolicy := ⟨3, 1000, 30000, true⟩

/-- Mutable state of one `RetryManager` instance: the private fields
`failureCount`, `circuitBreakerOpen`, `lastFailureTime` next to its policy. -/
structure RMState where
  policy : RetryPolicy
  failureCount : Nat
  circuitBreakerOpen : Bool
  lastFailureTime : Nat
deriving DecidableEq, Repr

/-- State of a freshly constructed `RetryManager`. -/
def RMState.init (p : RetryPolicy) : RMState :=
  ⟨p, 0, false, 0⟩

/-- `calculateDelay` from `src/utils/retry-manager.ts` lines 64-76:
exponential backoff `baseDelay * 2^attempt`, jitter factor
`0.75 + Math.random() * 0.5` when enabled, then capped at `maxDelay`.
`rand` models the `Math.random()` sample (in `[0,1)`). -/
def calculateDelay (policy : RetryPolicy) (attempt : Nat) (rand : ℚ) : ℚ :=
  let delay := policy.baseDelay * 2 ^ attempt
  let delay := if policy.jitter then delay * (3/4 + rand * (1/2)) else delay
  min delay policy.maxDelay

/-- Result of the attempt loop inside `executeWithRetry`: the successful
value if any attempt succeeded, the failure counter afterwards, how many
times the operation was invoked, and the error of the last attempt. -/
structure LoopOut (E T : Type) where
  success : Option T
  fc : Nat
  invocations : Nat
  lastErr : Option E
deriving Repr

/-- The `for (attempt = 0; attempt < maxAttempts; attempt++)` loop of
`executeWithRetry`: `op k` is the outcome of the k-th invocation of the
operation during this call, `remaining` counts attempts still allowed,
`fc` is the current `failureCount`.  On success the counter resets to 0 and
the loop returns immediately; on failure the counter is incremented. -/
def retryLoop {E T : Type} (op : Nat → Except E T) :
    (remaining k fc : Nat) → LoopOut E T
  | 0, _, fc => ⟨none, fc, 0, none⟩
  | r + 1, k, fc =>
    match op k with
    | .ok v => ⟨some v, 0, 1, none⟩
    | .error e =>
      let rest := retryLoop op r (k + 1) (fc + 1)
      ⟨rest.success, rest.fc, rest.invocations + 1, some (rest.lastErr.getD e)⟩

/-- Errors surfaced by `executeWithRetry`: the "Circuit breaker is open"
error, the re-thrown last operation error, or the fallback
"Retry failed" error (reachable only with `maxAttempts = 0`). -/
inductive RMErr (E : Type) where
  | circuitOpen
  | opErr (e : E)
  | retryFailed
deriving DecidableEq, Repr

/-- `executeWithRetry` from `src/utils/retry-manager.ts` lines 18-62.
`tEntry` is `Date.now()` at entry (circuit-breaker check), `tEnd` is
`Date.now()` at the post-loop breaker update.  Returns the new manager
state, the settled result, and the number of operation invocations. -/
def executeWithRetry {E T : Type} (s : RMState) (tEntry tEnd : Nat)
    (op : Nat → Except E T) : RMState × Except (RMErr E) T × Nat :=
  let gate : Option RMState :=
    if s.circuitBreakerOpen then
      if tEntry - s.lastFailureTime < 60000 then none
      else some { s with circuitBreakerOpen := false, failureCount := 0 }
    else some s
  match gate with
  | none => (s, .error .circuitOpen, 0)
  | some s1 =>
    let out := retryLoop op s1.policy.maxAttempts 0 s1.failureCount
    match out.success with
    | some v => ({ s1 with failureCount := 0 }, .ok v, out.invocations)
    | none =>
      let s2 :=
        if 5 ≤ out.fc then
          { s1 with failureCount := out.fc, circuitBreakerOpen := true,
                    lastFailureTime := tEnd }
        else { s1 with failureCount := out.fc }
      (s2, .error (match out.lastErr with
                   | some e => .opErr e
                   | none => .retryFailed), out.invocations)

/-- isCircuitBreakerOpen accessor. -/
def RMState.isCircuitBreakerOpen (s : RMState) : Bool :=
  s.circuitBreakerOpen

/-- Always-failing operation used in the circuit-breaker traces. -/
def ceOp : Nat → Except String Unit := fun _ => .error "fail"

/-! Provider set construction (`ErrorLogger.initializeProviders`). -/

/-- DiscordConfig from `src/types`. -/
structure DiscordConfig where
  webhookUrl : String
  username : Option String := none
  avatarUrl : Option String := none
deriving DecidableEq, Repr

/-- SlackConfig from `src/types`. -/
structure SlackConfig where
  webhookUrl : String
  channel : Option String := none
  username : Option String := none
deriving DecidableEq, Repr

/-- SanitizationConfig from `src/types` (the `DataSanitizer` constructor
fills the defaults `enabled = true`, `excludeDefaults = false`). -/
structure SanitizationConfig where
  enabled : Bool
  customPatterns : Option (List String)
  excludeDefaults : Bool
deriving DecidableEq, Repr

/-- Configuration produced by `new DataSanitizer({})`. -/
def defaultSanitization : SanitizationConfig := ⟨true, none, false⟩

/-- The merged NotificationConfig held by the ConfigManager. -/
structure NotificationConfig where
  discord : Option DiscordConfig
  slack : Option SlackConfig
  enabled : Bool
  environment : String
  retry : RetryPolicy
  sanitization : SanitizationConfig
deriving DecidableEq, Repr

/-- The two provider variants. -/
inductive ProviderKind where
  | discord
  | slack
deriving DecidableEq, Repr

/-- A constructed provider: its kind and the index (into the list of
`RetryManager` instances created by `initializeProviders`) of the manager
its `send` path delegates to. -/
structure ProviderInst where
  kind : ProviderKind
  rmIndex : Nat
deriving DecidableEq, Repr

/-- Result of `initializeProviders`: the RetryManager instances it
constructed and the provider list. -/
structure ProviderSetup where
  managers : List RMState
  providers : List ProviderInst
deriving DecidableEq, Repr

/-- `ErrorLogger.initializeProviders` from `src/index.ts` lines 33-45: it
constructs a single `new RetryManager(config.retry)` and hands that same
instance to the `DiscordProvider` and the `SlackProvider`. -/
def initializeProviders (cfg : NotificationConfig) : ProviderSetup :=
  let retryManager := RMState.init cfg.retry
  { managers := [retryManager]
    providers :=
      (if cfg.discord.isSome then [⟨.discord, 0⟩] else []) ++
      (if cfg.slack.isSome then [⟨.slack, 0⟩] else []) }

/-- One provider `send`: the provider formats its payload and delegates the
transmission to `executeWithRetry` on the RetryManager instance it holds
(`src/providers/discord-provider.ts` / `slack-provider.ts`).  `op` models
the HTTP attempt outcomes; the manager state at the provider's `rmIndex` is
read and written back. -/
def providerSend {E : Type} (managers : List RMState) (p : ProviderInst)
    (t t' : Nat) (op : Nat → Except E Unit) :
    List RMState × Except (RMErr E) Unit × Nat :=
  match managers.get? p.rmIndex with
  | none => (managers, .error .retryFailed, 0)
  | some m =>
    let r := executeWithRetry m t t' op
    (managers.set p.rmIndex r.1, r.2.1, r.2.2)

/-- Concrete configuration with both a Discord and a Slack provider. -/
def cfgBoth : NotificationConfig :=
  { discord := some ⟨"https://discord.com/api/webhooks/1/a", none, none⟩
    slack := some ⟨"https://hooks.slack.com/services/T/B/x", none, none⟩
    enabled := true
    environment := "production"
    retry := defaultPolicy
    sanitization := defaultSanitization }

/-! DataSanitizer: the six default patterns of
`src/utils/data-sanitizer.ts` as executable matchers.  A `Matcher` takes
the character preceding the match position (for `\b`) and the remaining
input, and returns the length of the match at this position, if any —
JavaScript regex semantics: leftmost position, alternatives in source
order, greedy quantifiers with backtracking. -/

/-- JavaScript word character (`\w` = `[A-Za-z0-9_]`), as used by `\b`. -/
def isWordChar (c : Char) : Bool :=
  c.isAlpha || c.isDigit || c == '_'

/-- Word-ness of an optional character; out-of-string counts as non-word. -/
def isWordOpt : Option Char → Bool
  | none => false
  | some c => isWordChar c

/-- JavaScript `\b`: the word-ness changes between adjacent positions. -/
def bdry (prev cur : Option Char) : Bool :=
  isWordOpt prev != isWordOpt cur

/-- Case-insensitive character comparison against a lowercase pattern
character (the `i` flag; ASCII). -/
def ciChar (p c : Char) : Bool :=
  c.toLower == p

/-- Case-insensitive literal prefix test. -/
def ciPref : List Char → List Char → Bool
  | [], _ => true
  | _ :: _, [] => false
  | p :: ps, c :: cs => ciChar p c && ciPref ps cs

/-- First alternative (in source order) that literally matches at this
position, returning its length — the alternation of a keyword regex. -/
def matchKws (kws : List (List Char)) (s : List Char) : Option Nat :=
  match kws with
  | [] => none
  | k :: rest => if ciPref k s then some k.length else matchKws rest s

/-- A matcher: previous character (for `\b` context) and remaining input to
the length of the match starting here, if any. -/
def Matcher : Type :=
  Option Char → List Char → Option Nat

/-- Lift a context-free match function (a regex without `\b`). -/
def cf (f : List Char → Option Nat) : Matcher :=
  fun _ s => f s

/-- The suffix `[_-]?key` of the `api[_-]?key` / `private[_-]?key`
alternatives: greedy optional separator, then `key`. -/
def sepKeyAt (s : List Char) : Bool × Bool :=
  (match s with
   | c :: rest => (c == '_' || c == '-') && ciPref ['k', 'e', 'y'] rest
   | [] => false,
   ciPref ['k', 'e', 'y'] s)

/-- `/password|passwd|pwd/gi` (pattern 1). -/
def p1At (s : List Char) : Option Nat :=
  matchKws [['p','a','s','s','w','o','r','d'],
            ['p','a','s','s','w','d'],
            ['p','w','d']] s

/-- An alternative of the shape `stem[_-]?key` (greedy optional separator):
`api[_-]?key` and `private[_-]?key`. -/
def stemKeyAt (stem : List Char) (s : List Char) : Option Nat :=
  if ciPref stem s then
    match sepKeyAt (s.drop stem.length) with
    | (true, _) => some (stem.length + 4)
    | (false, true) => some (stem.length + 3)
    | (false, false) => none
  else none

/-- `/token|bearer|jwt|api[_-]?key/gi` (pattern 2). -/
def p2At (s : List Char) : Option Nat :=
  match matchKws [['t','o','k','e','n'], ['b','e','a','r','e','r'],
                  ['j','w','t']] s with
  | some n => some n
  | none => stemKeyAt ['a','p','i'] s

/-- `/secret|private[_-]?key/gi` (pattern 3). -/
def p3At (s : List Char) : Option Nat :=
  match matchKws [['s','e','c','r','e','t']] s with
  | some n => some n
  | none => stemKeyAt ['p','r','i','v','a','t','e'] s

/-- Local-part class `[A-Za-z0-9._%+-]` of the email pattern. -/
def cls1 (c : Char) : Bool :=
  c.isAlpha || c.isDigit || c == '.' || c == '_' || c == '%' || c == '+' ||
    c == '-'

/-- Domain class `[A-Za-z0-9.-]` of the email pattern. -/
def cls2 (c : Char) : Bool :=
  c.isAlpha || c.isDigit || c == '.' || c == '-'

/-- TLD class `[A-Z|a-z]` of the email pattern (the `|` inside the class is
a literal). -/
def clsTld (c : Char) : Bool :=
  c.isAlpha || c == '|'

/-- Countdown `[n, n-1, …, 1]`: the candidate lengths a greedy quantifier
tries, longest first. -/
def countdown : Nat → List Nat
  | 0 => []
  | n + 1 => (n + 1) :: countdown n

/-- TLD candidate check of the email pattern: `t ≥ 2` characters of the TLD
class followed by a `\b`. -/
def tldOk (afterDot : List Char) (t : Nat) : Bool :=
  decide (2 ≤ t) &&
  (match afterDot.get? (t - 1) with
   | some lc => isWordChar lc != isWordOpt (afterDot.get? t)
   | none => false)

/-- Email pattern after the `@`, for one backtracking choice `d` of the
domain length: require a literal `.` next, then try TLD lengths greedily. -/
def emailTailAt (locLen : Nat) (rest2 : List Char) (d : Nat) : Option Nat :=
  if rest2.get? d = some '.' then
    (countdown ((rest2.drop (d + 1)).takeWhile clsTld).length).findSome?
      (fun t =>
        if tldOk (rest2.drop (d + 1)) t then some (locLen + 1 + d + 1 + t)
        else none)
  else none

/-- `/\b[A-Za-z0-9._%+-]+@[A-Za-z0-9.-]+\.[A-Z|a-z]{2,}\b/g` (pattern 4):
leading `\b`, maximal local part (nothing of the class follows it, and `@`
is outside the class, so the `+` needs no backtracking), literal `@`, then
greedy backtracking over the domain length and the TLD length. -/
def emailAt : Matcher := fun prev s =>
  let loc := s.takeWhile cls1
  if loc.length = 0 then none
  else if bdry prev s.head? then
    match s.drop loc.length with
    | '@' :: rest2 =>
      (countdown ((rest2.takeWhile cls2).length)).findSome?
        (emailTailAt loc.length rest2)
    | _ => none
  else none

/-- Run of `n` decimal digits starting at index `i`. -/
def digitsFrom (s : List Char) (i n : Nat) : Bool :=
  ((s.drop i).take n).all (·.isDigit) && ((s.drop i).take n).length = n

/-- Group separator `[- ]` at index `i`. -/
def sepOk (s : List Char) (i : Nat) : Bool :=
  match s.get? i with
  | some c => c == '-' || c == ' '
  | none => false

/-- One backtracking choice of `/\b\d{4}[- ]?\d{4}[- ]?\d{4}[- ]?\d{4}\b/g`:
the components of `tr` say whether each optional separator is taken. -/
def cardTry (s : List Char) (tr : Bool × Bool × Bool) : Option Nat :=
  let o1 := 4 + (if tr.1 then 1 else 0)
  let o2 := o1 + 4 + (if tr.2.1 then 1 else 0)
  let o3 := o2 + 4 + (if tr.2.2 then 1 else 0)
  if digitsFrom s 0 4 && (!tr.1 || sepOk s 4) &&
     digitsFrom s o1 4 && (!tr.2.1 || sepOk s (o1 + 4)) &&
     digitsFrom s o2 4 && (!tr.2.2 || sepOk s (o2 + 4)) &&
     digitsFrom s o3 4 &&
     (match s.get? (o3 + 3) with
      | some lc => isWordChar lc != isWordOpt (s.get? (o3 + 4))
      | none => false)
  then some (o3 + 4) else none

/-- Pattern 5 (card-like numbers): leading `\b`, then the separator choices
in backtracking order (greedy `?` prefers the separator, rightmost choice
point backtracks first). -/
def cardAt : Matcher := fun prev s =>
  if bdry prev s.head? then
    [(true, true, true), (true, true, false), (true, false, true),
     (true, false, false), (false, true, true), (false, true, false),
     (false, false, true), (false, false, false)].findSome? (cardTry s)
  else none

/-- `/\b\d{3}-\d{2}-\d{4}\b/g` (pattern 6, SSN-like). -/
def ssnAt : Matcher := fun prev s =>
  if bdry prev s.head? && digitsFrom s 0 3 && (s.get? 3 == some '-') &&
     digitsFrom s 4 2 && (s.get? 6 == some '-') && digitsFrom s 7 4 &&
     (match s.get? 10 with
      | some lc => isWordChar lc != isWordOpt (s.get? 11)
      | none => false)
  then some 11 else none

/-- The redaction marker `'[REDACTED]'`. -/
def redactedM : List Char :=
  ['[', 'R', 'E', 'D', 'A', 'C', 'T', 'E', 'D', ']']

/-- `String.replace(pattern, '[REDACTED]')` with a global regex: scan left
to right, at each position attempt the match; on a match of length `n`
emit the marker and resume after the match (the `max · 1` only forces
termination — every matcher in this file matches at least one character,
see the positivity lemmas). -/
def replaceAll (m : Matcher) (prev : Option Char) (s : List Char) :
    List Char :=
  match s with
  | [] => []
  | c :: rest =>
    match m prev (c :: rest) with
    | some n =>
      redactedM ++ replaceAll m ((c :: rest).get? (max n 1 - 1))
        ((c :: rest).drop (max n 1))
    | none => c :: replaceAll m (some c) rest
termination_by s.length
decreasing_by
  · simp only [List.length_drop, List.length_cons]
    omega
  · simp only [List.length_cons]
    omega

/-- The default-pattern pass of `sanitizeString`: the six `defaultPatterns`
replacements applied in source order. -/
def defaultReplace (s : List Char) : List Char :=
  replaceAll ssnAt none (replaceAll cardAt none (replaceAll emailAt none
    (replaceAll (cf p3At) none (replaceAll (cf p2At) none
      (replaceAll (cf p1At) none s)))))

/-! Generic machinery for the idempotence proof: a matcher that fails at
every position of a string, and the structure of one `replaceAll` pass. -/

/-- The matcher fails at every position of `s`, scanning with the
character-by-character context chain starting from `prev`. -/
def noMatch (m : Matcher) : Option Char → List Char → Prop
  | _, [] => True
  | prev, c :: rest => m prev (c :: rest) = none ∧ noMatch m (some c) rest

/-- At every position of `s` where `m'` fails, `m` fails as well.  This
holds trivially for `m = m'`, and follows from `noMatch m` for the
preservation direction, so one lemma covers a self-clearing pass and a
pass of a later pattern. -/
def subsumes (m m' : Matcher) : Option Char → List Char → Prop
  | _, [] => True
  | prev, c :: rest =>
    (m' prev (c :: rest) = none → m prev (c :: rest) = none) ∧
      subsumes m m' (some c) rest

/-- The context the scan carries after walking over a segment `A`. -/
def ctxAfter (prev : Option Char) (A : List Char) : Option Char :=
  A.getLast?.or prev

/-- The matcher fails at every position of the segment `A` (each suffix of
`A` continued by `B`), scanning from `prev`. -/
def noMatchPre (m : Matcher) : Option Char → List Char → List Char → Prop
  | _, [], _ => True
  | prev, a :: A', B =>
    m prev (a :: (A' ++ B)) = none ∧ noMatchPre m (some a) A' B

/-- The matcher fails at every start position inside the redaction marker,
whatever follows it and whatever precedes. -/
def MarkerImmune (m : Matcher) : Prop :=
  ∀ (prev : Option Char) (tail rest : List Char),
    tail ∈ redactedM.tails → tail ≠ [] → m prev (tail ++ rest) = none

/-! `new RegExp(pattern, flags)` for the custom patterns: an ECMAScript
pattern parser (returning `none` exactly where the constructor throws a
SyntaxError: unterminated group or class, nothing to repeat, out-of-order
range or repetition bounds, dangling backslash) and a backtracking matcher.
Lookaround groups are outside the modeled subset. All custom-pattern uses
in the source carry the `i` flag, so matching is case-insensitive
throughout. -/

/-- Item of a character class `[...]`. -/
inductive ClsItem where
  | lit (c : Char)
  | rng (lo hi : Char)
  | cesc (c : Char)
deriving DecidableEq, Repr

mutual
/-- One quantifiable atom of a pattern. -/
inductive RAtom where
  | rchr (c : Char)
  | rdot
  | resc (c : Char)
  | rcls (neg : Bool) (items : List ClsItem)
  | rgrp (r : RExp)
  | rbol
  | reol

/-- An atom with its repetition bounds (`lo`/`hi`, `hi = none` unbounded)
and laziness. -/
inductive RPiece where
  | piece (a : RAtom) (lo : Nat) (hi : Option Nat) (lazy : Bool)

/-- Alternation of sequences, in source order. -/
inductive RExp where
  | ralt (branches : List (List RPiece))
end

/-- Class body after `[`, up to the closing `]`; `none` on an unterminated
class, a dangling backslash, or an out-of-order range. -/
def parseCls : Nat → List Char → Option (List ClsItem × List Char)
  | 0, _ => none
  | _, [] => none
  | _ + 1, ']' :: rest => some ([], rest)
  | fuel + 1, '\\' :: c :: rest => do
      let (items, r) ← parseCls fuel rest
      pure (.cesc c :: items, r)
  | _ + 1, ['\\'] => none
  | fuel + 1, a :: '-' :: c :: rest =>
      if c = ']' then do
        let (items, r) ← parseCls fuel (']' :: rest)
        pure (.lit a :: .lit '-' :: items, r)
      else if c = '\\' then do
        let (items, r) ← parseCls fuel ('\\' :: rest)
        pure (.lit a :: .lit '-' :: items, r)
      else if a ≤ c then do
        let (items, r) ← parseCls fuel rest
        pure (.rng a c :: items, r)
      else none
  | fuel + 1, a :: rest => do
      let (items, r) ← parseCls fuel rest
      pure (.lit a :: items, r)

/-- Decimal literal. -/
def digitsToNat (ds : List Char) : Nat :=
  ds.foldl (fun a c => a * 10 + (c.toNat - 48)) 0

/-- A run of digits. -/
def parseNatLit (s : List Char) : Option (Nat × List Char) :=
  let ds := s.takeWhile (·.isDigit)
  if ds.length = 0 then none
  else some (digitsToNat ds, s.drop ds.length)

/-- Optional lazy marker after a quantifier. -/
def lazyMark : List Char → Bool × List Char
  | '?' :: rest => (true, rest)
  | s => (false, s)

/-- Quantifier after an atom (`*`, `+`, `?`, `{m}`, `{m,}`, `{m,n}`); a
`{` not forming a quantifier is a literal (Annex B) and is left in place;
`{m,n}` with `m > n` is a SyntaxError. -/
def parseQuant (s : List Char) :
    Option (Option (Nat × Option Nat × Bool) × List Char) :=
  match s with
  | '*' :: rest => let (lz, r) := lazyMark rest; some (some (0, none, lz), r)
  | '+' :: rest => let (lz, r) := lazyMark rest; some (some (1, none, lz), r)
  | '?' :: rest =>
    let (lz, r) := lazyMark rest; some (some (0, some 1, lz), r)
  | '{' :: rest =>
    match parseNatLit rest with
    | none => some (none, s)
    | some (m, r1) =>
      match r1 with
      | '}' :: r2 =>
        let (lz, r) := lazyMark r2; some (some (m, some m, lz), r)
      | ',' :: '}' :: r2 =>
        let (lz, r) := lazyMark r2; some (some (m, none, lz), r)
      | ',' :: r2 =>
        match parseNatLit r2 with
        | some (n, '}' :: r3) =>
          if m ≤ n then
            let (lz, r) := lazyMark r3; some (some (m, some n, lz), r)
          else none
        | _ => some (none, s)
      | _ => some (none, s)
  | _ => some (none, s)

mutual
/-- `Alternative ('|' Alternative)*`. -/
def parseAlt : Nat → List Char → Option (RExp × List Char)
  | 0, _ => none
  | fuel + 1, s => do
    let (seq, r1) ← parseSeq fuel s
    match r1 with
    | '|' :: r2 => do
        let (rst, r3) ← parseAlt fuel r2
        match rst with
        | RExp.ralt bs => pure (RExp.ralt (seq :: bs), r3)
    | _ => pure (RExp.ralt [seq], r1)

/-- A run of pieces, ending at `|`, `)` or the end of the pattern. -/
def parseSeq : Nat → List Char → Option (List RPiece × List Char)
  | 0, _ => none
  | fuel + 1, s =>
    match s with
    | [] => some ([], [])
    | '|' :: _ => some ([], s)
    | ')' :: _ => some ([], s)
    | _ => do
      let (a, r1) ← parseAtom fuel s
      let (qopt, r2) ← parseQuant r1
      let p : RPiece :=
        match qopt with
        | none => .piece a 1 (some 1) false
        | some (lo, hi, lz) => .piece a lo hi lz
      let (ps, r3) ← parseSeq fuel r2
      pure (p :: ps, r3)

/-- One atom: group (with its closing `)`), class, escape, `.`, anchors, or
a literal; a quantifier with nothing to repeat is a SyntaxError. -/
def parseAtom : Nat → List Char → Option (RAtom × List Char)
  | 0, _ => none
  | fuel + 1, s =>
    match s with
    | [] => none
    | '(' :: rest => do
        let body := match rest with
          | '?' :: ':' :: r2 => r2
          | _ => rest
        let (r, r1) ← parseAlt fuel body
        match r1 with
        | ')' :: r2 => pure (RAtom.rgrp r, r2)
        | _ => none
    | '[' :: '^' :: rest => do
        let (items, r) ← parseCls fuel rest
        pure (RAtom.rcls true items, r)
    | '[' :: rest => do
        let (items, r) ← parseCls fuel rest
        pure (RAtom.rcls false items, r)
    | '\\' :: c :: rest => pure (RAtom.resc c, rest)
    | ['\\'] => none
    | '.' :: rest => pure (RAtom.rdot, rest)
    | '^' :: rest => pure (RAtom.rbol, rest)
    | '$' :: rest => pure (RAtom.reol, rest)
    | '*' :: _ => none
    | '+' :: _ => none
    | '?' :: _ => none
    | c :: rest => pure (RAtom.rchr c, rest)
end

/-- `new RegExp(pattern, 'gi' / 'i')`: `none` models the thrown
SyntaxError.  The fuel is an upper bound on the recursion depth of the
descent, which consumes input at every level. -/
def compileRegex (pat : String) : Option RExp :=
  match parseAlt (3 * pat.length + 9) pat.data with
  | some (r, []) => some r
  | _ => none

/-- Case-insensitive character comparison (`i` flag). -/
def ciEq (a b : Char) : Bool :=
  a.toLower == b.toLower

/-- A class escape (`\d`, `\w`, `\s`, ... ; other escaped characters match
themselves). -/
def clsEscMatch (e : Char) (c : Char) : Bool :=
  match e with
  | 'd' => c.isDigit
  | 'D' => !c.isDigit
  | 'w' => isWordChar c
  | 'W' => !(isWordChar c)
  | 's' => c.isWhitespace
  | 'S' => !c.isWhitespace
  | 'n' => c == '\n'
  | 't' => c == '\t'
  | 'r' => c == '\r'
  | _ => ciEq e c

/-- Membership of `c` in one class item, with `i`-flag canonicalization on
ranges. -/
def clsItemMatch (c : Char) : ClsItem → Bool
  | .lit l => ciEq l c
  | .rng lo hi =>
    (decide (lo ≤ c) && decide (c ≤ hi)) ||
    (decide (lo ≤ c.toLower) && decide (c.toLower ≤ hi)) ||
    (decide (lo ≤ c.toUpper) && decide (c.toUpper ≤ hi))
  | .cesc e => clsEscMatch e c

mutual
/-- Try the branches of an alternation in source order. -/
def mAlt : Nat → RExp → Option Char → List Char →
    (Option Char → List Char → Option Nat) → Option Nat
  | 0, _, _, _, _ => none
  | fuel + 1, .ralt bs, prev, s, k => mBranches fuel bs prev s k

def mBranches : Nat → List (List RPiece) → Option Char → List Char →
    (Option Char → List Char → Option Nat) → Option Nat
  | 0, _, _, _, _ => none
  | _ + 1, [], _, _, _ => none
  | fuel + 1, b :: bs, prev, s, k =>
    match mSeq fuel b prev s k with
    | some r => some r
    | none => mBranches fuel bs prev s k

def mSeq : Nat → List RPiece → Option Char → List Char →
    (Option Char → List Char → Option Nat) → Option Nat
  | 0, _, _, _, _ => none
  | _ + 1, [], prev, s, k => k prev s
  | fuel + 1, p :: ps, prev, s, k =>
    mPiece fuel p prev s (fun prev2 s2 => mSeq fuel ps prev2 s2 k)

def mPiece : Nat → RPiece → Option Char → List Char →
    (Option Char → List Char → Option Nat) → Option Nat
  | 0, _, _, _, _ => none
  | fuel + 1, .piece a lo hi lz, prev, s, k => mRep fuel a lo hi lz prev s k

/-- Bounded repetition of an atom: mandatory occurrences first, then the
optional ones greedily (or lazily), with backtracking through the
continuation. -/
def mRep : Nat → RAtom → Nat → Option Nat → Bool → Option Char →
    List Char → (Option Char → List Char → Option Nat) → Option Nat
  | 0, _, _, _, _, _, _, _ => none
  | fuel + 1, a, lo, hi, lz, prev, s, k =>
    match lo, hi with
    | 0, some 0 => k prev s
    | 0, _ =>
      if lz then
        match k prev s with
        | some r => some r
        | none => mAtom fuel a prev s (fun p2 s2 =>
            mRep fuel a 0 (hi.map (· - 1)) lz p2 s2 k)
      else
        match mAtom fuel a prev s (fun p2 s2 =>
            mRep fuel a 0 (hi.map (· - 1)) lz p2 s2 k) with
        | some r => some r
        | none => k prev s
    | lo' + 1, _ =>
      mAtom fuel a prev s (fun p2 s2 =>
        mRep fuel a lo' (hi.map (· - 1)) lz p2 s2 k)

def mAtom : Nat → RAtom → Option Char → List Char →
    (Option Char → List Char → Option Nat) → Option Nat
  | 0, _, _, _, _ => none
  | fuel + 1, a, prev, s, k =>
    match a with
    | .rchr c =>
      match s with
      | x :: rest => if ciEq c x then k (some x) rest else none
      | [] => none
    | .rdot =>
      match s with
      | x :: rest => if x == '\n' || x == '\r' then none else k (some x) rest
      | [] => none
    | .resc 'b' =>
      if isWordOpt prev != isWordOpt s.head? then k prev s else none
    | .resc 'B' =>
      if isWordOpt prev == isWordOpt s.head? then k prev s else none
    | .resc e =>
      match s with
      | x :: rest => if clsEscMatch e x then k (some x) rest else none
      | [] => none
    | .rcls neg items =>
      match s with
      | x :: rest =>
        if (items.any (clsItemMatch x)) != neg then k (some x) rest else none
      | [] => none
    | .rgrp r => mAlt fuel r prev s k
    | .rbol => if prev = none then k prev s else none
    | .reol =>
      match s with
      | [] => k prev s
      | _ => none
end

mutual
/-- Size of an atom, for the fuel bound. -/
def atomSize : RAtom → Nat
  | .rgrp r => 1 + expSize r
  | _ => 1

/-- Size of a piece. -/
def pieceSize : RPiece → Nat
  | .piece a _ _ _ => 1 + atomSize a

/-- Size of a sequence. -/
def seqSize : List RPiece → Nat
  | [] => 1
  | p :: ps => pieceSize p + seqSize ps

/-- Size of an alternation's branches. -/
def branchesSize : List (List RPiece) → Nat
  | [] => 1
  | b :: bs => seqSize b + branchesSize bs

/-- Size of a pattern. -/
def expSize : RExp → Nat
  | .ralt bs => 1 + branchesSize bs
end

/-- Fuel bound for one anchored attempt; every backtracking step consumes
fuel, and this bound is far above every use in this file. -/
def mFuel (re : RExp) (s : List Char) : Nat :=
  (expSize re + 2) * (s.length + 2) * 4

/-- One anchored match attempt: the number of characters consumed by the
first match in backtracking order, if any. -/
def matchLen (re : RExp) (prev : Option Char) (s : List Char) : Option Nat :=
  mAlt (mFuel re s) re prev s (fun _ rest => some (s.length - rest.length))

/-- `regex.test(str)`: a match at some position. -/
def regexTestFrom (re : RExp) : Option Char → List Char → Bool
  | prev, [] => (matchLen re prev []).isSome
  | prev, c :: rest =>
    (matchLen re prev (c :: rest)).isSome || regexTestFrom re (some c) rest

/-- `new RegExp(pattern, 'i').test(key)`. -/
def regexTest (re : RExp) (s : List Char) : Bool :=
  regexTestFrom re none s

/-- `str.replace(regex, '[REDACTED]')` with the `g` flag: scan left to
right; a zero-length match emits the marker and advances one character (the
lastIndex rule). Each step consumes at least one character, so
`s.length + 1` fuel always suffices. -/
def rrAllF (re : RExp) : Nat → Option Char → List Char → List Char
  | 0, _, s => s
  | fuel + 1, prev, s =>
    match matchLen re prev s, s with
    | some 0, [] => redactedM
    | some 0, c :: rest => redactedM ++ c :: rrAllF re fuel (some c) rest
    | some (n + 1), _ =>
      redactedM ++ rrAllF re fuel (s.get? n) (s.drop (n + 1))
    | none, [] => []
    | none, c :: rest => c :: rrAllF re fuel (some c) rest

/-- Global replace-all by the marker. -/
def regexReplaceAll (re : RExp) (s : List Char) : List Char :=
  rrAllF re (s.length + 1) none s

/-! `DataSanitizer.sanitize` over JSON-like runtime values. A thrown
SyntaxError from `new RegExp` is modeled as `Except.error`. -/

/-- Exception escaping the sanitization path. -/
inductive SanErr where
  | invalidRegex (pat : String)
deriving DecidableEq, Repr

/-- JSON-like runtime values (`typeof`: string / number / boolean /
object(null) / undefined / array / plain object with insertion-ordered
keys). -/
inductive JValue where
  | vstr (s : List Char)
  | vnum (n : Int)
  | vbool (b : Bool)
  | vnull
  | vundef
  | varr (xs : List JValue)
  | vobj (kvs : List (List Char × JValue))

/-- `regex.test` for an anchored match function: a match at some
position. -/
def scanTest (f : List Char → Option Nat) : List Char → Bool
  | [] => (f []).isSome
  | c :: rest => (f (c :: rest)).isSome || scanTest f rest

/-- The custom-pattern loop of `keyMatchesSensitivePattern`: compile each
with the `i` flag and return `true` at the first key match; a later invalid
pattern is never reached after a hit. -/
def customKeyTest : List String → List Char → Except SanErr Bool
  | [], _ => .ok false
  | pat :: rest, key =>
    match compileRegex pat with
    | none => .error (.invalidRegex pat)
    | some re =>
      if regexTest re key then .ok true else customKeyTest rest key

/-- `DataSanitizer.keyMatchesSensitivePattern`: custom patterns first (each
compiled with `new RegExp(pattern, 'i')`), then, unless defaults are
excluded, the three keyword families. -/
def keyMatchesSensitivePattern (cfg : SanitizationConfig)
    (key : List Char) : Except SanErr Bool := do
  let c ← match cfg.customPatterns with
    | none => pure false
    | some pats => customKeyTest pats key
  if c then pure true
  else if cfg.excludeDefaults then pure false
  else pure (scanTest p1At key || scanTest p2At key || scanTest p3At key)

/-- `DataSanitizer.sanitizeString`: the custom patterns first (each
compiled with `new RegExp(pattern, 'gi')`, throwing on an invalid one),
then, unless excluded, the six default patterns in source order. -/
def sanitizeString (cfg : SanitizationConfig) (s : List Char) :
    Except SanErr (List Char) := do
  let afterCustom ←
    match cfg.customPatterns with
    | none => pure s
    | some pats => pats.foldlM (fun acc pat =>
        match compileRegex pat with
        | none => .error (.invalidRegex pat)
        | some re => pure (regexReplaceAll re acc)) s
  if cfg.excludeDefaults then pure afterCustom
  else pure (defaultReplace afterCustom)

mutual
/-- `DataSanitizer.sanitize`: disabled passes everything through; strings
go to `sanitizeString`, arrays and objects to `sanitizeObject`, all other
values pass through. -/
def sanitize (cfg : SanitizationConfig) : JValue → Except SanErr JValue
  | .vstr s =>
    if cfg.enabled = false then .ok (.vstr s)
    else (sanitizeString cfg s).map .vstr
  | .varr xs =>
    if cfg.enabled = false then .ok (.varr xs)
    else (sanitizeArr cfg xs).map .varr
  | .vobj kvs =>
    if cfg.enabled = false then .ok (.vobj kvs)
    else (sanitizeObj cfg kvs).map .vobj
  | w => .ok w
termination_by v => sizeOf v

/-- The array branch of `sanitizeObject`: `obj.map(item =>
this.sanitize(item))`. -/
def sanitizeArr (cfg : SanitizationConfig) :
    List JValue → Except SanErr (List JValue)
  | [] => .ok []
  | x :: xs => do
      let y ← sanitize cfg x
      let ys ← sanitizeArr cfg xs
      pure (y :: ys)
termination_by xs => sizeOf xs

/-- The object branch of `sanitizeObject`: a key matching a sensitive
pattern redacts the whole value without recursion; other values are
sanitized recursively; keys are kept as they are. -/
def sanitizeObj (cfg : SanitizationConfig) :
    List (List Char × JValue) → Except SanErr (List (List Char × JValue))
  | [] => .ok []
  | (k, x) :: kvs => do
      let km ← keyMatchesSensitivePattern cfg k
      let y ← if km then pure (JValue.vstr redactedM) else sanitize cfg x
      let ys ← sanitizeObj cfg kvs
      pure ((k, y) :: ys)
termination_by kvs => sizeOf kvs
end

/-! `ErrorLogger` dispatch: `sendNotification` and the two capture
methods, with the observable outcome of one call (resolution/rejection of
the returned promise, sanitizer runs, settled per-provider results, and
the RetryManager states afterwards). -/

/-- ErrorLogger instance state after the constructor: the merged config,
the sanitizer built from `config.sanitization`, and the providers and the
RetryManager instances from `initializeProviders`. -/
structure LoggerState where
  config : NotificationConfig
  sanitizerCfg : SanitizationConfig
  managers : List RMState
  providers : List ProviderInst

/-- `new ErrorLogger(cfg)` (environment merging aside). -/
def ErrorLogger.init (cfg : NotificationConfig) : LoggerState :=
  { config := cfg
    sanitizerCfg := cfg.sanitization
    managers := (initializeProviders cfg).managers
    providers := (initializeProviders cfg).providers }

/-- Observable outcome of one `sendNotification` call. `settled` has one
entry per provider whose send was started (its settled delivery outcome and
how often its operation ran). -/
structure SendOutcome where
  result : Except SanErr Unit
  sanitizerCalls : Nat
  settled : List (Except (RMErr String) Unit × Nat)
  managers : List RMState

/-- `ErrorLogger.sendNotification`: the enabled gate returns first; the
sanitizer runs OUTSIDE any try/catch, so its exception rejects the returned
promise; each provider send is wrapped in its own try/catch (a delivery
failure is logged, not re-thrown) and `Promise.allSettled` awaits them
all.  The single-threaded provider loop is modeled sequentially;
`op i attempt` is the delivery outcome of provider `i`'s attempt. -/
def sendNotification (st : LoggerState) (v : JValue)
    (op : Nat → Nat → Except String Unit) (t t' : Nat) : SendOutcome :=
  if st.config.enabled = false then
    ⟨.ok (), 0, [], st.managers⟩
  else
    match sanitize st.sanitizerCfg v with
    | .error e => ⟨.error e, 1, [], st.managers⟩
    | .ok _ =>
      let fin := st.providers.enum.foldl
        (fun acc ip =>
          let r := providerSend acc.1 ip.2 t t' (op ip.1)
          (r.1, acc.2 ++ [(r.2.1, r.2.2)]))
        (st.managers, ([] : List (Except (RMErr String) Unit × Nat)))
      ⟨.ok (), 1, fin.2, fin.1⟩

/-- `ErrorLogger.captureMessage`: builds the notification object (message,
severity, timestamp, metadata, environment) and awaits
`sendNotification`. -/
def captureMessage (st : LoggerState) (message : List Char)
    (level : List Char) (metadata : JValue) (timestamp : List Char)
    (op : Nat → Nat → Except String Unit) (t t' : Nat) : SendOutcome :=
  sendNotification st (.vobj [("message".data, .vstr message),
    ("severity".data, .vstr level),
    ("timestamp".data, .vstr timestamp),
    ("metadata".data, metadata),
    ("environment".data, .vstr st.config.environment.data)]) op t t'

/-- `ErrorLogger.captureException`: severity `error`, with the stack
field. -/
def captureException (st : LoggerState) (message : List Char)
    (stack metadata : JValue) (timestamp : List Char)
    (op : Nat → Nat → Except String Unit) (t t' : Nat) : SendOutcome :=
  sendNotification st (.vobj [("message".data, .vstr message),
    ("severity".data, .vstr "error".data),
    ("timestamp".data, .vstr timestamp),
    ("stack".data, stack),
    ("metadata".data, metadata),
    ("environment".data, .vstr st.config.environment.data)]) op t t'

/-- Dispatcher configuration whose sanitizer holds the invalid custom
pattern `"("`. -/
def cfgBadSan : NotificationConfig :=
  { cfgBoth with sanitization := ⟨true, some ["("], false⟩ }

/-- Dispatcher configuration that is globally disabled. -/
def cfgDisabled : NotificationConfig := { cfgBoth with enabled := false }

/-! Lemmas about the attempt loop. -/

theorem retryLoop_invocations_le {E T : Type} (op : Nat → Except E T) :
    ∀ r k fc, (retryLoop op r k fc).invocations ≤ r := by
  intro r
  induction r with
  | zero => intro k fc; simp [retryLoop]
  | succ r ih =>
    intro k fc
    rcases h : op k with e | v
    · simpa [retryLoop, h] using Nat.succ_le_succ (ih (k + 1) (fc + 1))
    · simp [retryLoop, h]

theorem retryLoop_allFail {E T : Type} (errf : Nat → E) :
    ∀ r k fc, retryLoop (E := E) (T := T) (fun i => .error (errf i)) r k fc =
      ⟨none, fc + r, r, if r = 0 then none else some (errf (k + r - 1))⟩ := by
  intro r
  induction r with
  | zero => intro k fc; simp [retryLoop]
  | succ r ih =>
    intro k fc
    simp only [retryLoop, ih (k + 1) (fc + 1)]
    rcases Nat.eq_zero_or_pos r with hr | hr
    · subst hr; simp
    · have hr' : r ≠ 0 := by omega
      have hidx : k + 1 + r - 1 = k + (r + 1) - 1 := by omega
      simp only [if_neg hr', if_neg (Nat.succ_ne_zero r), Option.getD_some, hidx,
        LoopOut.mk.injEq, true_and, and_true]
      omega

theorem retryLoop_succeeds {E T : Type} (op : Nat → Except E T) (v : T) :
    ∀ j r k fc, (∀ i, i < j → ∃ e, op (k + i) = .error e) →
      op (k + j) = .ok v → j < r →
      (retryLoop op r k fc).success = some v ∧
      (retryLoop op r k fc).fc = 0 ∧
      (retryLoop op r k fc).invocations = j + 1 := by
  intro j
  induction j with
  | zero =>
    intro r k fc _ hok hr
    obtain ⟨r', rfl⟩ : ∃ r', r = r' + 1 := ⟨r - 1, by omega⟩
    simp only [Nat.add_zero] at hok
    simp [retryLoop, hok]
  | succ j ih =>
    intro r k fc hfail hok hr
    obtain ⟨r', rfl⟩ : ∃ r', r = r' + 1 := ⟨r - 1, by omega⟩
    obtain ⟨e, he⟩ := hfail 0 (Nat.succ_pos j)
    simp only [Nat.add_zero] at he
    have ihr := ih r' (k + 1) (fc + 1)
      (fun i hi => by
        obtain ⟨e', he'⟩ := hfail (i + 1) (by omega)
        exact ⟨e', by rw [← he']; ring_nf⟩)
      (by rw [← hok]; ring_nf) (by omega)
    simp only [retryLoop, he]
    exact ⟨ihr.1, ihr.2.1, by rw [ihr.2.2]⟩

/-- Evaluation of `executeWithRetry` with the breaker closed on an operation
failing at every invocation. -/
theorem executeWithRetry_allFail {E T : Type} (s : RMState) (t t' : Nat)
    (errf : Nat → E) (hclosed : s.circuitBreakerOpen = false)
    (hmax : s.policy.maxAttempts ≠ 0) :
    executeWithRetry (T := T) s t t' (fun i => .error (errf i)) =
      ((if 5 ≤ s.failureCount + s.policy.maxAttempts then
          { s with failureCount := s.failureCount + s.policy.maxAttempts,
                   circuitBreakerOpen := true, lastFailureTime := t' }
        else { s with failureCount := s.failureCount + s.policy.maxAttempts }),
       .error (.opErr (errf (s.policy.maxAttempts - 1))), s.policy.maxAttempts) := by
  have hloop := retryLoop_allFail (T := T) errf s.policy.maxAttempts 0 s.failureCount
  simp only [executeWithRetry, hclosed, Bool.false_eq_true, if_false, hloop,
    if_neg hmax, Nat.zero_add]

/-- Evaluation of `executeWithRetry` with the breaker closed on an operation
that fails `j` times and then succeeds. -/
theorem executeWithRetry_succeeds {E T : Type} (s : RMState) (t t' : Nat)
    (op : Nat → Except E T) (v : T) (j : Nat)
    (hclosed : s.circuitBreakerOpen = false)
    (hfail : ∀ i, i < j → ∃ e, op i = .error e) (hok : op j = .ok v)
    (hj : j < s.policy.maxAttempts) :
    executeWithRetry s t t' op = ({ s with failureCount := 0 }, .ok v, j + 1) := by
  have hloop := retryLoop_succeeds op v j s.policy.maxAttempts 0 s.failureCount
    (fun i hi => by simpa using hfail i hi) (by simpa using hok) hj
  rcases hres : retryLoop op s.policy.maxAttempts 0 s.failureCount with ⟨su, fc, inv, le⟩
  rw [hres] at hloop
  simp only at hloop
  simp only [executeWithRetry, hclosed, Bool.false_eq_true, if_false, hres,
    hloop.1, hloop.2.2]

/-- Claim C6: Retry bound.  With the breaker closed: (a) the operation is
invoked at most `maxAttempts` times; (b) if it fails on every invocation
(and `maxAttempts ≥ 1`, as the RetryPolicy data model requires), it is
invoked exactly `maxAttempts` times and the call rejects with the error of
the last attempt; (c) if the first `j` invocations fail and invocation `j`
succeeds (`j < maxAttempts`), the success value is returned, the failure
counter resets to 0, and exactly `j + 1` invocations occur. -/
theorem claim_C6_retry_bound {E T : Type} (s : RMState) (tEntry tEnd : Nat)
    (hclosed : s.circuitBreakerOpen = false) :
    (∀ op : Nat → Except E T,
      (executeWithRetry s tEntry tEnd op).2.2 ≤ s.policy.maxAttempts) ∧
    (∀ errf : Nat → E, 1 ≤ s.policy.maxAttempts →
      (executeWithRetry (T := T) s tEntry tEnd (fun i => .error (errf i))).2.1 =
          .error (.opErr (errf (s.policy.maxAttempts - 1))) ∧
      (executeWithRetry s tEntry tEnd
          (fun i => (.error (errf i) : Except E T))).2.2 = s.policy.maxAttempts) ∧
    (∀ (op : Nat → Except E T) (v : T) (j : Nat),
      (∀ i, i < j → ∃ e, op i = .error e) → op j = .ok v →
      j < s.policy.maxAttempts →
      (executeWithRetry s tEntry tEnd op).2.1 = .ok v ∧
      (executeWithRetry s tEntry tEnd op).2.2 = j + 1 ∧
      (executeWithRetry s tEntry tEnd op).1.failureCount = 0) := by
  refine ⟨?_, ?_, ?_⟩
  · intro op
    have hle := retryLoop_invocations_le op s.policy.maxAttempts 0 s.failureCount
    simp only [executeWithRetry, hclosed, Bool.false_eq_true, if_false]
    rcases h : (retryLoop op s.policy.maxAttempts 0 s.failureCount).success with _ | v
    · simpa [h] using hle
    · simpa [h] using hle
  · intro errf hmax
    have hne : s.policy.maxAttempts ≠ 0 := by omega
    rw [executeWithRetry_allFail s tEntry tEnd errf hclosed hne]
    exact ⟨rfl, rfl⟩
  · intro op v j hfail hok hj
    rw [executeWithRetry_succeeds s tEntry tEnd op v j hclosed hfail hok hj]
    exact ⟨rfl, rfl, rfl⟩

/-- Witness for C6 at a concrete manager (default policy, `maxAttempts = 3`):
an always-failing operation is invoked exactly 3 times and the last error is
reported; an operation failing twice then succeeding yields the success value
after exactly 3 invocations. -/
theorem claim_C6_retry_bound_witness :
    ((RMState.init defaultPolicy).circuitBreakerOpen = false) ∧
    (executeWithRetry (E := String) (T := String) (RMState.init defaultPolicy) 0 0
        (fun i => .error (toString i))).2.1 = .error (.opErr "2") ∧
    (executeWithRetry (E := String) (T := String) (RMState.init defaultPolicy) 0 0
        (fun i => .error (toString i))).2.2 = 3 ∧
    (executeWithRetry (E := String) (T := String) (RMState.init defaultPolicy) 0 0
        (fun i => if i < 2 then .error "f" else .ok "yes")).2.1 = .ok "yes" ∧
    (executeWithRetry (E := String) (T := String) (RMState.init defaultPolicy) 0 0
        (fun i => if i < 2 then .error "f" else .ok "yes")).2.2 = 3 := by
  have h := claim_C6_retry_bound (E := String) (T := String)
    (RMState.init defaultPolicy) 0 0 rfl
  refine ⟨rfl, ?_, ?_, ?_, ?_⟩
  · exact (h.2.1 (fun i => toString i) (by decide)).1
  · exact (h.2.1 (fun i => toString i) (by decide)).2
  · exact (h.2.2 (fun i => if i < 2 then .error "f" else .ok "yes") "yes" 2
      (by intro i hi; exact ⟨"f", by simp [hi]⟩) (by simp) (by decide)).1
  · exact (h.2.2 (fun i => if i < 2 then .error "f" else .ok "yes") "yes" 2
      (by intro i hi; exact ⟨"f", by simp [hi]⟩) (by simp) (by decide)).2.1

/-- Claim C5 as stated is refuted by a concrete trace (see
`claim_C5_circuit_breaker_counterexample`): with the default policy
(`maxAttempts = 3`), five consecutive `executeWithRetry` calls can each
exhaust all attempts (the 60s window elapsing twice in between, which resets
the counter), yet the breaker is closed for the next call.  The amended
claim: (a) while the breaker is open and less than 60000ms have elapsed, a
call rejects with the circuit-open error, invokes nothing and leaves the
state unchanged; (b) at ≥ 60000ms the call behaves exactly as on the manager
with the breaker closed and the counter reset; (c) an exhausting call leaves
the breaker open iff the accumulated failure counter reached 5 — so five
rapid exhausting calls open it only when no reset intervened (e.g.
`maxAttempts = 1` in quick succession). -/
theorem claim_C5_circuit_breaker {E T : Type} :
    (∀ (s : RMState) (t t' : Nat) (op : Nat → Except E T),
      s.circuitBreakerOpen = true → t - s.lastFailureTime < 60000 →
      executeWithRetry s t t' op = (s, .error .circuitOpen, 0)) ∧
    (∀ (s : RMState) (t t' : Nat) (op : Nat → Except E T),
      s.circuitBreakerOpen = true → ¬ (t - s.lastFailureTime < 60000) →
      executeWithRetry s t t' op =
        executeWithRetry
          { s with circuitBreakerOpen := false, failureCount := 0 } t t' op) ∧
    (∀ (s : RMState) (t t' : Nat) (errf : Nat → E),
      s.circuitBreakerOpen = false → s.policy.maxAttempts ≠ 0 →
      ((executeWithRetry (T := T) s t t'
          (fun i => .error (errf i))).1.circuitBreakerOpen = true ↔
        5 ≤ s.failureCount + s.policy.maxAttempts)) := by
  refine ⟨?_, ?_, ?_⟩
  · intro s t t' op hopen hlt
    simp [executeWithRetry, hopen, hlt]
  · intro s t t' op hopen hge
    simp [executeWithRetry, hopen, hge]
  · intro s t t' errf hclosed hmax
    rw [executeWithRetry_allFail s t t' errf hclosed hmax]
    by_cases h5 : 5 ≤ s.failureCount + s.policy.maxAttempts
    · simp [h5]
    · simp [h5, hclosed]

/-- Witness for the amended C5: a concrete open breaker (opened at time 100)
short-circuits at time 50000 with zero invocations; at time 70000 the call
behaves as a reset manager; and with `maxAttempts = 1` five rapid exhausting
calls on a fresh manager leave the breaker open, so the sixth call rejects
with the circuit-open error without invoking the operation. -/
theorem claim_C5_circuit_breaker_witness :
    (executeWithRetry (E := String) (T := Unit) ⟨defaultPolicy, 6, true, 100⟩
        50000 50000 (fun _ => .error "f") =
      (⟨defaultPolicy, 6, true, 100⟩, .error .circuitOpen, 0)) ∧
    (executeWithRetry (E := String) (T := Unit) ⟨defaultPolicy, 6, true, 100⟩
        70000 70000 (fun _ => .error "f") =
      executeWithRetry ⟨defaultPolicy, 0, false, 100⟩ 70000 70000
        (fun _ => .error "f")) ∧
    ((executeWithRetry (E := String) (T := Unit) ⟨⟨1, 1000, 30000, true⟩, 4, false, 0⟩
        4 4 (fun _ => .error "f")).1.circuitBreakerOpen = true) := by
  have h := claim_C5_circuit_breaker (E := String) (T := Unit)
  refine ⟨h.1 _ 50000 50000 _ rfl (by norm_num), ?_, ?_⟩
  · exact h.2.1 _ 70000 70000 _ rfl (by norm_num)
  · exact (h.2.2 ⟨⟨1, 1000, 30000, true⟩, 4, false, 0⟩ 4 4 (fun _ => "f") rfl
      (by norm_num)).mpr (by norm_num)

/-- Counterexample to claim C5 as stated: with the default policy, a trace
of five consecutive `executeWithRetry` calls, each exhausting all 3 attempts
with failures (3 invocations, rejection with the last error), after which
the circuit breaker is nevertheless closed, and the next call invokes the
operation again instead of failing with a circuit-open error.  (Calls 3 and
5 run after the 60s reset window, which closes the breaker and resets the
counter, so the counter never stays at 5.) -/
theorem claim_C5_circuit_breaker_counterexample :
    let s0 := RMState.init defaultPolicy
    let r1 := executeWithRetry s0 0 0 ceOp
    let r2 := executeWithRetry r1.1 1 1 ceOp
    let r3 := executeWithRetry r2.1 60001 60001 ceOp
    let r4 := executeWithRetry r3.1 60002 60002 ceOp
    let r5 := executeWithRetry r4.1 120002 120002 ceOp
    let r6 := executeWithRetry r5.1 120003 120003 ceOp
    (r1.2.2 = 3 ∧ r1.2.1 = .error (.opErr "fail")) ∧
    (r2.2.2 = 3 ∧ r2.2.1 = .error (.opErr "fail")) ∧
    (r3.2.2 = 3 ∧ r3.2.1 = .error (.opErr "fail")) ∧
    (r4.2.2 = 3 ∧ r4.2.1 = .error (.opErr "fail")) ∧
    (r5.2.2 = 3 ∧ r5.2.1 = .error (.opErr "fail")) ∧
    r5.1.circuitBreakerOpen = false ∧
    r6.2.2 = 3 ∧ r6.2.1 ≠ .error .circuitOpen := by
  refine ⟨⟨rfl, rfl⟩, ⟨rfl, rfl⟩, ⟨rfl, rfl⟩, ⟨rfl, rfl⟩, ⟨rfl, rfl⟩, rfl, rfl, ?_⟩
  intro h
  exact absurd (Except.error.inj h) (by intro h'; cases h')

/-- Claim C8: Backoff delay formula.  The delay before retry `k+1` (0-based
attempt index `k`) is `baseDelay * 2^k`, multiplied by the jitter factor
`0.75 + rand * 0.5 ∈ [0.75, 1.25]` when jitter is enabled, then clamped at
`maxDelay`; with jitter disabled it equals `min (baseDelay * 2^k) maxDelay`
exactly and is monotone in `k` (for a nonnegative `baseDelay`, as the
RetryPolicy data model requires). -/
theorem claim_C8_backoff_formula (p : RetryPolicy) (k : Nat) (rand : ℚ) :
    (p.jitter = true →
      calculateDelay p k rand =
        min (p.baseDelay * 2 ^ k * (3/4 + rand * (1/2))) p.maxDelay) ∧
    (0 ≤ rand → rand < 1 →
      3/4 ≤ 3/4 + rand * (1/2) ∧ 3/4 + rand * (1/2) ≤ 5/4) ∧
    (p.jitter = false →
      calculateDelay p k rand = min (p.baseDelay * 2 ^ k) p.maxDelay) ∧
    (p.jitter = false → 0 ≤ p.baseDelay →
      calculateDelay p k rand ≤ calculateDelay p (k + 1) rand) := by
  refine ⟨?_, ?_, ?_, ?_⟩
  · intro hj; simp [calculateDelay, hj]
  · intro h0 h1
    constructor <;> nlinarith
  · intro hj; simp [calculateDelay, hj]
  · intro hj hbase
    simp only [calculateDelay, hj, Bool.false_eq_true, if_false]
    refine min_le_min ?_ le_rfl
    have h2 : (2 : ℚ) ^ k ≤ 2 ^ (k + 1) := by
      have : (0 : ℚ) < 2 := by norm_num
      exact pow_le_pow_right₀ (by norm_num) (Nat.le_succ k)
    nlinarith [pow_pos (show (0:ℚ) < 2 by norm_num) k]

/-- Witness for C8 at `baseDelay = 100`, no jitter: the delays before
attempts 1 and 2 are exactly 100 and 200 and are monotone. -/
theorem claim_C8_backoff_formula_witness :
    (calculateDelay ⟨3, 100, 1000, false⟩ 0 0 = min (100 * 2 ^ 0) 1000 ∧
     calculateDelay ⟨3, 100, 1000, false⟩ 1 0 = min (100 * 2 ^ 1) 1000 ∧
     calculateDelay ⟨3, 100, 1000, false⟩ 0 0 ≤
       calculateDelay ⟨3, 100, 1000, false⟩ 1 0) := by
  have h0 := claim_C8_backoff_formula ⟨3, 100, 1000, false⟩ 0 0
  have h1 := claim_C8_backoff_formula ⟨3, 100, 1000, false⟩ 1 0
  exact ⟨h0.2.2.1 rfl, h1.2.2.1 rfl, h0.2.2.2 rfl (by norm_num)⟩

/-- Counterexample to claim C1: in a Dispatcher configured with both
providers, `initializeProviders` gives the Discord and the Slack provider
the same RetryManager instance (index 0 of the one-element manager list),
and a concrete trace in which two Discord sends exhaust their retries opens
the circuit breaker observed by the next Slack send: it rejects with the
circuit-open error after zero operation invocations. -/
theorem claim_C1_per_provider_breaker_counterexample :
    let setup := initializeProviders cfgBoth
    let m1 := (providerSend setup.managers ⟨.discord, 0⟩ 0 0 ceOp).1
    let m2 := (providerSend m1 ⟨.discord, 0⟩ 1 1 ceOp).1
    setup.providers = [⟨.discord, 0⟩, ⟨.slack, 0⟩] ∧
    setup.managers.length = 1 ∧
    (providerSend m2 ⟨.slack, 0⟩ 2 2 ceOp).2.1 = .error .circuitOpen ∧
    (providerSend m2 ⟨.slack, 0⟩ 2 2 ceOp).2.2 = 0 := by
  exact ⟨rfl, rfl, rfl, rfl⟩

/-- Claim C1, amended: circuit-breaker state is per `RetryManager`, but
`initializeProviders` creates exactly one RetryManager per call and every
provider it configures (Discord and Slack alike) shares that single
instance, so exhausting retries on one provider advances the shared
consecutive-failure counter and can open the circuit breaker observed by
the other provider. -/
theorem claim_C1_shared_retry_manager (cfg : NotificationConfig) :
    (initializeProviders cfg).managers = [RMState.init cfg.retry] ∧
    (∀ p, p ∈ (initializeProviders cfg).providers → p.rmIndex = 0) := by
  refine ⟨rfl, ?_⟩
  intro p hp
  simp only [initializeProviders] at hp
  rcases List.mem_append.mp hp with h | h <;>
    [skip; skip] <;>
    · split at h <;> simp_all

/-- Witness for the amended C1: on the concrete two-provider configuration,
the manager list is the singleton fresh manager and both configured
providers reference manager 0. -/
theorem claim_C1_shared_retry_manager_witness :
    (initializeProviders cfgBoth).managers = [RMState.init cfgBoth.retry] ∧
    ProviderInst.mk .discord 0 ∈ (initializeProviders cfgBoth).providers ∧
    (ProviderInst.mk .discord 0).rmIndex = 0 ∧
    (ProviderInst.mk .slack 0).rmIndex = 0 := by
  have h := claim_C1_shared_retry_manager cfgBoth
  refine ⟨h.1, by decide, h.2 ⟨.discord, 0⟩ (by decide), rfl⟩

theorem subsumes_refl (m : Matcher) : ∀ prev s, subsumes m m prev s := by
  intro prev s
  induction s generalizing prev with
  | nil => trivial
  | cons c rest ih => exact ⟨fun h => h, ih (some c)⟩

theorem subsumes_of_noMatch (m m' : Matcher) :
    ∀ prev s, noMatch m prev s → subsumes m m' prev s := by
  intro prev s
  induction s generalizing prev with
  | nil => intro _; trivial
  | cons c rest ih => exact fun h => ⟨fun _ => h.1, ih (some c) h.2⟩

theorem noMatch_change_ctx (m : Matcher) (p q : Option Char) (w : List Char)
    (h : noMatch m p w)
    (hhead : ∀ (c : Char) (w' : List Char), w = c :: w' →
      m q (c :: w') = none) :
    noMatch m q w := by
  cases w with
  | nil => trivial
  | cons c w' => exact ⟨hhead c w' rfl, h.2⟩

theorem replaceAll_nil (m : Matcher) (prev : Option Char) :
    replaceAll m prev [] = [] := by
  rw [replaceAll]

theorem replaceAll_cons_none (m : Matcher) (prev : Option Char) (c : Char)
    (rest : List Char) (h : m prev (c :: rest) = none) :
    replaceAll m prev (c :: rest) = c :: replaceAll m (some c) rest := by
  rw [replaceAll, h]

theorem replaceAll_cons_some (m : Matcher) (prev : Option Char) (c : Char)
    (rest : List Char) (n : Nat) (h : m prev (c :: rest) = some n)
    (hn : 1 ≤ n) :
    replaceAll m prev (c :: rest) =
      redactedM ++ replaceAll m ((c :: rest).get? (n - 1))
        ((c :: rest).drop n) := by
  rw [replaceAll, h]
  dsimp only
  rw [Nat.max_eq_left hn]

/-- A pass over a string on which the matcher never fires is the
identity. -/
theorem replaceAll_of_noMatch (m : Matcher) :
    ∀ prev s, noMatch m prev s → replaceAll m prev s = s := by
  intro prev s
  induction s generalizing prev with
  | nil => intro _; exact replaceAll_nil m prev
  | cons c rest ih =>
    intro h
    rw [replaceAll_cons_none m prev c rest h.1, ih (some c) h.2]

theorem ctxAfter_append_last (prev : Option Char) (A : List Char) (a : Char) :
    ctxAfter prev (A ++ [a]) = some a := by
  simp [ctxAfter]

theorem ctxAfter_nil (prev : Option Char) : ctxAfter prev [] = prev := rfl

theorem ctxAfter_cons (prev : Option Char) (c : Char) (A : List Char) :
    ctxAfter prev (c :: A) = ctxAfter (some c) A := by
  cases A with
  | nil => simp [ctxAfter]
  | cons x xs =>
    unfold ctxAfter
    rw [List.getLast?_cons_cons]
    obtain ⟨a, ha⟩ := Option.isSome_iff_exists.mp
      (List.getLast?_isSome.mpr (List.cons_ne_nil x xs))
    rw [ha]
    rfl

/-- First-match decomposition of a `replaceAll` pass: either the matcher
never fires and the pass is the identity, or the input splits as
`A ++ B` with the matcher failing along `A`, firing at `B` with some
length `n ≥ 1`, and the output is `A ++ marker ++ (pass over B.drop n)`. -/
theorem replaceAll_firstMatch (m : Matcher)
    (hpos : ∀ p s n, m p s = some n → 1 ≤ n ∧ n ≤ s.length) :
    ∀ prev s, (noMatch m prev s ∧ replaceAll m prev s = s) ∨
      ∃ A B n, s = A ++ B ∧ noMatchPre m prev A B ∧
        m (ctxAfter prev A) B = some n ∧
        replaceAll m prev s =
          A ++ redactedM ++ replaceAll m (B.get? (n - 1)) (B.drop n) := by
  intro prev s
  induction s generalizing prev with
  | nil => exact Or.inl ⟨trivial, replaceAll_nil m prev⟩
  | cons c rest ih =>
    cases hm : m prev (c :: rest) with
    | some n =>
      refine Or.inr ⟨[], c :: rest, n, rfl, trivial, ?_, ?_⟩
      · rw [ctxAfter_nil]; exact hm
      · have hn := (hpos _ _ _ hm).1
        simpa using replaceAll_cons_some m prev c rest n hm hn
    | none =>
      rcases ih (some c) with ⟨hnm, heq⟩ | ⟨A, B, n, hs, hpre, hmB, hout⟩
      · exact Or.inl ⟨⟨hm, hnm⟩,
          by rw [replaceAll_cons_none m prev c rest hm, heq]⟩
      · refine Or.inr ⟨c :: A, B, n, by simp [hs],
          ⟨by rw [← hs]; exact hm, hpre⟩, ?_, ?_⟩
        · rw [ctxAfter_cons]; exact hmB
        · rw [replaceAll_cons_none m prev c rest hm, hout]
          simp

theorem noMatch_marker (m : Matcher) (hM : MarkerImmune m)
    (prev : Option Char) (R : List Char) (hR : noMatch m (some ']') R) :
    noMatch m prev (redactedM ++ R) := by
  refine ⟨hM prev redactedM R (by decide) (by decide), ?_, ?_, ?_, ?_, ?_, ?_,
    ?_, ?_, ?_, hR⟩ <;>
    first
    | exact hM _ ['R','E','D','A','C','T','E','D',']'] R (by decide) (by decide)
    | exact hM _ ['E','D','A','C','T','E','D',']'] R (by decide) (by decide)
    | exact hM _ ['D','A','C','T','E','D',']'] R (by decide) (by decide)
    | exact hM _ ['A','C','T','E','D',']'] R (by decide) (by decide)
    | exact hM _ ['C','T','E','D',']'] R (by decide) (by decide)
    | exact hM _ ['T','E','D',']'] R (by decide) (by decide)
    | exact hM _ ['E','D',']'] R (by decide) (by decide)
    | exact hM _ ['D',']'] R (by decide) (by decide)
    | exact hM _ [']'] R (by decide) (by decide)

theorem subsumes_drop (m m' : Matcher) :
    ∀ (n : Nat) (s : List Char) (prev : Option Char),
      subsumes m m' prev s → 1 ≤ n →
      subsumes m m' (s.get? (n - 1)) (s.drop n) := by
  intro n
  induction n with
  | zero => intro s prev _ h1; omega
  | succ n ih =>
    intro s prev h _
    cases s with
    | nil => simp [subsumes]
    | cons c rest =>
      cases n with
      | zero => simpa using h.2
      | succ n' => simpa using ih rest (some c) h.2 (by omega)

/-- One pass of `m'` leaves no `m`-match anywhere, for a context-free
matcher `m` (`m` ignores its context, its matches contain no bracket, and a
match is preserved when the first `k` characters agree), given that `m`
fails wherever `m'` fails.  Instantiated with `m' = m` this is
self-clearing; with `noMatch m` via `subsumes_of_noMatch` it is
preservation of an earlier pattern's clean state by a later pass. -/
theorem gen_pass_cf (m m' : Matcher)
    (hm'pos : ∀ p s n, m' p s = some n → 1 ≤ n ∧ n ≤ s.length)
    (hmM : MarkerImmune m)
    (hfree : ∀ p q s, m p s = m q s)
    (htr : ∀ p u v k, m p u = some k → u.take k = v.take k →
      ∃ k', m p v = some k')
    (hbrk : ∀ p s k, m p s = some k → '[' ∉ s.take k) :
    ∀ prev t, subsumes m m' prev t → noMatch m prev (replaceAll m' prev t) := by
  suffices h : ∀ L t, t.length ≤ L → ∀ prev, subsumes m m' prev t →
      noMatch m prev (replaceAll m' prev t) by
    intro prev t hsub
    exact h t.length t le_rfl prev hsub
  intro L
  induction L with
  | zero =>
    intro t ht prev _
    have : t = [] := List.length_eq_zero.mp (Nat.le_zero.mp ht)
    subst this
    rw [replaceAll_nil]
    trivial
  | succ L IH =>
    intro t ht prev hsub
    cases t with
    | nil => rw [replaceAll_nil]; trivial
    | cons c rest =>
      cases hm' : m' prev (c :: rest) with
      | some n =>
        have hpos := hm'pos _ _ _ hm'
        rw [replaceAll_cons_some m' prev c rest n hm' hpos.1]
        have hsub_u := subsumes_drop m m' n (c :: rest) prev hsub hpos.1
        have hlen : ((c :: rest).drop n).length ≤ L := by
          simp only [List.length_drop, List.length_cons] at *
          omega
        have hIH := IH _ hlen _ hsub_u
        refine noMatch_marker m hmM prev _ ?_
        refine noMatch_change_ctx m _ _ _ hIH ?_
        intro d R'' hR'
        rw [hfree (some ']') ((c :: rest).get? (n - 1))]
        rw [hR'] at hIH
        exact hIH.1
      | none =>
        rw [replaceAll_cons_none m' prev c rest hm']
        have hrest : rest.length ≤ L := by
          simp only [List.length_cons] at ht
          omega
        refine ⟨?_, IH rest hrest (some c) hsub.2⟩
        cases hk : m prev (c :: replaceAll m' (some c) rest) with
        | none => rfl
        | some k =>
          exfalso
          rcases replaceAll_firstMatch m' hm'pos (some c) rest with
            ⟨_, heq⟩ | ⟨A, B, n', hsB, _, hm'B, hout⟩
          · rw [heq] at hk
            obtain ⟨k', hk'⟩ := htr prev _ _ k hk rfl
            rw [hsub.1 hm'] at hk'
            cases hk'
          · rw [hout] at hk
            by_cases hkL : k ≤ A.length + 1
            · have htake : (c :: (A ++ redactedM ++
                  replaceAll m' (B.get? (n' - 1)) (B.drop n'))).take k =
                  (c :: rest).take k := by
                rw [hsB]
                have h1 : (c :: (A ++ redactedM ++
                    replaceAll m' (B.get? (n' - 1)) (B.drop n'))) =
                    (c :: A) ++ (redactedM ++
                      replaceAll m' (B.get? (n' - 1)) (B.drop n')) := by
                  simp
                rw [h1, List.take_append_of_le_length (by simpa using hkL),
                  show c :: (A ++ B) = (c :: A) ++ B by simp,
                  List.take_append_of_le_length (by simpa using hkL)]
              obtain ⟨k', hk'⟩ := htr prev _ _ k hk htake
              rw [hsub.1 hm'] at hk'
              cases hk'
            · have hmem : '[' ∈ (c :: (A ++ redactedM ++
                  replaceAll m' (B.get? (n' - 1)) (B.drop n'))).take k := by
                have h1 : (c :: (A ++ redactedM ++
                    replaceAll m' (B.get? (n' - 1)) (B.drop n'))) =
                    (c :: A) ++ (redactedM ++
                      replaceAll m' (B.get? (n' - 1)) (B.drop n')) := by
                  simp
                rw [h1, List.take_append_eq_append_take]
                refine List.mem_append_right _ ?_
                have h2 : 1 ≤ k - (A.length + 1) := by omega
                rcases Nat.exists_eq_add_of_le h2 with ⟨j, hj⟩
                rw [show redactedM ++ replaceAll m' (B.get? (n' - 1))
                    (B.drop n') = '[' :: (['R','E','D','A','C','T','E','D',']']
                      ++ replaceAll m' (B.get? (n' - 1)) (B.drop n')) from rfl]
                rw [show k - (c :: A).length = j + 1 by
                  simp only [List.length_cons]; omega]
                simp
              exact absurd hmem (hbrk _ _ _ hk)

theorem get?_drop_head (l : List Char) (n : Nat) (e : Char) (u' : List Char)
    (h : l.drop n = e :: u') : l.get? n = some e := by
  have h0 : (l.drop n)[0]? = some e := by rw [h]; simp
  rw [List.getElem?_drop] at h0
  simpa using h0

theorem ctxAfter_getLast (c : Char) (A : List Char) :
    ctxAfter (some c) A = (c :: A).getLast? := by
  cases A with
  | nil => simp [ctxAfter]
  | cons x xs =>
    unfold ctxAfter
    rw [List.getLast?_cons_cons]
    obtain ⟨a, ha⟩ := Option.isSome_iff_exists.mp
      (List.getLast?_isSome.mpr (List.cons_ne_nil x xs))
    rw [ha]
    rfl

/-- One pass of `m'` leaves no `m`-match anywhere, for boundary-anchored
matchers: `m` depends on its context only through its word-ness, every `m`
match starts and ends at a `\b`, and so does every `m'` match.  Together
with the bracket-freeness of matches and the prefix-transfer property this
covers both a self-clearing pass (`m' = m`) and preservation of an earlier
boundary-anchored pattern by a later pass. -/
theorem gen_pass_cs (m m' : Matcher)
    (hm'pos : ∀ p s n, m' p s = some n → 1 ≤ n ∧ n ≤ s.length)
    (hmM : MarkerImmune m)
    (hmNorm : ∀ p q s, isWordOpt p = isWordOpt q → m p s = m q s)
    (hmStart : ∀ p s k, m p s = some k → ∃ hb, s.head? = some hb ∧
      isWordOpt p ≠ isWordChar hb)
    (hmEnd : ∀ p s k, m p s = some k → ∃ lc, s.get? (k - 1) = some lc ∧
      isWordChar lc ≠ isWordOpt (s.get? k))
    (hm'Start : ∀ p s k, m' p s = some k → ∃ hb, s.head? = some hb ∧
      isWordOpt p ≠ isWordChar hb)
    (hm'End : ∀ p s k, m' p s = some k → ∃ lc, s.get? (k - 1) = some lc ∧
      isWordChar lc ≠ isWordOpt (s.get? k))
    (htr : ∀ p u v k, m p u = some k → u.take k = v.take k →
      isWordOpt (u.get? k) = isWordOpt (v.get? k) → ∃ k', m p v = some k')
    (hbrk : ∀ p s k, m p s = some k → '[' ∉ s.take k) :
    ∀ prev t, subsumes m m' prev t → noMatch m prev (replaceAll m' prev t) := by
  suffices h : ∀ L t, t.length ≤ L → ∀ prev, subsumes m m' prev t →
      noMatch m prev (replaceAll m' prev t) by
    intro prev t hsub
    exact h t.length t le_rfl prev hsub
  intro L
  induction L with
  | zero =>
    intro t ht prev _
    have : t = [] := List.length_eq_zero.mp (Nat.le_zero.mp ht)
    subst this
    rw [replaceAll_nil]
    trivial
  | succ L IH =>
    intro t ht prev hsub
    cases t with
    | nil => rw [replaceAll_nil]; trivial
    | cons c rest =>
      cases hm' : m' prev (c :: rest) with
      | some n =>
        have hpos := hm'pos _ _ _ hm'
        rw [replaceAll_cons_some m' prev c rest n hm' hpos.1]
        have hsub_u := subsumes_drop m m' n (c :: rest) prev hsub hpos.1
        have hlen : ((c :: rest).drop n).length ≤ L := by
          simp only [List.length_drop, List.length_cons] at *
          omega
        have hIH := IH _ hlen _ hsub_u
        refine noMatch_marker m hmM prev _ ?_
        cases hu : (c :: rest).drop n with
        | nil =>
          rw [replaceAll_nil]
          trivial
        | cons e u' =>
          rw [hu] at hIH
          refine noMatch_change_ctx m _ _ _ hIH ?_
          intro d R'' hR'
          cases hmu : m' ((c :: rest).get? (n - 1)) (e :: u') with
          | some n₂ =>
            have hp2 := (hm'pos _ _ _ hmu).1
            rw [replaceAll_cons_some m' _ e u' n₂ hmu hp2] at hR'
            rw [← hR']
            exact hmM (some ']') redactedM _ (by decide) (by decide)
          | none =>
            rw [replaceAll_cons_none m' _ e u' hmu] at hR' hIH
            injection hR' with hde hR2
            subst hde
            subst hR2
            obtain ⟨lc, hlc, hne⟩ := hm'End prev (c :: rest) n hm'
            have hgn : (c :: rest).get? n = some e :=
              get?_drop_head (c :: rest) n e u' hu
            rw [hgn] at hne
            cases hwe : isWordChar e with
            | true =>
              have hword : isWordChar lc = false := by
                simp only [isWordOpt, hwe] at hne
                simpa using hne
              have hctx : isWordOpt (some ']') =
                  isWordOpt ((c :: rest).get? (n - 1)) := by
                rw [hlc]
                simp only [isWordOpt, hword]
                decide
              rw [hmNorm _ _ _ hctx]
              exact hIH.1
            | false =>
              cases hk2 : m (some ']') (e :: replaceAll m' (some e) u') with
              | none => rfl
              | some k₂ =>
                exfalso
                obtain ⟨hb, hhb, hSB⟩ := hmStart _ _ _ hk2
                simp only [List.head?_cons, Option.some.injEq] at hhb
                subst hhb
                apply hSB
                simp only [isWordOpt, hwe]
                decide
      | none =>
        rw [replaceAll_cons_none m' prev c rest hm']
        have hrest : rest.length ≤ L := by
          simp only [List.length_cons] at ht
          omega
        refine ⟨?_, IH rest hrest (some c) hsub.2⟩
        cases hk : m prev (c :: replaceAll m' (some c) rest) with
        | none => rfl
        | some k =>
          exfalso
          rcases replaceAll_firstMatch m' hm'pos (some c) rest with
            ⟨_, heq⟩ | ⟨A, B, n', hsB, _, hm'B, hout⟩
          · rw [heq] at hk
            obtain ⟨k', hk'⟩ := htr prev _ _ k hk rfl rfl
            rw [hsub.1 hm'] at hk'
            cases hk'
          · rw [hout] at hk
            set Q := replaceAll m' (B.get? (n' - 1)) (B.drop n') with hQ
            have huv : c :: (A ++ redactedM ++ Q) =
                (c :: A) ++ (redactedM ++ Q) := by simp
            have hvv : c :: rest = (c :: A) ++ B := by simp [hsB]
            rcases Nat.lt_trichotomy k (A.length + 1) with hkL | hkL | hkL
            · -- k strictly inside c :: A: characters and boundary agree
              have htake : (c :: (A ++ redactedM ++ Q)).take k =
                  (c :: rest).take k := by
                rw [huv, hvv,
                  List.take_append_of_le_length
                    (by simp only [List.length_cons]; omega),
                  List.take_append_of_le_length
                    (by simp only [List.length_cons]; omega)]
              have hgets : (c :: (A ++ redactedM ++ Q)).get? k =
                  (c :: rest).get? k := by
                rw [huv, hvv]
                simp only [List.get?_eq_getElem?]
                rw [List.getElem?_append_left
                    (by simp only [List.length_cons]; omega),
                  List.getElem?_append_left
                    (by simp only [List.length_cons]; omega)]
              obtain ⟨k', hk'⟩ := htr prev _ _ k hk htake (by rw [hgets])
              rw [hsub.1 hm'] at hk'
              cases hk'
            · -- k ends exactly at the marker: boundary analysis
              obtain ⟨lc, hlc, hlcB⟩ := hmEnd _ _ _ hk
              have hgetL : (c :: (A ++ redactedM ++ Q)).get? k = some '[' := by
                rw [huv, hkL]
                simp only [List.get?_eq_getElem?]
                rw [List.getElem?_append_right
                    (by simp only [List.length_cons]; omega)]
                simp [redactedM]
              have hlcw : isWordChar lc = true := by
                rw [hgetL] at hlcB
                simp only [isWordOpt] at hlcB
                rw [show isWordChar '[' = false from by decide] at hlcB
                simpa using hlcB
              have hlc' : (c :: A).getLast? = some lc := by
                have : (c :: (A ++ redactedM ++ Q)).get? (k - 1) =
                    (c :: A).get? (A.length) := by
                  rw [huv, hkL]
                  simp only [List.get?_eq_getElem?, Nat.add_sub_cancel]
                  rw [List.getElem?_append_left
                    (by simp only [List.length_cons]; omega)]
                rw [this] at hlc
                rw [List.getLast?_eq_getElem?]
                simpa using hlc
              obtain ⟨hb, hhb, hSB⟩ := hm'Start _ _ _ hm'B
              rw [ctxAfter_getLast, hlc'] at hSB
              have hhbw : isWordChar hb = false := by
                simp only [isWordOpt, hlcw] at hSB
                simpa using (Ne.symm hSB)
              have htake : (c :: (A ++ redactedM ++ Q)).take k =
                  (c :: rest).take k := by
                rw [huv, hvv, hkL,
                  List.take_append_of_le_length
                    (by simp only [List.length_cons]; omega),
                  List.take_append_of_le_length
                    (by simp only [List.length_cons]; omega)]
              have hgetB : (c :: rest).get? k = some hb := by
                rw [hvv, hkL]
                simp only [List.get?_eq_getElem?]
                rw [List.getElem?_append_right
                    (by simp only [List.length_cons]; omega)]
                rw [show A.length + 1 - (c :: A).length = 0 by
                  simp only [List.length_cons]; omega]
                rw [← List.head?_eq_getElem?]
                exact hhb
              have hbdry : isWordOpt ((c :: (A ++ redactedM ++ Q)).get? k) =
                  isWordOpt ((c :: rest).get? k) := by
                rw [hgetL, hgetB]
                simp only [isWordOpt, hhbw]
                decide
              obtain ⟨k', hk'⟩ := htr prev _ _ k hk htake hbdry
              rw [hsub.1 hm'] at hk'
              cases hk'
            · -- k reaches past the marker head: a bracket inside the match
              have hmem : '[' ∈ (c :: (A ++ redactedM ++ Q)).take k := by
                rw [huv, List.take_append_eq_append_take]
                refine List.mem_append_right _ ?_
                have h2 : 1 ≤ k - (A.length + 1) := by omega
                rcases Nat.exists_eq_add_of_le h2 with ⟨j, hj⟩
                rw [show redactedM ++ Q = '[' ::
                    (['R','E','D','A','C','T','E','D',']'] ++ Q) from rfl]
                rw [show k - (c :: A).length = j + 1 by
                  simp only [List.length_cons]; omega]
                simp
              exact absurd hmem (hbrk _ _ _ hk)

/-! Shared helper lemmas for the matcher obligations. -/

theorem get?_eq_of_take_eq {s v : List Char} {k i : Nat}
    (h : s.take k = v.take k) (hi : i < k) : s.get? i = v.get? i := by
  have h1 : (s.take k)[i]? = s[i]? := List.getElem?_take_of_lt hi
  have h2 : (v.take k)[i]? = v[i]? := List.getElem?_take_of_lt hi
  simp only [List.get?_eq_getElem?]
  rw [← h1, ← h2, h]

theorem mem_take_getElem? {x : Char} {l : List Char} {k : Nat}
    (h : x ∈ l.take k) : ∃ i, i < k ∧ l.get? i = some x := by
  obtain ⟨i, hi⟩ := List.mem_iff_getElem?.mp h
  have hlen : i < (l.take k).length := (List.getElem?_eq_some_iff.mp hi).1
  have hik : i < k := lt_of_lt_of_le hlen (by simp [List.length_take])
  exact ⟨i, hik, by
    simp only [List.get?_eq_getElem?]
    rw [← List.getElem?_take_of_lt hik]
    exact hi⟩

theorem takeWhile_len_le (q : Char → Bool) (l : List Char) :
    (l.takeWhile q).length ≤ l.length :=
  (List.takeWhile_prefix q).sublist.length_le

theorem get?_takeWhile_lt (q : Char → Bool) (l : List Char) (i : Nat)
    (hi : i < (l.takeWhile q).length) :
    l.get? i = (l.takeWhile q).get? i := by
  obtain ⟨t, ht⟩ := (List.takeWhile_prefix (l := l) q)
  conv_lhs => rw [← ht]
  simp only [List.get?_eq_getElem?]
  rw [List.getElem?_append_left hi]

theorem get?_takeWhile_sat (q : Char → Bool) (l : List Char) (i : Nat) (c : Char)
    (hi : i < (l.takeWhile q).length) (hc : l.get? i = some c) : q c = true := by
  rw [get?_takeWhile_lt q l i hi] at hc
  have : c ∈ l.takeWhile q := List.mem_iff_getElem?.mpr ⟨i, by simpa using hc⟩
  exact List.mem_takeWhile_imp this

theorem takeWhile_len_ge (q : Char → Bool) :
    ∀ (w : List Char) (d : Nat),
      (∀ i, i < d → ∃ c, w.get? i = some c ∧ q c = true) →
      d ≤ (w.takeWhile q).length := by
  intro w
  induction w with
  | nil =>
    intro d h
    cases d with
    | zero => simp
    | succ d' =>
      obtain ⟨c, hc, _⟩ := h 0 (Nat.succ_pos d')
      simp at hc
  | cons a w' ih =>
    intro d h
    cases d with
    | zero => simp
    | succ d' =>
      obtain ⟨c, hc, hq⟩ := h 0 (Nat.succ_pos d')
      simp only [List.get?_eq_getElem?, List.getElem?_cons_zero,
        Option.some.injEq] at hc
      subst hc
      rw [List.takeWhile_cons_of_pos hq]
      simp only [List.length_cons, Nat.succ_le_succ_iff]
      refine ih d' ?_
      intro i hi
      obtain ⟨e, he, hqe⟩ := h (i + 1) (by omega)
      exact ⟨e, by simpa using he, hqe⟩

theorem takeWhile_eq_of_take_eq (q : Char → Bool) :
    ∀ (j : Nat) (s v : List Char), s.take j = v.take j →
      (s.takeWhile q).length < j → v.takeWhile q = s.takeWhile q := by
  intro j
  induction j with
  | zero => intro s v _ h2; omega
  | succ j ih =>
    intro s v h1 h2
    cases s with
    | nil =>
      have : v = [] := by simpa using h1.symm
      subst this; rfl
    | cons a s' =>
      cases v with
      | nil => simp at h1
      | cons b v' =>
        simp only [List.take_succ_cons, List.cons.injEq] at h1
        obtain ⟨rfl, htail⟩ := h1
        by_cases hq : q a = true
        · rw [List.takeWhile_cons_of_pos hq] at h2 ⊢
          rw [List.takeWhile_cons_of_pos hq]
          simp only [List.length_cons] at h2
          rw [ih s' v' htail (by omega)]
        · rw [List.takeWhile_cons_of_neg (by simpa using hq)] at h2 ⊢
          rw [List.takeWhile_cons_of_neg (by simpa using hq)]

theorem take_drop_eq_of_take_eq {s v : List Char} {a b : Nat}
    (h : s.take (a + b) = v.take (a + b)) :
    (s.drop a).take b = (v.drop a).take b := by
  apply List.ext_getElem?
  intro i
  by_cases hib : i < b
  · rw [List.getElem?_take_of_lt hib, List.getElem?_take_of_lt hib,
      List.getElem?_drop, List.getElem?_drop]
    have := get?_eq_of_take_eq h (show a + i < a + b by omega)
    simpa using this
  · rw [List.getElem?_take_eq_none (by omega), List.getElem?_take_eq_none (by omega)]

theorem countdown_mem : ∀ (n x : Nat), x ∈ countdown n ↔ 1 ≤ x ∧ x ≤ n := by
  intro n
  induction n with
  | zero => intro x; simp [countdown]; omega
  | succ n ih =>
    intro x
    simp only [countdown, List.mem_cons, ih x]
    omega

/-! Obligations for the keyword matchers (patterns 1-3). -/

theorem ciPref_le_length : ∀ (k s : List Char), ciPref k s = true →
    k.length ≤ s.length := by
  intro k
  induction k with
  | nil => intro s _; simp
  | cons p ps ih =>
    intro s h
    cases s with
    | nil => simp [ciPref] at h
    | cons c cs =>
      simp only [ciPref, Bool.and_eq_true] at h
      simpa using ih cs h.2

theorem ciPref_of_take_eq : ∀ (k s v : List Char), ciPref k s = true →
    s.take k.length = v.take k.length → ciPref k v = true := by
  intro k
  induction k with
  | nil => intro s v _ _; rfl
  | cons p ps ih =>
    intro s v h htake
    cases s with
    | nil => simp [ciPref] at h
    | cons c cs =>
      cases v with
      | nil => simp at htake
      | cons d vs =>
        simp only [List.length_cons, List.take_succ_cons,
          List.cons.injEq] at htake
        obtain ⟨rfl, htail⟩ := htake
        simp only [ciPref, Bool.and_eq_true] at h ⊢
        exact ⟨h.1, ih cs vs h.2 htail⟩

theorem ciPref_not_mem_take (bad : Char) : ∀ (k s : List Char),
    ciPref k s = true → (∀ p_ ∈ k, ciChar p_ bad = false) →
    bad ∉ s.take k.length := by
  intro k
  induction k with
  | nil => intro s _ _; simp
  | cons p ps ih =>
    intro s h hall
    cases s with
    | nil => simp [ciPref] at h
    | cons c cs =>
      simp only [ciPref, Bool.and_eq_true] at h
      simp only [List.length_cons, List.take_succ_cons, List.mem_cons]
      rintro (rfl | hmem)
      · rw [hall p (List.mem_cons_self p ps)] at h
        exact Bool.false_ne_true h.1
      · exact ih cs h.2 (fun q hq => hall q (List.mem_cons_of_mem p hq)) hmem

theorem matchKws_some_elim : ∀ (kws : List (List Char)) (s : List Char)
    (n : Nat), matchKws kws s = some n →
    ∃ k, k ∈ kws ∧ ciPref k s = true ∧ n = k.length := by
  intro kws
  induction kws with
  | nil => intro s n h; simp [matchKws] at h
  | cons k rest ih =>
    intro s n h
    simp only [matchKws] at h
    split at h
    · exact ⟨k, List.mem_cons_self k rest, by assumption, by
        injection h with h'; omega⟩
    · obtain ⟨k', hk1, hk2, hk3⟩ := ih s n h
      exact ⟨k', List.mem_cons_of_mem k hk1, hk2, hk3⟩

theorem matchKws_isSome_intro : ∀ (kws : List (List Char)) (v k : List Char),
    k ∈ kws → ciPref k v = true → ∃ n', matchKws kws v = some n' := by
  intro kws
  induction kws with
  | nil => intro v k h _; simp at h
  | cons k0 rest ih =>
    intro v k hmem hpref
    simp only [matchKws]
    by_cases h0 : ciPref k0 v = true
    · exact ⟨k0.length, by rw [if_pos h0]⟩
    · rw [if_neg h0]
      rcases List.mem_cons.mp hmem with rfl | hmem'
      · exact absurd hpref h0
      · exact ih v k hmem' hpref

theorem ciPref_false_mono : ∀ (x : List Char) (k rest : List Char),
    ciPref (k.take x.length) x = false → ciPref k (x ++ rest) = false := by
  intro x
  induction x with
  | nil => intro k rest h; simp [ciPref] at h
  | cons c xs ih =>
    intro k rest h
    cases k with
    | nil => simp [ciPref] at h
    | cons p ps =>
      simp only [List.length_cons, List.take_succ_cons, ciPref,
        Bool.and_eq_false_iff] at h ⊢
      rcases h with h | h
      · exact Or.inl h
      · exact Or.inr (ih ps rest h)

theorem matchKws_append_none (kws : List (List Char)) (x rest : List Char)
    (h : ∀ k ∈ kws, ciPref (k.take x.length) x = false) :
    matchKws kws (x ++ rest) = none := by
  induction kws with
  | nil => rfl
  | cons k ks ih =>
    simp only [matchKws]
    rw [if_neg, ih (fun k' hk => h k' (List.mem_cons_of_mem _ hk))]
    simp [ciPref_false_mono x k rest (h k (List.mem_cons_self _ _))]

theorem stemKey_append_none (stem x rest : List Char)
    (h : ciPref (stem.take x.length) x = false) :
    stemKeyAt stem (x ++ rest) = none := by
  simp [stemKeyAt, ciPref_false_mono x stem rest h]

theorem marker_tail_cases (tail : List Char) (h : tail ∈ redactedM.tails)
    (hne : tail ≠ []) :
    tail = ['[','R','E','D','A','C','T','E','D',']'] ∨
    tail = ['R','E','D','A','C','T','E','D',']'] ∨
    tail = ['E','D','A','C','T','E','D',']'] ∨
    tail = ['D','A','C','T','E','D',']'] ∨
    tail = ['A','C','T','E','D',']'] ∨
    tail = ['C','T','E','D',']'] ∨
    tail = ['T','E','D',']'] ∨
    tail = ['E','D',']'] ∨
    tail = ['D',']'] ∨
    tail = [']'] := by
  have ht : redactedM.tails =
      [['[','R','E','D','A','C','T','E','D',']'],
       ['R','E','D','A','C','T','E','D',']'],
       ['E','D','A','C','T','E','D',']'],
       ['D','A','C','T','E','D',']'],
       ['A','C','T','E','D',']'],
       ['C','T','E','D',']'],
       ['T','E','D',']'],
       ['E','D',']'],
       ['D',']'],
       [']'], []] := rfl
  rw [ht] at h
  simp only [List.mem_cons, List.not_mem_nil, or_false] at h
  rcases h with h|h|h|h|h|h|h|h|h|h|h <;>
    first
    | (exact absurd h hne)
    | tauto

theorem get?_eq_none_of_drop_nil (l : List Char) (n : Nat) (h : l.drop n = []) :
    l.get? n = none := by
  have h0 : (l.drop n)[0]? = none := by rw [h]; rfl
  rw [List.getElem?_drop] at h0
  simpa using h0

theorem sepKeyAt_snd (s : List Char) :
    (sepKeyAt s).2 = ciPref ['k','e','y'] s := rfl

theorem sepKeyAt_fst_elim (s : List Char) (h : (sepKeyAt s).1 = true) :
    ∃ c, s.head? = some c ∧ (c == '_' || c == '-') = true ∧
      ciPref ['k','e','y'] (s.drop 1) = true := by
  cases s with
  | nil => simp [sepKeyAt] at h
  | cons c rest =>
    simp only [sepKeyAt, Bool.and_eq_true] at h
    exact ⟨c, rfl, h.1, by simpa using h.2⟩

theorem sepKeyAt_fst_intro (s : List Char) (c : Char) (h1 : s.head? = some c)
    (h2 : (c == '_' || c == '-') = true)
    (h3 : ciPref ['k','e','y'] (s.drop 1) = true) : (sepKeyAt s).1 = true := by
  cases s with
  | nil => simp at h1
  | cons d rest =>
    simp only [List.head?_cons, Option.some.injEq] at h1
    subst h1
    simp only [sepKeyAt, Bool.and_eq_true]
    exact ⟨h2, by simpa using h3⟩

theorem stemKeyAt_some_elim (stem s : List Char) (n : Nat)
    (h : stemKeyAt stem s = some n) :
    ciPref stem s = true ∧
    ((∃ c, s.get? stem.length = some c ∧ (c == '_' || c == '-') = true ∧
        ciPref ['k','e','y'] (s.drop (stem.length + 1)) = true ∧
        n = stem.length + 4) ∨
      (ciPref ['k','e','y'] (s.drop stem.length) = true ∧
        n = stem.length + 3)) := by
  unfold stemKeyAt at h
  split at h
  case isFalse => cases h
  case isTrue hpref =>
    refine ⟨hpref, ?_⟩
    rcases hfst : (sepKeyAt (s.drop stem.length)).1 with _ | _
    · rcases hsnd : (sepKeyAt (s.drop stem.length)).2 with _ | _
      · rw [show sepKeyAt (s.drop stem.length) =
          ((sepKeyAt (s.drop stem.length)).1,
            (sepKeyAt (s.drop stem.length)).2) from rfl, hfst, hsnd] at h
        cases h
      · rw [show sepKeyAt (s.drop stem.length) =
          ((sepKeyAt (s.drop stem.length)).1,
            (sepKeyAt (s.drop stem.length)).2) from rfl, hfst, hsnd] at h
        refine Or.inr ⟨?_, by injection h with h'; omega⟩
        rw [← sepKeyAt_snd]
        exact hsnd
    · rw [show sepKeyAt (s.drop stem.length) =
        ((sepKeyAt (s.drop stem.length)).1,
          (sepKeyAt (s.drop stem.length)).2) from rfl, hfst] at h
      obtain ⟨c, hc1, hc2, hc3⟩ := sepKeyAt_fst_elim _ hfst
      refine Or.inl ⟨c, ?_, hc2, ?_, ?_⟩
      · cases hdrop : s.drop stem.length with
        | nil => rw [hdrop] at hc1; cases hc1
        | cons d rest =>
          rw [hdrop] at hc1
          simp only [List.head?_cons, Option.some.injEq] at hc1
          subst hc1
          exact get?_drop_head s stem.length _ rest hdrop
      · rw [List.drop_drop] at hc3
        exact hc3
      · cases h; omega

theorem stemKeyAt_isSome_intro (stem v : List Char)
    (hpref : ciPref stem v = true)
    (hkey : (∃ c, v.get? stem.length = some c ∧ (c == '_' || c == '-') = true ∧
        ciPref ['k','e','y'] (v.drop (stem.length + 1)) = true) ∨
      ciPref ['k','e','y'] (v.drop stem.length) = true) :
    ∃ n', stemKeyAt stem v = some n' := by
  unfold stemKeyAt
  rw [if_pos hpref]
  rcases hfst : (sepKeyAt (v.drop stem.length)).1 with _ | _
  · rcases hsnd : (sepKeyAt (v.drop stem.length)).2 with _ | _
    · exfalso
      rcases hkey with ⟨c, hc1, hc2, hc3⟩ | hk
      · have : (sepKeyAt (v.drop stem.length)).1 = true := by
          refine sepKeyAt_fst_intro _ c ?_ hc2 ?_
          · cases hdrop : v.drop stem.length with
            | nil =>
              have := get?_eq_none_of_drop_nil v stem.length hdrop
              rw [this] at hc1
              cases hc1
            | cons d rest =>
              have := get?_drop_head v stem.length d rest hdrop
              rw [this] at hc1
              injection hc1 with h'
              subst h'
              rfl
          · rw [List.drop_drop]
            exact hc3
        rw [hfst] at this
        cases this
      · rw [← sepKeyAt_snd] at hk
        rw [hsnd] at hk
        cases hk
    · rw [show sepKeyAt (v.drop stem.length) =
        ((sepKeyAt (v.drop stem.length)).1,
          (sepKeyAt (v.drop stem.length)).2) from rfl, hfst, hsnd]
      exact ⟨stem.length + 3, rfl⟩
  · rw [show sepKeyAt (v.drop stem.length) =
      ((sepKeyAt (v.drop stem.length)).1,
        (sepKeyAt (v.drop stem.length)).2) from rfl, hfst]
    exact ⟨stem.length + 4, rfl⟩

theorem drop_eq_cons_of_get? (l : List Char) (i : Nat) (c : Char)
    (h : l.get? i = some c) : l.drop i = c :: l.drop (i + 1) := by
  simp only [List.get?_eq_getElem?] at h
  obtain ⟨hlt, hg⟩ := List.getElem?_eq_some_iff.mp h
  rw [List.drop_eq_getElem_cons hlt, hg]

theorem stemKey_pos (stem s : List Char) (n : Nat)
    (h : stemKeyAt stem s = some n) : 1 ≤ n ∧ n ≤ s.length := by
  obtain ⟨hpref, hbranch⟩ := stemKeyAt_some_elim stem s n h
  have hL := ciPref_le_length stem s hpref
  rcases hbranch with ⟨c, hc1, _, hc3, rfl⟩ | ⟨hk, rfl⟩
  · have hlt : stem.length < s.length := by
      simp only [List.get?_eq_getElem?] at hc1
      exact (List.getElem?_eq_some_iff.mp hc1).1
    have hk3 := ciPref_le_length _ _ hc3
    simp only [List.length_drop] at hk3
    have hk3' : 3 ≤ s.length - (stem.length + 1) := by simpa using hk3
    constructor <;> omega
  · have hk3 := ciPref_le_length _ _ hk
    simp only [List.length_drop] at hk3
    have hk3' : 3 ≤ s.length - stem.length := by simpa using hk3
    constructor <;> omega

theorem stemKey_brk (stem s : List Char) (n : Nat)
    (hstem : ∀ p_ ∈ stem, ciChar p_ '[' = false)
    (h : stemKeyAt stem s = some n) : '[' ∉ s.take n := by
  obtain ⟨hpref, hbranch⟩ := stemKeyAt_some_elim stem s n h
  have hkeych : ∀ p_ ∈ ['k','e','y'], ciChar p_ '[' = false := by decide
  rcases hbranch with ⟨c, hc1, hc2, hc3, rfl⟩ | ⟨hk, rfl⟩
  · intro hmem
    rw [List.take_add] at hmem
    rcases List.mem_append.mp hmem with hm | hm
    · exact ciPref_not_mem_take '[' stem s hpref hstem hm
    · rw [drop_eq_cons_of_get? s stem.length c hc1,
        show (4 : Nat) = 3 + 1 by rfl, List.take_succ_cons] at hm
      rcases List.mem_cons.mp hm with heq | hm'
      · rw [← heq] at hc2
        cases hc2
      · exact ciPref_not_mem_take '[' ['k','e','y'] _ hc3 hkeych hm'
  · intro hmem
    rw [List.take_add] at hmem
    rcases List.mem_append.mp hmem with hm | hm
    · exact ciPref_not_mem_take '[' stem s hpref hstem hm
    · exact ciPref_not_mem_take '[' ['k','e','y'] _ hk hkeych hm

theorem stemKey_transfer (stem s v : List Char) (n : Nat)
    (h : stemKeyAt stem s = some n) (ht : s.take n = v.take n) :
    ∃ n', stemKeyAt stem v = some n' := by
  obtain ⟨hpref, hbranch⟩ := stemKeyAt_some_elim stem s n h
  have hnL : stem.length + 3 ≤ n := by
    rcases hbranch with ⟨_, _, _, _, rfl⟩ | ⟨_, rfl⟩ <;> omega
  have htL : s.take stem.length = v.take stem.length := by
    have h1 : s.take stem.length = (s.take n).take stem.length := by
      rw [List.take_take, Nat.min_eq_left (by omega)]
    have h2 : v.take stem.length = (v.take n).take stem.length := by
      rw [List.take_take, Nat.min_eq_left (by omega)]
    rw [h1, h2, ht]
  have hprefv := ciPref_of_take_eq stem s v hpref htL
  rcases hbranch with ⟨c, hc1, hc2, hc3, rfl⟩ | ⟨hk, rfl⟩
  · refine stemKeyAt_isSome_intro stem v hprefv (Or.inl ⟨c, ?_, hc2, ?_⟩)
    · rw [← get?_eq_of_take_eq ht (by omega)]
      exact hc1
    · refine ciPref_of_take_eq _ _ _ hc3 ?_
      exact take_drop_eq_of_take_eq (a := stem.length + 1) (b := 3)
        (by rw [show stem.length + 1 + 3 = stem.length + 4 by omega]; exact ht)
  · refine stemKeyAt_isSome_intro stem v hprefv (Or.inr ?_)
    refine ciPref_of_take_eq _ _ _ hk ?_
    exact take_drop_eq_of_take_eq (a := stem.length) (b := 3) ht

/-! The assembled obligations for patterns 1-3. -/

theorem p1_pos (s : List Char) (n : Nat) (h : p1At s = some n) :
    1 ≤ n ∧ n ≤ s.length := by
  obtain ⟨k, hk, hp, rfl⟩ := matchKws_some_elim _ s n h
  refine ⟨?_, ciPref_le_length k s hp⟩
  fin_cases hk <;> simp

theorem p1_brk (s : List Char) (n : Nat) (h : p1At s = some n) :
    '[' ∉ s.take n := by
  obtain ⟨k, hk, hp, rfl⟩ := matchKws_some_elim _ s n h
  refine ciPref_not_mem_take '[' k s hp ?_
  fin_cases hk <;> decide

theorem p1_transfer (s v : List Char) (n : Nat) (h : p1At s = some n)
    (ht : s.take n = v.take n) : ∃ n', p1At v = some n' := by
  obtain ⟨k, hk, hp, rfl⟩ := matchKws_some_elim _ s n h
  exact matchKws_isSome_intro _ v k hk (ciPref_of_take_eq k s v hp ht)

theorem p1_marker : MarkerImmune (cf p1At) := by
  intro prev tail rest htail hne
  show p1At (tail ++ rest) = none
  unfold p1At
  rcases marker_tail_cases tail htail hne with
    rfl|rfl|rfl|rfl|rfl|rfl|rfl|rfl|rfl|rfl <;>
    exact matchKws_append_none _ _ _ (by decide)

theorem p2At_cases (s : List Char) (n : Nat) (h : p2At s = some n) :
    matchKws [['t','o','k','e','n'], ['b','e','a','r','e','r'],
      ['j','w','t']] s = some n ∨
    stemKeyAt ['a','p','i'] s = some n := by
  unfold p2At at h
  split at h
  · rename_i heq
    injection h with h'
    subst h'
    exact Or.inl heq
  · exact Or.inr h

theorem p2At_intro (v : List Char) :
    (∃ m, matchKws [['t','o','k','e','n'], ['b','e','a','r','e','r'],
      ['j','w','t']] v = some m) ∨
    (∃ m, stemKeyAt ['a','p','i'] v = some m) →
    ∃ n', p2At v = some n' := by
  intro h
  unfold p2At
  cases hm : matchKws [['t','o','k','e','n'], ['b','e','a','r','e','r'],
      ['j','w','t']] v with
  | some m => exact ⟨m, rfl⟩
  | none =>
    rcases h with ⟨m, hmm⟩ | ⟨m, hs⟩
    · rw [hm] at hmm; cases hmm
    · exact ⟨m, hs⟩

theorem p2_pos (s : List Char) (n : Nat) (h : p2At s = some n) :
    1 ≤ n ∧ n ≤ s.length := by
  rcases p2At_cases s n h with hm | hs
  · obtain ⟨k, hk, hp, rfl⟩ := matchKws_some_elim _ _ _ hm
    refine ⟨?_, ciPref_le_length k s hp⟩
    fin_cases hk <;> simp
  · exact stemKey_pos _ _ _ hs

theorem p2_brk (s : List Char) (n : Nat) (h : p2At s = some n) :
    '[' ∉ s.take n := by
  rcases p2At_cases s n h with hm | hs
  · obtain ⟨k, hk, hp, rfl⟩ := matchKws_some_elim _ _ _ hm
    refine ciPref_not_mem_take '[' k s hp ?_
    fin_cases hk <;> decide
  · exact stemKey_brk _ _ _ (by decide) hs

theorem p2_transfer (s v : List Char) (n : Nat) (h : p2At s = some n)
    (ht : s.take n = v.take n) : ∃ n', p2At v = some n' := by
  rcases p2At_cases s n h with hm | hs
  · obtain ⟨k, hk, hp, rfl⟩ := matchKws_some_elim _ _ _ hm
    exact p2At_intro v (Or.inl
      (matchKws_isSome_intro _ v k hk (ciPref_of_take_eq k s v hp ht)))
  · exact p2At_intro v (Or.inr (stemKey_transfer _ s v n hs ht))

theorem p2_marker : MarkerImmune (cf p2At) := by
  intro prev tail rest htail hne
  show p2At (tail ++ rest) = none
  unfold p2At
  rcases marker_tail_cases tail htail hne with
    rfl|rfl|rfl|rfl|rfl|rfl|rfl|rfl|rfl|rfl <;>
    rw [matchKws_append_none _ _ _ (by decide),
      stemKey_append_none _ _ _ (by decide)]

theorem p3At_cases (s : List Char) (n : Nat) (h : p3At s = some n) :
    matchKws [['s','e','c','r','e','t']] s = some n ∨
    stemKeyAt ['p','r','i','v','a','t','e'] s = some n := by
  unfold p3At at h
  split at h
  · rename_i heq
    injection h with h'
    subst h'
    exact Or.inl heq
  · exact Or.inr h

theorem p3At_intro (v : List Char) :
    (∃ m, matchKws [['s','e','c','r','e','t']] v = some m) ∨
    (∃ m, stemKeyAt ['p','r','i','v','a','t','e'] v = some m) →
    ∃ n', p3At v = some n' := by
  intro h
  unfold p3At
  cases hm : matchKws [['s','e','c','r','e','t']] v with
  | some m => exact ⟨m, rfl⟩
  | none =>
    rcases h with ⟨m, hmm⟩ | ⟨m, hs⟩
    · rw [hm] at hmm; cases hmm
    · exact ⟨m, hs⟩

theorem p3_pos (s : List Char) (n : Nat) (h : p3At s = some n) :
    1 ≤ n ∧ n ≤ s.length := by
  rcases p3At_cases s n h with hm | hs
  · obtain ⟨k, hk, hp, rfl⟩ := matchKws_some_elim _ _ _ hm
    refine ⟨?_, ciPref_le_length k s hp⟩
    fin_cases hk <;> simp
  · exact stemKey_pos _ _ _ hs

theorem p3_brk (s : List Char) (n : Nat) (h : p3At s = some n) :
    '[' ∉ s.take n := by
  rcases p3At_cases s n h with hm | hs
  · obtain ⟨k, hk, hp, rfl⟩ := matchKws_some_elim _ _ _ hm
    refine ciPref_not_mem_take '[' k s hp ?_
    fin_cases hk <;> decide
  · exact stemKey_brk _ _ _ (by decide) hs

theorem p3_transfer (s v : List Char) (n : Nat) (h : p3At s = some n)
    (ht : s.take n = v.take n) : ∃ n', p3At v = some n' := by
  rcases p3At_cases s n h with hm | hs
  · obtain ⟨k, hk, hp, rfl⟩ := matchKws_some_elim _ _ _ hm
    exact p3At_intro v (Or.inl
      (matchKws_isSome_intro _ v k hk (ciPref_of_take_eq k s v hp ht)))
  · exact p3At_intro v (Or.inr (stemKey_transfer _ s v n hs ht))

theorem p3_marker : MarkerImmune (cf p3At) := by
  intro prev tail rest htail hne
  show p3At (tail ++ rest) = none
  unfold p3At
  rcases marker_tail_cases tail htail hne with
    rfl|rfl|rfl|rfl|rfl|rfl|rfl|rfl|rfl|rfl <;>
    rw [matchKws_append_none _ _ _ (by decide),
      stemKey_append_none _ _ _ (by decide)]

/-! Obligations for the SSN pattern. -/

theorem head?_eq_get?0 (l : List Char) : l.head? = l.get? 0 := by
  cases l <;> rfl

theorem getElem?_exists_of_lt {l : List Char} {j : Nat} (h : j < l.length) :
    ∃ c, l[j]? = some c := by
  rcases hg : l[j]? with _ | c
  · rw [List.getElem?_eq_none_iff] at hg
    omega
  · exact ⟨c, rfl⟩

theorem digitsFrom_iff (s : List Char) (i n : Nat) :
    digitsFrom s i n = true ↔
      ∀ j, j < n → ∃ c, s.get? (i + j) = some c ∧ c.isDigit = true := by
  unfold digitsFrom
  rw [Bool.and_eq_true]
  constructor
  · rintro ⟨hall, hlen⟩ j hj
    have hlen' : ((s.drop i).take n).length = n := by simpa using hlen
    have hjl : j < ((s.drop i).take n).length := by omega
    obtain ⟨c, hc⟩ := getElem?_exists_of_lt hjl
    have hmem : c ∈ (s.drop i).take n := List.mem_iff_getElem?.mpr ⟨j, hc⟩
    have hcd : c.isDigit = true := List.all_eq_true.mp hall c hmem
    refine ⟨c, ?_, hcd⟩
    rw [List.getElem?_take_of_lt hj, List.getElem?_drop] at hc
    simpa using hc
  · intro hfa
    constructor
    · rw [List.all_eq_true]
      intro x hx
      obtain ⟨j, hj, hg⟩ := mem_take_getElem? hx
      obtain ⟨c, hc, hcd⟩ := hfa j hj
      rw [show (s.drop i).get? j = s.get? (i + j) by
        simp only [List.get?_eq_getElem?]; rw [List.getElem?_drop]] at hg
      rw [hg] at hc
      injection hc with h'
      rw [h']
      exact hcd
    · simp only [decide_eq_true_eq]
      cases n with
      | zero => simp
      | succ n' =>
        obtain ⟨c, hc, _⟩ := hfa n' (Nat.lt_succ_self n')
        have hlt : i + n' < s.length := by
          simp only [List.get?_eq_getElem?] at hc
          exact (List.getElem?_eq_some_iff.mp hc).1
        simp only [List.length_take, List.length_drop]
        omega

theorem digitsFrom_bound {s : List Char} {i n : Nat}
    (h : digitsFrom s i n = true) (hn : 1 ≤ n) : i + n ≤ s.length := by
  obtain ⟨c, hc, _⟩ := (digitsFrom_iff s i n).mp h (n - 1) (by omega)
  simp only [List.get?_eq_getElem?] at hc
  have := (List.getElem?_eq_some_iff.mp hc).1
  omega

theorem digitsFrom_transfer {s v : List Char} {i n k : Nat}
    (h : digitsFrom s i n = true) (hik : i + n ≤ k)
    (ht : s.take k = v.take k) : digitsFrom v i n = true := by
  rw [digitsFrom_iff] at h ⊢
  intro j hj
  obtain ⟨c, hc, hcd⟩ := h j hj
  exact ⟨c, by rw [← get?_eq_of_take_eq ht (by omega)]; exact hc, hcd⟩

theorem digitsFrom_head_false (s : List Char) (c : Char) (n : Nat)
    (hg : s.get? 0 = some c) (hc : c.isDigit = false) :
    digitsFrom s 0 (n + 1) = false := by
  cases hdf : digitsFrom s 0 (n + 1) with
  | false => rfl
  | true =>
    exfalso
    obtain ⟨c', hc', hcd⟩ := (digitsFrom_iff s 0 (n + 1)).mp hdf 0 (Nat.succ_pos n)
    rw [Nat.add_zero] at hc'
    rw [hg] at hc'
    injection hc' with h'
    rw [← h'] at hcd
    rw [hcd] at hc
    cases hc

theorem digitsFrom_not_bracket {s : List Char} {i n j : Nat}
    (h : digitsFrom s i n = true) (h1 : i ≤ j) (h2 : j < i + n) :
    s.get? j ≠ some '[' := by
  obtain ⟨c, hc, hcd⟩ := (digitsFrom_iff s i n).mp h (j - i) (by omega)
  rw [show i + (j - i) = j by omega] at hc
  rw [hc]
  intro hx
  injection hx with h'
  rw [h'] at hcd
  cases hcd

theorem ssnAt_some_elim (p : Option Char) (s : List Char) (n : Nat)
    (h : ssnAt p s = some n) :
    n = 11 ∧ bdry p s.head? = true ∧ digitsFrom s 0 3 = true ∧
    s.get? 3 = some '-' ∧ digitsFrom s 4 2 = true ∧ s.get? 6 = some '-' ∧
    digitsFrom s 7 4 = true ∧
    ∃ lc, s.get? 10 = some lc ∧ isWordChar lc ≠ isWordOpt (s.get? 11) := by
  unfold ssnAt at h
  split at h
  case isFalse => cases h
  case isTrue hc =>
    injection h with h'
    refine ⟨h'.symm, ?_⟩
    simp only [Bool.and_eq_true, beq_iff_eq] at hc
    obtain ⟨⟨⟨⟨⟨⟨hb, hd1⟩, hs1⟩, hd2⟩, hs2⟩, hd3⟩, hm⟩ := hc
    refine ⟨hb, hd1, hs1, hd2, hs2, hd3, ?_⟩
    rcases hg : s.get? 10 with _ | lc
    · rw [hg] at hm; cases hm
    · rw [hg] at hm
      exact ⟨lc, rfl, by simpa using hm⟩

theorem ssnAt_intro (p : Option Char) (v : List Char)
    (hb : bdry p v.head? = true) (hd1 : digitsFrom v 0 3 = true)
    (hs1 : v.get? 3 = some '-') (hd2 : digitsFrom v 4 2 = true)
    (hs2 : v.get? 6 = some '-') (hd3 : digitsFrom v 7 4 = true)
    (lc : Char) (hlc : v.get? 10 = some lc)
    (hbd : isWordChar lc ≠ isWordOpt (v.get? 11)) : ssnAt p v = some 11 := by
  unfold ssnAt
  rw [if_pos]
  simp only [Bool.and_eq_true, beq_iff_eq]
  refine ⟨⟨⟨⟨⟨⟨hb, hd1⟩, hs1⟩, hd2⟩, hs2⟩, hd3⟩, ?_⟩
  rw [hlc]
  simpa using hbd

theorem ssn_pos (p : Option Char) (s : List Char) (n : Nat)
    (h : ssnAt p s = some n) : 1 ≤ n ∧ n ≤ s.length := by
  obtain ⟨rfl, _, _, _, _, _, _, lc, hlc, _⟩ := ssnAt_some_elim p s n h
  refine ⟨by omega, ?_⟩
  simp only [List.get?_eq_getElem?] at hlc
  have := (List.getElem?_eq_some_iff.mp hlc).1
  omega

theorem ssn_startB (p : Option Char) (s : List Char) (n : Nat)
    (h : ssnAt p s = some n) :
    ∃ hb, s.head? = some hb ∧ isWordOpt p ≠ isWordChar hb := by
  obtain ⟨_, hb, hd1, _⟩ := ssnAt_some_elim p s n h
  obtain ⟨c, hc, _⟩ := (digitsFrom_iff s 0 3).mp hd1 0 (by omega)
  rw [Nat.add_zero] at hc
  refine ⟨c, by rw [head?_eq_get?0]; exact hc, ?_⟩
  rw [head?_eq_get?0, hc] at hb
  unfold bdry at hb
  have := bne_iff_ne.mp hb
  simpa [isWordOpt] using this

theorem ssn_endB (p : Option Char) (s : List Char) (n : Nat)
    (h : ssnAt p s = some n) :
    ∃ lc, s.get? (n - 1) = some lc ∧ isWordChar lc ≠ isWordOpt (s.get? n) := by
  obtain ⟨rfl, _, _, _, _, _, _, lc, hlc, hbd⟩ := ssnAt_some_elim p s n h
  exact ⟨lc, hlc, hbd⟩

theorem ssn_prevNorm (p q : Option Char) (s : List Char)
    (h : isWordOpt p = isWordOpt q) : ssnAt p s = ssnAt q s := by
  unfold ssnAt
  rw [show bdry p s.head? = bdry q s.head? by unfold bdry; rw [h]]

theorem ssn_brk (p : Option Char) (s : List Char) (n : Nat)
    (h : ssnAt p s = some n) : '[' ∉ s.take n := by
  obtain ⟨rfl, _, hd1, hs1, hd2, hs2, hd3, _⟩ := ssnAt_some_elim p s n h
  intro hmem
  obtain ⟨i, hi, hg⟩ := mem_take_getElem? hmem
  have hcases : i < 3 ∨ i = 3 ∨ (4 ≤ i ∧ i < 6) ∨ i = 6 ∨ (7 ≤ i ∧ i < 11) :=
    by omega
  rcases hcases with hc | rfl | hc | rfl | hc
  · exact digitsFrom_not_bracket hd1 (by omega) (by omega) hg
  · rw [hs1] at hg; cases hg
  · exact digitsFrom_not_bracket hd2 (by omega) (by omega) hg
  · rw [hs2] at hg; cases hg
  · exact digitsFrom_not_bracket hd3 (by omega) (by omega) hg

theorem ssn_transfer (p : Option Char) (s v : List Char) (n : Nat)
    (h : ssnAt p s = some n) (ht : s.take n = v.take n)
    (hbb : isWordOpt (s.get? n) = isWordOpt (v.get? n)) :
    ∃ n', ssnAt p v = some n' := by
  obtain ⟨rfl, hb, hd1, hs1, hd2, hs2, hd3, lc, hlc, hbd⟩ :=
    ssnAt_some_elim p s n h
  refine ⟨11, ssnAt_intro p v ?_ ?_ ?_ ?_ ?_ ?_ lc ?_ ?_⟩
  · rw [head?_eq_get?0, ← get?_eq_of_take_eq ht (by omega), ← head?_eq_get?0]
    exact hb
  · exact digitsFrom_transfer hd1 (by omega) ht
  · rw [← get?_eq_of_take_eq ht (by omega)]; exact hs1
  · exact digitsFrom_transfer hd2 (by omega) ht
  · rw [← get?_eq_of_take_eq ht (by omega)]; exact hs2
  · exact digitsFrom_transfer hd3 (by omega) ht
  · rw [← get?_eq_of_take_eq ht (by omega)]; exact hlc
  · rw [← hbb]; exact hbd

theorem ssnAt_head_not_digit (p : Option Char) (c : Char) (s : List Char)
    (hc : c.isDigit = false) : ssnAt p (c :: s) = none := by
  have hd : digitsFrom (c :: s) 0 3 = false :=
    digitsFrom_head_false (c :: s) c 2 rfl hc
  unfold ssnAt
  simp [hd, Bool.and_false, Bool.false_and]

theorem ssn_marker : MarkerImmune ssnAt := by
  intro prev tail rest htail hne
  rcases marker_tail_cases tail htail hne with
    rfl|rfl|rfl|rfl|rfl|rfl|rfl|rfl|rfl|rfl <;>
    exact ssnAt_head_not_digit prev _ _ (by decide)

/-! Obligations for the card pattern. -/

theorem sepOk_elim (s : List Char) (j : Nat) (h : sepOk s j = true) :
    ∃ c, s.get? j = some c ∧ (c == '-' || c == ' ') = true := by
  unfold sepOk at h
  rcases hg : s.get? j with _ | c
  · rw [hg] at h; cases h
  · rw [hg] at h
    exact ⟨c, rfl, h⟩

theorem sepOk_intro (v : List Char) (j : Nat) (c : Char)
    (hg : v.get? j = some c) (hcs : (c == '-' || c == ' ') = true) :
    sepOk v j = true := by
  unfold sepOk
  rw [hg]
  exact hcs

theorem sepOk_transfer {s v : List Char} {j k : Nat} (h : sepOk s j = true)
    (hj : j < k) (ht : s.take k = v.take k) : sepOk v j = true := by
  obtain ⟨c, hg, hcs⟩ := sepOk_elim s j h
  exact sepOk_intro v j c (by rw [← get?_eq_of_take_eq ht hj]; exact hg) hcs

theorem sepOk_not_bracket {s : List Char} {j : Nat} (h : sepOk s j = true) :
    s.get? j ≠ some '[' := by
  obtain ⟨c, hg, hcs⟩ := sepOk_elim s j h
  rw [hg]
  intro hx
  injection hx with h'
  rw [h'] at hcs
  cases hcs

theorem bool_imp_of_not_or {b x : Bool} (h : (!b || x) = true) :
    b = true → x = true := by
  cases b <;> simp_all

theorem ite_some_none_eq_some {C : Bool} {x k : Nat}
    (h : (if C = true then some x else none) = some k) : C = true ∧ x = k := by
  cases C
  · simp at h
  · simpa using h

theorem cardTry_some_elim (s : List Char) (b1 b2 b3 : Bool) (k : Nat)
    (h : cardTry s (b1, b2, b3) = some k) :
    digitsFrom s 0 4 = true ∧
    (b1 = true → sepOk s 4 = true) ∧
    digitsFrom s (4 + (if b1 then 1 else 0)) 4 = true ∧
    (b2 = true → sepOk s (4 + (if b1 then 1 else 0) + 4) = true) ∧
    digitsFrom s (4 + (if b1 then 1 else 0) + 4 +
      (if b2 then 1 else 0)) 4 = true ∧
    (b3 = true → sepOk s (4 + (if b1 then 1 else 0) + 4 +
      (if b2 then 1 else 0) + 4) = true) ∧
    digitsFrom s (4 + (if b1 then 1 else 0) + 4 + (if b2 then 1 else 0) + 4 +
      (if b3 then 1 else 0)) 4 = true ∧
    (∃ lc, s.get? (4 + (if b1 then 1 else 0) + 4 + (if b2 then 1 else 0) + 4 +
        (if b3 then 1 else 0) + 3) = some lc ∧
      isWordChar lc ≠ isWordOpt (s.get? (4 + (if b1 then 1 else 0) + 4 +
        (if b2 then 1 else 0) + 4 + (if b3 then 1 else 0) + 4))) ∧
    k = 4 + (if b1 then 1 else 0) + 4 + (if b2 then 1 else 0) + 4 +
      (if b3 then 1 else 0) + 4 := by
  unfold cardTry at h
  dsimp only at h
  obtain ⟨hc, hx⟩ := ite_some_none_eq_some h
  simp only [Bool.and_eq_true] at hc
  obtain ⟨⟨⟨⟨⟨⟨⟨hd1, ho1⟩, hd2⟩, ho2⟩, hd3⟩, ho3⟩, hd4⟩, hm⟩ := hc
  refine ⟨hd1, bool_imp_of_not_or ho1, hd2, bool_imp_of_not_or ho2, hd3,
    bool_imp_of_not_or ho3, hd4, ?_, hx.symm⟩
  rcases hg : s.get? (4 + (if b1 then 1 else 0) + 4 + (if b2 then 1 else 0) +
      4 + (if b3 then 1 else 0) + 3) with _ | lc
  · rw [hg] at hm; cases hm
  · rw [hg] at hm
    exact ⟨lc, rfl, by simpa using hm⟩

theorem cardTry_intro (v : List Char) (b1 b2 b3 : Bool)
    (hd1 : digitsFrom v 0 4 = true)
    (ho1 : b1 = true → sepOk v 4 = true)
    (hd2 : digitsFrom v (4 + (if b1 then 1 else 0)) 4 = true)
    (ho2 : b2 = true → sepOk v (4 + (if b1 then 1 else 0) + 4) = true)
    (hd3 : digitsFrom v (4 + (if b1 then 1 else 0) + 4 +
      (if b2 then 1 else 0)) 4 = true)
    (ho3 : b3 = true → sepOk v (4 + (if b1 then 1 else 0) + 4 +
      (if b2 then 1 else 0) + 4) = true)
    (hd4 : digitsFrom v (4 + (if b1 then 1 else 0) + 4 + (if b2 then 1 else 0)
      + 4 + (if b3 then 1 else 0)) 4 = true)
    (lc : Char)
    (hlc : v.get? (4 + (if b1 then 1 else 0) + 4 + (if b2 then 1 else 0) + 4 +
      (if b3 then 1 else 0) + 3) = some lc)
    (hbd : isWordChar lc ≠ isWordOpt (v.get? (4 + (if b1 then 1 else 0) + 4 +
      (if b2 then 1 else 0) + 4 + (if b3 then 1 else 0) + 4))) :
    cardTry v (b1, b2, b3) = some (4 + (if b1 then 1 else 0) + 4 +
      (if b2 then 1 else 0) + 4 + (if b3 then 1 else 0) + 4) := by
  have c1 : (!b1 || sepOk v 4) = true := by
    cases b1
    · rfl
    · simpa using ho1 rfl
  have c2 : (!b2 || sepOk v (4 + (if b1 then 1 else 0) + 4)) = true := by
    cases b2
    · rfl
    · simpa using ho2 rfl
  have c3 : (!b3 || sepOk v (4 + (if b1 then 1 else 0) + 4 +
      (if b2 then 1 else 0) + 4)) = true := by
    cases b3
    · rfl
    · simpa using ho3 rfl
  have cm : (match v.get? (4 + (if b1 then 1 else 0) + 4 +
      (if b2 then 1 else 0) + 4 + (if b3 then 1 else 0) + 3) with
      | some lc => isWordChar lc != isWordOpt (v.get? (4 +
          (if b1 then 1 else 0) + 4 + (if b2 then 1 else 0) + 4 +
          (if b3 then 1 else 0) + 4))
      | none => false) = true := by
    rw [hlc]
    simpa using hbd
  unfold cardTry
  dsimp only
  rw [if_pos]
  simp only [Bool.and_eq_true]
  exact ⟨⟨⟨⟨⟨⟨⟨hd1, c1⟩, hd2⟩, c2⟩, hd3⟩, c3⟩, hd4⟩, cm⟩

theorem cardTry_transfer (s v : List Char) (b1 b2 b3 : Bool) (k : Nat)
    (h : cardTry s (b1, b2, b3) = some k) (ht : s.take k = v.take k)
    (hbb : isWordOpt (s.get? k) = isWordOpt (v.get? k)) :
    cardTry v (b1, b2, b3) = some k := by
  obtain ⟨hd1, ho1, hd2, ho2, hd3, ho3, hd4, ⟨lc, hlc, hbd⟩, rfl⟩ :=
    cardTry_some_elim s b1 b2 b3 k h
  have hp1 : (if b1 then 1 else 0) ≤ 1 := by split <;> omega
  have hp2 : (if b2 then 1 else 0) ≤ 1 := by split <;> omega
  have hp3 : (if b3 then 1 else 0) ≤ 1 := by split <;> omega
  refine cardTry_intro v b1 b2 b3
    (digitsFrom_transfer hd1 (by omega) ht)
    (fun hb => sepOk_transfer (ho1 hb) (by omega) ht)
    (digitsFrom_transfer hd2 (by omega) ht)
    (fun hb => sepOk_transfer (ho2 hb) (by omega) ht)
    (digitsFrom_transfer hd3 (by omega) ht)
    (fun hb => sepOk_transfer (ho3 hb) (by omega) ht)
    (digitsFrom_transfer hd4 (by omega) ht)
    lc (by rw [← get?_eq_of_take_eq ht (by omega)]; exact hlc)
    (by rw [← hbb]; exact hbd)

theorem cardAt_some_elim (p : Option Char) (s : List Char) (n : Nat)
    (h : cardAt p s = some n) :
    bdry p s.head? = true ∧
    ∃ b1 b2 b3, cardTry s (b1, b2, b3) = some n := by
  unfold cardAt at h
  split at h
  case isFalse => cases h
  case isTrue hb =>
    obtain ⟨⟨x1, x2, x3⟩, _, hx⟩ := List.exists_of_findSome?_eq_some h
    exact ⟨hb, x1, x2, x3, hx⟩

theorem cardAt_isSome_intro (p : Option Char) (v : List Char)
    (hb : bdry p v.head? = true) (b1 b2 b3 : Bool) (k : Nat)
    (h : cardTry v (b1, b2, b3) = some k) : ∃ n', cardAt p v = some n' := by
  unfold cardAt
  rw [if_pos hb]
  have hmem : ((b1, b2, b3) : Bool × Bool × Bool) ∈
      [(true, true, true), (true, true, false), (true, false, true),
       (true, false, false), (false, true, true), (false, true, false),
       (false, false, true), (false, false, false)] := by
    cases b1 <;> cases b2 <;> cases b3 <;> decide
  have hs : ([(true, true, true), (true, true, false), (true, false, true),
      (true, false, false), (false, true, true), (false, true, false),
      (false, false, true), (false, false, false)].findSome?
        (cardTry v)).isSome = true := by
    rw [List.findSome?_isSome_iff]
    exact ⟨(b1, b2, b3), hmem, by rw [h]; rfl⟩
  exact Option.isSome_iff_exists.mp hs

theorem card_pos (p : Option Char) (s : List Char) (n : Nat)
    (h : cardAt p s = some n) : 1 ≤ n ∧ n ≤ s.length := by
  obtain ⟨_, b1, b2, b3, htr⟩ := cardAt_some_elim p s n h
  obtain ⟨_, _, _, _, _, _, _, ⟨lc, hlc, _⟩, rfl⟩ :=
    cardTry_some_elim s b1 b2 b3 n htr
  refine ⟨by omega, ?_⟩
  simp only [List.get?_eq_getElem?] at hlc
  have := (List.getElem?_eq_some_iff.mp hlc).1
  omega

theorem card_startB (p : Option Char) (s : List Char) (n : Nat)
    (h : cardAt p s = some n) :
    ∃ hb, s.head? = some hb ∧ isWordOpt p ≠ isWordChar hb := by
  obtain ⟨hb, b1, b2, b3, htr⟩ := cardAt_some_elim p s n h
  obtain ⟨hd1, _⟩ := cardTry_some_elim s b1 b2 b3 n htr
  obtain ⟨c, hc, _⟩ := (digitsFrom_iff s 0 4).mp hd1 0 (by omega)
  rw [Nat.add_zero] at hc
  refine ⟨c, by rw [head?_eq_get?0]; exact hc, ?_⟩
  rw [head?_eq_get?0, hc] at hb
  unfold bdry at hb
  have := bne_iff_ne.mp hb
  simpa [isWordOpt] using this

theorem card_endB (p : Option Char) (s : List Char) (n : Nat)
    (h : cardAt p s = some n) :
    ∃ lc, s.get? (n - 1) = some lc ∧ isWordChar lc ≠ isWordOpt (s.get? n) := by
  obtain ⟨_, b1, b2, b3, htr⟩ := cardAt_some_elim p s n h
  obtain ⟨_, _, _, _, _, _, _, ⟨lc, hlc, hbd⟩, rfl⟩ :=
    cardTry_some_elim s b1 b2 b3 n htr
  refine ⟨lc, ?_, ?_⟩
  · rw [show 4 + (if b1 then 1 else 0) + 4 + (if b2 then 1 else 0) + 4 +
      (if b3 then 1 else 0) + 4 - 1 = 4 + (if b1 then 1 else 0) + 4 +
      (if b2 then 1 else 0) + 4 + (if b3 then 1 else 0) + 3 by omega]
    exact hlc
  · exact hbd

theorem card_prevNorm (p q : Option Char) (s : List Char)
    (h : isWordOpt p = isWordOpt q) : cardAt p s = cardAt q s := by
  unfold cardAt
  rw [show bdry p s.head? = bdry q s.head? by unfold bdry; rw [h]]

theorem card_brk (p : Option Char) (s : List Char) (n : Nat)
    (h : cardAt p s = some n) : '[' ∉ s.take n := by
  obtain ⟨_, b1, b2, b3, htr⟩ := cardAt_some_elim p s n h
  obtain ⟨hd1, ho1, hd2, ho2, hd3, ho3, hd4, _, rfl⟩ :=
    cardTry_some_elim s b1 b2 b3 n htr
  intro hmem
  obtain ⟨i, hi, hg⟩ := mem_take_getElem? hmem
  set a1 := (if b1 then 1 else 0) with ha1
  set a2 := (if b2 then 1 else 0) with ha2
  set a3 := (if b3 then 1 else 0) with ha3
  have hp1 : a1 ≤ 1 := by rw [ha1]; split <;> omega
  have hp2 : a2 ≤ 1 := by rw [ha2]; split <;> omega
  have hp3 : a3 ≤ 1 := by rw [ha3]; split <;> omega
  have hcases : i < 4 ∨ (4 ≤ i ∧ i < 4 + a1) ∨
      (4 + a1 ≤ i ∧ i < 4 + a1 + 4) ∨
      (4 + a1 + 4 ≤ i ∧ i < 4 + a1 + 4 + a2) ∨
      (4 + a1 + 4 + a2 ≤ i ∧ i < 4 + a1 + 4 + a2 + 4) ∨
      (4 + a1 + 4 + a2 + 4 ≤ i ∧ i < 4 + a1 + 4 + a2 + 4 + a3) ∨
      (4 + a1 + 4 + a2 + 4 + a3 ≤ i ∧ i < 4 + a1 + 4 + a2 + 4 + a3 + 4) := by
    omega
  rcases hcases with hc | hc | hc | hc | hc | hc | hc
  · exact digitsFrom_not_bracket hd1 (by omega) (by omega) hg
  · have hb1 : b1 = true := by
      rw [ha1] at hc
      revert hc
      split <;> [intro _; (intro hc; omega)] <;> assumption
    have : i = 4 := by omega
    subst this
    exact sepOk_not_bracket (ho1 hb1) hg
  · exact digitsFrom_not_bracket hd2 (by omega) (by omega) hg
  · have hb2 : b2 = true := by
      rw [ha2] at hc
      revert hc
      split <;> [intro _; (intro hc; omega)] <;> assumption
    have : i = 4 + a1 + 4 := by omega
    subst this
    exact sepOk_not_bracket (ho2 hb2) hg
  · exact digitsFrom_not_bracket hd3 (by omega) (by omega) hg
  · have hb3 : b3 = true := by
      rw [ha3] at hc
      revert hc
      split <;> [intro _; (intro hc; omega)] <;> assumption
    have : i = 4 + a1 + 4 + a2 + 4 := by omega
    subst this
    exact sepOk_not_bracket (ho3 hb3) hg
  · exact digitsFrom_not_bracket hd4 (by omega) (by omega) hg

theorem card_transfer (p : Option Char) (s v : List Char) (n : Nat)
    (h : cardAt p s = some n) (ht : s.take n = v.take n)
    (hbb : isWordOpt (s.get? n) = isWordOpt (v.get? n)) :
    ∃ n', cardAt p v = some n' := by
  obtain ⟨hb, b1, b2, b3, htr⟩ := cardAt_some_elim p s n h
  have hpos := card_pos p s n h
  have hbv : bdry p v.head? = true := by
    rw [head?_eq_get?0, ← get?_eq_of_take_eq ht (by omega), ← head?_eq_get?0]
    exact hb
  exact cardAt_isSome_intro p v hbv b1 b2 b3 n
    (cardTry_transfer s v b1 b2 b3 n htr ht hbb)

theorem cardAt_head_not_digit (p : Option Char) (c : Char) (s : List Char)
    (hc : c.isDigit = false) : cardAt p (c :: s) = none := by
  have hd : digitsFrom (c :: s) 0 4 = false :=
    digitsFrom_head_false (c :: s) c 3 rfl hc
  unfold cardAt
  split
  · simp [List.findSome?_cons, cardTry, hd, Bool.false_and]
  · rfl

theorem card_marker : MarkerImmune cardAt := by
  intro prev tail rest htail hne
  rcases marker_tail_cases tail htail hne with
    rfl|rfl|rfl|rfl|rfl|rfl|rfl|rfl|rfl|rfl <;>
    exact cardAt_head_not_digit prev _ _ (by decide)

/-! Obligations for the email pattern. -/

theorem tldOk_elim (afterDot : List Char) (t : Nat)
    (h : tldOk afterDot t = true) :
    2 ≤ t ∧ ∃ lc, afterDot.get? (t - 1) = some lc ∧
      isWordChar lc ≠ isWordOpt (afterDot.get? t) := by
  unfold tldOk at h
  rw [Bool.and_eq_true] at h
  obtain ⟨h2, hm⟩ := h
  refine ⟨by simpa using h2, ?_⟩
  rcases hg : afterDot.get? (t - 1) with _ | lc
  · rw [hg] at hm; cases hm
  · rw [hg] at hm
    exact ⟨lc, rfl, by simpa using hm⟩

theorem tldOk_intro (afterDot : List Char) (t : Nat) (lc : Char)
    (h2 : 2 ≤ t) (hlc : afterDot.get? (t - 1) = some lc)
    (hbd : isWordChar lc ≠ isWordOpt (afterDot.get? t)) :
    tldOk afterDot t = true := by
  unfold tldOk
  rw [Bool.and_eq_true]
  refine ⟨by simpa using h2, ?_⟩
  rw [hlc]
  simpa using hbd

theorem emailAt_some_elim (p : Option Char) (s : List Char) (k : Nat)
    (h : emailAt p s = some k) :
    ∃ rest2 d t,
      1 ≤ (s.takeWhile cls1).length ∧
      bdry p s.head? = true ∧
      s.drop (s.takeWhile cls1).length = '@' :: rest2 ∧
      1 ≤ d ∧ d ≤ (rest2.takeWhile cls2).length ∧
      rest2.get? d = some '.' ∧
      2 ≤ t ∧ t ≤ ((rest2.drop (d + 1)).takeWhile clsTld).length ∧
      tldOk (rest2.drop (d + 1)) t = true ∧
      k = (s.takeWhile cls1).length + 1 + d + 1 + t := by
  simp only [emailAt] at h
  by_cases h0 : (s.takeWhile cls1).length = 0
  · rw [if_pos h0] at h; cases h
  rw [if_neg h0] at h
  by_cases hb : bdry p s.head? = true
  swap
  · rw [if_neg (by simpa using hb)] at h; cases h
  rw [if_pos hb] at h
  split at h
  case _ rest2 heq =>
    obtain ⟨d, hdm, hdv⟩ := List.exists_of_findSome?_eq_some h
    rw [countdown_mem] at hdm
    unfold emailTailAt at hdv
    by_cases hdot : rest2.get? d = some '.'
    swap
    · rw [if_neg hdot] at hdv; cases hdv
    rw [if_pos hdot] at hdv
    obtain ⟨t, htm, htv⟩ := List.exists_of_findSome?_eq_some hdv
    rw [countdown_mem] at htm
    obtain ⟨htld, hkk⟩ := ite_some_none_eq_some htv
    obtain ⟨h2t, _⟩ := tldOk_elim _ _ htld
    exact ⟨rest2, d, t, by omega, hb, heq, hdm.1, hdm.2, hdot, h2t, htm.2,
      htld, hkk.symm⟩
  case _ =>
    cases h

theorem emailAt_isSome_intro (p : Option Char) (v rest2 : List Char)
    (d t : Nat)
    (h0 : 1 ≤ (v.takeWhile cls1).length)
    (hb : bdry p v.head? = true)
    (hat : v.drop (v.takeWhile cls1).length = '@' :: rest2)
    (hd1 : 1 ≤ d) (hd2 : d ≤ (rest2.takeWhile cls2).length)
    (hdot : rest2.get? d = some '.')
    (ht1 : 1 ≤ t) (ht2 : t ≤ ((rest2.drop (d + 1)).takeWhile clsTld).length)
    (htld : tldOk (rest2.drop (d + 1)) t = true) :
    ∃ k', emailAt p v = some k' := by
  simp only [emailAt]
  rw [if_neg (by omega), if_pos hb, hat]
  have hs : ((countdown ((rest2.takeWhile cls2).length)).findSome?
      (emailTailAt (v.takeWhile cls1).length rest2)).isSome = true := by
    rw [List.findSome?_isSome_iff]
    refine ⟨d, by rw [countdown_mem]; exact ⟨hd1, hd2⟩, ?_⟩
    unfold emailTailAt
    rw [if_pos hdot]
    have hs2 : ((countdown (((rest2.drop (d + 1)).takeWhile
        clsTld).length)).findSome? (fun t' =>
          if tldOk (rest2.drop (d + 1)) t' then
            some ((v.takeWhile cls1).length + 1 + d + 1 + t')
          else none)).isSome = true := by
      rw [List.findSome?_isSome_iff]
      refine ⟨t, by rw [countdown_mem]; exact ⟨ht1, ht2⟩, ?_⟩
      rw [if_pos (by simpa using htld)]
      rfl
    obtain ⟨y, hy⟩ := Option.isSome_iff_exists.mp hs2
    rw [hy]
    rfl
  exact Option.isSome_iff_exists.mp hs

theorem email_length_facts {s : List Char} {rest2 : List Char}
    (hat : s.drop (s.takeWhile cls1).length = '@' :: rest2) :
    s.length = (s.takeWhile cls1).length + 1 + rest2.length := by
  have h1 := takeWhile_len_le cls1 s
  have h2 : (s.drop (s.takeWhile cls1).length).length =
      s.length - (s.takeWhile cls1).length := by simp
  rw [hat] at h2
  simp only [List.length_cons] at h2
  omega

theorem email_index {s : List Char} {rest2 : List Char}
    (hat : s.drop (s.takeWhile cls1).length = '@' :: rest2) (j : Nat) :
    s.get? ((s.takeWhile cls1).length + 1 + j) = rest2.get? j := by
  simp only [List.get?_eq_getElem?]
  rw [show (s.takeWhile cls1).length + 1 + j =
      (s.takeWhile cls1).length + (j + 1) by omega]
  rw [← List.getElem?_drop, hat]
  simp

theorem email_pos (p : Option Char) (s : List Char) (k : Nat)
    (h : emailAt p s = some k) : 1 ≤ k ∧ k ≤ s.length := by
  obtain ⟨rest2, d, t, h0, hb, hat, hd1, hd2, hdot, h2t, ht2, htld, rfl⟩ :=
    emailAt_some_elim p s k h
  obtain ⟨_, lc, hlc, _⟩ := tldOk_elim _ _ htld
  have hlt : t - 1 < (rest2.drop (d + 1)).length := by
    simp only [List.get?_eq_getElem?] at hlc
    exact (List.getElem?_eq_some_iff.mp hlc).1
  simp only [List.length_drop] at hlt
  have := email_length_facts hat
  constructor <;> omega

theorem email_startB (p : Option Char) (s : List Char) (k : Nat)
    (h : emailAt p s = some k) :
    ∃ hb, s.head? = some hb ∧ isWordOpt p ≠ isWordChar hb := by
  obtain ⟨rest2, d, t, h0, hb, hat, _⟩ := emailAt_some_elim p s k h
  have hslen : 1 ≤ s.length := le_trans h0 (takeWhile_len_le cls1 s)
  obtain ⟨c, hc⟩ := getElem?_exists_of_lt (show 0 < s.length by omega)
  refine ⟨c, by rw [head?_eq_get?0]; simpa using hc, ?_⟩
  rw [head?_eq_get?0] at hb
  simp only [List.get?_eq_getElem?] at hb
  rw [hc] at hb
  unfold bdry at hb
  have := bne_iff_ne.mp hb
  simpa [isWordOpt] using this

theorem email_endB (p : Option Char) (s : List Char) (k : Nat)
    (h : emailAt p s = some k) :
    ∃ lc, s.get? (k - 1) = some lc ∧ isWordChar lc ≠ isWordOpt (s.get? k) := by
  obtain ⟨rest2, d, t, h0, hb, hat, hd1, hd2, hdot, h2t, ht2, htld, rfl⟩ :=
    emailAt_some_elim p s k h
  obtain ⟨_, lc, hlc, hbd⟩ := tldOk_elim _ _ htld
  have e1 : (rest2.drop (d + 1)).get? (t - 1) = rest2.get? (d + t) := by
    simp only [List.get?_eq_getElem?]
    rw [List.getElem?_drop]
    congr 1
    omega
  have e2 : (rest2.drop (d + 1)).get? t = rest2.get? (d + 1 + t) := by
    simp only [List.get?_eq_getElem?]
    rw [List.getElem?_drop]
  refine ⟨lc, ?_, ?_⟩
  · rw [show (s.takeWhile cls1).length + 1 + d + 1 + t - 1 =
      (s.takeWhile cls1).length + 1 + (d + t) by omega]
    rw [email_index hat (d + t), ← e1]
    exact hlc
  · rw [show (s.takeWhile cls1).length + 1 + d + 1 + t =
      (s.takeWhile cls1).length + 1 + (d + 1 + t) by omega]
    rw [email_index hat (d + 1 + t), ← e2]
    exact hbd

theorem email_prevNorm (p q : Option Char) (s : List Char)
    (h : isWordOpt p = isWordOpt q) : emailAt p s = emailAt q s := by
  simp only [emailAt]
  rw [show bdry p s.head? = bdry q s.head? by unfold bdry; rw [h]]

theorem email_brk (p : Option Char) (s : List Char) (k : Nat)
    (h : emailAt p s = some k) : '[' ∉ s.take k := by
  obtain ⟨rest2, d, t, h0, hb, hat, hd1, hd2, hdot, h2t, ht2, htld, rfl⟩ :=
    emailAt_some_elim p s k h
  intro hmem
  obtain ⟨i, hi, hg⟩ := mem_take_getElem? hmem
  have hgat : s.get? (s.takeWhile cls1).length = some '@' := by
    have h1 : (s.drop (s.takeWhile cls1).length)[0]? = some '@' := by
      rw [hat]; simp
    rw [List.getElem?_drop] at h1
    rw [List.get?_eq_getElem?]
    simpa using h1
  have hdropu : ∀ j : Nat, (rest2.drop (d + 1)).get? j =
      rest2.get? (d + 1 + j) := by
    intro j
    simp only [List.get?_eq_getElem?]
    rw [List.getElem?_drop]
  have hcases : i < (s.takeWhile cls1).length ∨
      i = (s.takeWhile cls1).length ∨
      (∃ j, j < d ∧ i = (s.takeWhile cls1).length + 1 + j) ∨
      i = (s.takeWhile cls1).length + 1 + d ∨
      (∃ j, j < t ∧ i = (s.takeWhile cls1).length + 1 + d + 1 + j) := by
    by_cases h1 : i < (s.takeWhile cls1).length
    · exact Or.inl h1
    by_cases h2 : i = (s.takeWhile cls1).length
    · exact Or.inr (Or.inl h2)
    by_cases h3 : i < (s.takeWhile cls1).length + 1 + d
    · exact Or.inr (Or.inr (Or.inl
        ⟨i - ((s.takeWhile cls1).length + 1), by omega, by omega⟩))
    by_cases h4 : i = (s.takeWhile cls1).length + 1 + d
    · exact Or.inr (Or.inr (Or.inr (Or.inl h4)))
    · exact Or.inr (Or.inr (Or.inr (Or.inr
        ⟨i - ((s.takeWhile cls1).length + 1 + d + 1), by omega, by omega⟩)))
  rcases hcases with hc | rfl | ⟨j, hj, rfl⟩ | rfl | ⟨j, hj, rfl⟩
  · exact absurd (get?_takeWhile_sat cls1 s i '[' hc hg) (by decide)
  · rw [hgat] at hg
    exact absurd hg (by decide)
  · rw [email_index hat j] at hg
    have hjlt : j < (rest2.takeWhile cls2).length := by omega
    exact absurd (get?_takeWhile_sat cls2 rest2 j '[' hjlt hg) (by decide)
  · rw [email_index hat d, hdot] at hg
    exact absurd hg (by decide)
  · rw [show (s.takeWhile cls1).length + 1 + d + 1 + j =
        (s.takeWhile cls1).length + 1 + (d + 1 + j) by omega] at hg
    rw [email_index hat (d + 1 + j), ← hdropu j] at hg
    have hjlt : j < ((rest2.drop (d + 1)).takeWhile clsTld).length := by omega
    exact absurd (get?_takeWhile_sat clsTld (rest2.drop (d + 1)) j '[' hjlt hg)
      (by decide)

theorem email_transfer (p : Option Char) (u v : List Char) (k : Nat)
    (h : emailAt p u = some k) (ht : u.take k = v.take k)
    (hbb : isWordOpt (u.get? k) = isWordOpt (v.get? k)) :
    ∃ k', emailAt p v = some k' := by
  obtain ⟨rest2, d, t, h0, hb, hat, hd1, hd2, hdot, h2t, ht2, htld, rfl⟩ :=
    emailAt_some_elim p u k h
  have hLle := takeWhile_len_le cls1 u
  have htw : v.takeWhile cls1 = u.takeWhile cls1 :=
    takeWhile_eq_of_take_eq cls1 _ u v ht (by omega)
  have hgat : u.get? (u.takeWhile cls1).length = some '@' := by
    have h1 : (u.drop (u.takeWhile cls1).length)[0]? = some '@' := by
      rw [hat]; simp
    rw [List.getElem?_drop] at h1
    rw [List.get?_eq_getElem?]
    simpa using h1
  have hgatv : v.get? (u.takeWhile cls1).length = some '@' := by
    rw [← get?_eq_of_take_eq ht (by omega)]
    exact hgat
  have hatv : v.drop (u.takeWhile cls1).length =
      '@' :: v.drop ((u.takeWhile cls1).length + 1) :=
    drop_eq_cons_of_get? v _ '@' hgatv
  have hdru : rest2 = u.drop ((u.takeWhile cls1).length + 1) := by
    have h2 := drop_eq_cons_of_get? u (u.takeWhile cls1).length '@' hgat
    rw [hat] at h2
    injection h2 with _ h3
  have htr2 : rest2.take (d + 1 + t) =
      (v.drop ((u.takeWhile cls1).length + 1)).take (d + 1 + t) := by
    rw [hdru]
    apply take_drop_eq_of_take_eq
    rw [show (u.takeWhile cls1).length + 1 + (d + 1 + t) =
        (u.takeWhile cls1).length + 1 + d + 1 + t by omega]
    exact ht
  have hbv : bdry p v.head? = true := by
    rw [head?_eq_get?0, ← get?_eq_of_take_eq ht (by omega), ← head?_eq_get?0]
    exact hb
  have hdropu : ∀ j : Nat, (rest2.drop (d + 1)).get? j =
      rest2.get? (d + 1 + j) := by
    intro j
    simp only [List.get?_eq_getElem?]
    rw [List.getElem?_drop]
  have hdropv : ∀ j : Nat,
      ((v.drop ((u.takeWhile cls1).length + 1)).drop (d + 1)).get? j =
      (v.drop ((u.takeWhile cls1).length + 1)).get? (d + 1 + j) := by
    intro j
    simp only [List.get?_eq_getElem?]
    rw [List.getElem?_drop]
  have hd2v : d ≤
      ((v.drop ((u.takeWhile cls1).length + 1)).takeWhile cls2).length := by
    apply takeWhile_len_ge
    intro j hj
    have hjlt : j < (rest2.takeWhile cls2).length := by omega
    obtain ⟨c, hc⟩ := getElem?_exists_of_lt
      (lt_of_lt_of_le hjlt (takeWhile_len_le cls2 rest2))
    have hc' : rest2.get? j = some c := by
      rw [List.get?_eq_getElem?]; exact hc
    refine ⟨c, ?_, get?_takeWhile_sat cls2 rest2 j c hjlt hc'⟩
    rw [← get?_eq_of_take_eq htr2 (by omega)]
    exact hc'
  have hdotv : (v.drop ((u.takeWhile cls1).length + 1)).get? d = some '.' := by
    rw [← get?_eq_of_take_eq htr2 (by omega)]
    exact hdot
  have ht2v : t ≤
      (((v.drop ((u.takeWhile cls1).length + 1)).drop
        (d + 1)).takeWhile clsTld).length := by
    apply takeWhile_len_ge
    intro j hj
    have hjlt : j < ((rest2.drop (d + 1)).takeWhile clsTld).length := by omega
    obtain ⟨c, hc⟩ := getElem?_exists_of_lt
      (lt_of_lt_of_le hjlt (takeWhile_len_le clsTld (rest2.drop (d + 1))))
    have hc' : (rest2.drop (d + 1)).get? j = some c := by
      rw [List.get?_eq_getElem?]; exact hc
    refine ⟨c, ?_, get?_takeWhile_sat clsTld (rest2.drop (d + 1)) j c hjlt hc'⟩
    rw [hdropv j, ← get?_eq_of_take_eq htr2 (by omega), ← hdropu j]
    exact hc'
  obtain ⟨_, lc, hlc, hbd⟩ := tldOk_elim _ _ htld
  have hlcu : rest2.get? (d + 1 + (t - 1)) = some lc := by
    rw [← hdropu (t - 1)]
    exact hlc
  have hlcv :
      ((v.drop ((u.takeWhile cls1).length + 1)).drop (d + 1)).get? (t - 1) =
      some lc := by
    rw [hdropv (t - 1), ← get?_eq_of_take_eq htr2 (by omega)]
    exact hlcu
  have hvk : ((v.drop ((u.takeWhile cls1).length + 1)).drop (d + 1)).get? t =
      v.get? ((u.takeWhile cls1).length + 1 + d + 1 + t) := by
    simp only [List.get?_eq_getElem?]
    rw [List.getElem?_drop, List.getElem?_drop]
    congr 1
    omega
  have huk : (rest2.drop (d + 1)).get? t =
      u.get? ((u.takeWhile cls1).length + 1 + d + 1 + t) := by
    rw [hdropu t, hdru]
    simp only [List.get?_eq_getElem?]
    rw [List.getElem?_drop]
    congr 1
    omega
  have htldv : tldOk ((v.drop ((u.takeWhile cls1).length + 1)).drop (d + 1))
      t = true := by
    refine tldOk_intro _ t lc h2t hlcv ?_
    rw [hvk, ← hbb, ← huk]
    exact hbd
  exact emailAt_isSome_intro p v _ d t (by rw [htw]; exact h0) hbv
    (by rw [htw]; exact hatv) hd1 hd2v hdotv (by omega) ht2v htldv

theorem emailAt_eq_none (p : Option Char) (s : List Char)
    (h : s.get? ((s.takeWhile cls1).length) ≠ some '@') :
    emailAt p s = none := by
  simp only [emailAt]
  by_cases h0 : (s.takeWhile cls1).length = 0
  · rw [if_pos h0]
  · rw [if_neg h0]
    by_cases hb : bdry p s.head? = true
    swap
    · rw [if_neg (by simpa using hb)]
    rw [if_pos hb]
    rcases hd : s.drop (s.takeWhile cls1).length with _ | ⟨c, w⟩
    · rfl
    · have hgc : s.get? (s.takeWhile cls1).length = some c := by
        have h1 : (s.drop (s.takeWhile cls1).length)[0]? = some c := by
          rw [hd]; simp
        rw [List.getElem?_drop] at h1
        rw [List.get?_eq_getElem?]
        simpa using h1
      have hc : c ≠ '@' := fun hceq => h (by rw [hgc, hceq])
      split
      · rename_i rest2 heq
        injection heq with h1 h2
        exact absurd h1 hc
      · rfl

theorem email_marker : MarkerImmune emailAt := by
  intro prev tail rest htail hne
  rcases marker_tail_cases tail htail hne with
    rfl|rfl|rfl|rfl|rfl|rfl|rfl|rfl|rfl|rfl <;>
    (apply emailAt_eq_none;
     simp only [List.cons_append, List.nil_append];
     (repeat rw [List.takeWhile_cons_of_pos (by decide)]);
     rw [List.takeWhile_cons_of_neg (by decide)];
     simp)

/-! Assembly of the idempotence proof: each default pattern finds nothing
in the output of the full default pass. -/

theorem cfp1_pos : ∀ (p : Option Char) (s : List Char) (n : Nat),
    cf p1At p s = some n → 1 ≤ n ∧ n ≤ s.length :=
  fun _ s n h => p1_pos s n h

theorem cfp2_pos : ∀ (p : Option Char) (s : List Char) (n : Nat),
    cf p2At p s = some n → 1 ≤ n ∧ n ≤ s.length :=
  fun _ s n h => p2_pos s n h

theorem cfp3_pos : ∀ (p : Option Char) (s : List Char) (n : Nat),
    cf p3At p s = some n → 1 ≤ n ∧ n ≤ s.length :=
  fun _ s n h => p3_pos s n h

theorem pass_p1 (m' : Matcher)
    (hm'pos : ∀ p s n, m' p s = some n → 1 ≤ n ∧ n ≤ s.length)
    (prev : Option Char) (t : List Char)
    (hsub : subsumes (cf p1At) m' prev t) :
    noMatch (cf p1At) prev (replaceAll m' prev t) :=
  gen_pass_cf (cf p1At) m' hm'pos p1_marker (fun _ _ _ => rfl)
    (fun _ u v k h ht => p1_transfer u v k h ht)
    (fun _ s k h => p1_brk s k h) prev t hsub

theorem pass_p2 (m' : Matcher)
    (hm'pos : ∀ p s n, m' p s = some n → 1 ≤ n ∧ n ≤ s.length)
    (prev : Option Char) (t : List Char)
    (hsub : subsumes (cf p2At) m' prev t) :
    noMatch (cf p2At) prev (replaceAll m' prev t) :=
  gen_pass_cf (cf p2At) m' hm'pos p2_marker (fun _ _ _ => rfl)
    (fun _ u v k h ht => p2_transfer u v k h ht)
    (fun _ s k h => p2_brk s k h) prev t hsub

theorem pass_p3 (m' : Matcher)
    (hm'pos : ∀ p s n, m' p s = some n → 1 ≤ n ∧ n ≤ s.length)
    (prev : Option Char) (t : List Char)
    (hsub : subsumes (cf p3At) m' prev t) :
    noMatch (cf p3At) prev (replaceAll m' prev t) :=
  gen_pass_cf (cf p3At) m' hm'pos p3_marker (fun _ _ _ => rfl)
    (fun _ u v k h ht => p3_transfer u v k h ht)
    (fun _ s k h => p3_brk s k h) prev t hsub

theorem pass_email (m' : Matcher)
    (hm'pos : ∀ p s n, m' p s = some n → 1 ≤ n ∧ n ≤ s.length)
    (hm'Start : ∀ p s k, m' p s = some k → ∃ hb, s.head? = some hb ∧
      isWordOpt p ≠ isWordChar hb)
    (hm'End : ∀ p s k, m' p s = some k → ∃ lc, s.get? (k - 1) = some lc ∧
      isWordChar lc ≠ isWordOpt (s.get? k))
    (prev : Option Char) (t : List Char) (hsub : subsumes emailAt m' prev t) :
    noMatch emailAt prev (replaceAll m' prev t) :=
  gen_pass_cs emailAt m' hm'pos email_marker email_prevNorm email_startB
    email_endB hm'Start hm'End email_transfer email_brk prev t hsub

theorem pass_card (m' : Matcher)
    (hm'pos : ∀ p s n, m' p s = some n → 1 ≤ n ∧ n ≤ s.length)
    (hm'Start : ∀ p s k, m' p s = some k → ∃ hb, s.head? = some hb ∧
      isWordOpt p ≠ isWordChar hb)
    (hm'End : ∀ p s k, m' p s = some k → ∃ lc, s.get? (k - 1) = some lc ∧
      isWordChar lc ≠ isWordOpt (s.get? k))
    (prev : Option Char) (t : List Char) (hsub : subsumes cardAt m' prev t) :
    noMatch cardAt prev (replaceAll m' prev t) :=
  gen_pass_cs cardAt m' hm'pos card_marker card_prevNorm card_startB
    card_endB hm'Start hm'End card_transfer card_brk prev t hsub

theorem pass_ssn (m' : Matcher)
    (hm'pos : ∀ p s n, m' p s = some n → 1 ≤ n ∧ n ≤ s.length)
    (hm'Start : ∀ p s k, m' p s = some k → ∃ hb, s.head? = some hb ∧
      isWordOpt p ≠ isWordChar hb)
    (hm'End : ∀ p s k, m' p s = some k → ∃ lc, s.get? (k - 1) = some lc ∧
      isWordChar lc ≠ isWordOpt (s.get? k))
    (prev : Option Char) (t : List Char) (hsub : subsumes ssnAt m' prev t) :
    noMatch ssnAt prev (replaceAll m' prev t) :=
  gen_pass_cs ssnAt m' hm'pos ssn_marker ssn_prevNorm ssn_startB
    ssn_endB hm'Start hm'End ssn_transfer ssn_brk prev t hsub

theorem noMatch_ssn_final (s : List Char) :
    noMatch ssnAt none (defaultReplace s) := by
  unfold defaultReplace
  exact pass_ssn ssnAt ssn_pos ssn_startB ssn_endB none _
    (subsumes_refl _ _ _)

theorem noMatch_card_final (s : List Char) :
    noMatch cardAt none (defaultReplace s) := by
  unfold defaultReplace
  refine pass_card ssnAt ssn_pos ssn_startB ssn_endB none _ ?_
  apply subsumes_of_noMatch
  exact pass_card cardAt card_pos card_startB card_endB none _
    (subsumes_refl _ _ _)

theorem noMatch_email_final (s : List Char) :
    noMatch emailAt none (defaultReplace s) := by
  unfold defaultReplace
  refine pass_email ssnAt ssn_pos ssn_startB ssn_endB none _ ?_
  apply subsumes_of_noMatch
  refine pass_email cardAt card_pos card_startB card_endB none _ ?_
  apply subsumes_of_noMatch
  exact pass_email emailAt email_pos email_startB email_endB none _
    (subsumes_refl _ _ _)

theorem noMatch_p3_final (s : List Char) :
    noMatch (cf p3At) none (defaultReplace s) := by
  unfold defaultReplace
  refine pass_p3 ssnAt ssn_pos none _ ?_
  apply subsumes_of_noMatch
  refine pass_p3 cardAt card_pos none _ ?_
  apply subsumes_of_noMatch
  refine pass_p3 emailAt email_pos none _ ?_
  apply subsumes_of_noMatch
  exact pass_p3 (cf p3At) cfp3_pos none _ (subsumes_refl _ _ _)

theorem noMatch_p2_final (s : List Char) :
    noMatch (cf p2At) none (defaultReplace s) := by
  unfold defaultReplace
  refine pass_p2 ssnAt ssn_pos none _ ?_
  apply subsumes_of_noMatch
  refine pass_p2 cardAt card_pos none _ ?_
  apply subsumes_of_noMatch
  refine pass_p2 emailAt email_pos none _ ?_
  apply subsumes_of_noMatch
  refine pass_p2 (cf p3At) cfp3_pos none _ ?_
  apply subsumes_of_noMatch
  exact pass_p2 (cf p2At) cfp2_pos none _ (subsumes_refl _ _ _)

theorem noMatch_p1_final (s : List Char) :
    noMatch (cf p1At) none (defaultReplace s) := by
  unfold defaultReplace
  refine pass_p1 ssnAt ssn_pos none _ ?_
  apply subsumes_of_noMatch
  refine pass_p1 cardAt card_pos none _ ?_
  apply subsumes_of_noMatch
  refine pass_p1 emailAt email_pos none _ ?_
  apply subsumes_of_noMatch
  refine pass_p1 (cf p3At) cfp3_pos none _ ?_
  apply subsumes_of_noMatch
  refine pass_p1 (cf p2At) cfp2_pos none _ ?_
  apply subsumes_of_noMatch
  exact pass_p1 (cf p1At) cfp1_pos none _ (subsumes_refl _ _ _)

/-- One full default pass is a fixpoint of another full default pass. -/
theorem defaultReplace_idem (s : List Char) :
    defaultReplace (defaultReplace s) = defaultReplace s := by
  conv_lhs => rw [defaultReplace]
  rw [replaceAll_of_noMatch _ _ _ (noMatch_p1_final s),
      replaceAll_of_noMatch _ _ _ (noMatch_p2_final s),
      replaceAll_of_noMatch _ _ _ (noMatch_p3_final s),
      replaceAll_of_noMatch _ _ _ (noMatch_email_final s),
      replaceAll_of_noMatch _ _ _ (noMatch_card_final s),
      replaceAll_of_noMatch _ _ _ (noMatch_ssn_final s)]

/-! Totality of the sanitizer when every custom pattern is valid. -/

theorem foldlM_replace_ok (pats : List String) :
    ∀ s : List Char, (∀ pat ∈ pats, (compileRegex pat).isSome = true) →
    ∃ r, pats.foldlM (fun acc pat =>
        match compileRegex pat with
        | none => Except.error (SanErr.invalidRegex pat)
        | some re => pure (regexReplaceAll re acc)) s = Except.ok r := by
  induction pats with
  | nil => intro s _; exact ⟨s, rfl⟩
  | cons p ps ih =>
    intro s h
    have hp := h p (by simp)
    rcases hre : compileRegex p with _ | re
    · rw [hre] at hp; simp at hp
    · obtain ⟨r, hr⟩ := ih (regexReplaceAll re s) (fun pat hm => h pat (by simp [hm]))
      refine ⟨r, ?_⟩
      rw [List.foldlM_cons, hre]
      simpa using hr

theorem sanitizeString_ok (cfg : SanitizationConfig)
    (h : ∀ pats, cfg.customPatterns = some pats →
      ∀ pat ∈ pats, (compileRegex pat).isSome = true) (s : List Char) :
    ∃ r, sanitizeString cfg s = .ok r := by
  unfold sanitizeString
  rcases hc : cfg.customPatterns with _ | pats
  · by_cases he : cfg.excludeDefaults
    · exact ⟨s, by simp [hc, he] <;> rfl⟩
    · exact ⟨defaultReplace s, by simp [hc, he] <;> rfl⟩
  · obtain ⟨r, hr⟩ := foldlM_replace_ok pats s (h pats hc)
    by_cases he : cfg.excludeDefaults
    · exact ⟨r, by simp [hc, he, hr] <;> rfl⟩
    · exact ⟨defaultReplace r, by simp [hc, he, hr] <;> rfl⟩

theorem customKeyTest_ok (pats : List String) (key : List Char)
    (h : ∀ pat ∈ pats, (compileRegex pat).isSome = true) :
    ∃ b, customKeyTest pats key = .ok b := by
  induction pats with
  | nil => exact ⟨false, rfl⟩
  | cons p ps ih =>
    have hp := h p (by simp)
    rcases hre : compileRegex p with _ | re
    · rw [hre] at hp; simp at hp
    · unfold customKeyTest
      rw [hre]
      by_cases ht : regexTest re key
      · exact ⟨true, by simp [ht]⟩
      · obtain ⟨b, hb⟩ := ih (fun pat hm => h pat (by simp [hm]))
        exact ⟨b, by simp [ht, hb]⟩

theorem keyMatches_ok (cfg : SanitizationConfig)
    (h : ∀ pats, cfg.customPatterns = some pats →
      ∀ pat ∈ pats, (compileRegex pat).isSome = true) (key : List Char) :
    ∃ b, keyMatchesSensitivePattern cfg key = .ok b := by
  unfold keyMatchesSensitivePattern
  rcases hc : cfg.customPatterns with _ | pats
  · by_cases he : cfg.excludeDefaults
    · exact ⟨false, by simp [hc, he] <;> rfl⟩
    · exact ⟨scanTest p1At key || scanTest p2At key || scanTest p3At key,
        by simp [hc, he] <;> rfl⟩
  · obtain ⟨b, hb⟩ := customKeyTest_ok pats key (h pats hc)
    cases b
    · by_cases he : cfg.excludeDefaults
      · exact ⟨false, by simp [hc, hb, he] <;> rfl⟩
      · exact ⟨scanTest p1At key || scanTest p2At key || scanTest p3At key,
          by simp [hc, hb, he] <;> rfl⟩
    · exact ⟨true, by simp [hc, hb] <;> rfl⟩

theorem sanitize_total_aux (cfg : SanitizationConfig)
    (h : ∀ pats, cfg.customPatterns = some pats →
      ∀ pat ∈ pats, (compileRegex pat).isSome = true) :
    ∀ n : Nat,
    (∀ v, sizeOf v ≤ n → ∃ w, sanitize cfg v = .ok w) ∧
    (∀ xs : List JValue, sizeOf xs ≤ n →
      ∃ ys, sanitizeArr cfg xs = .ok ys) ∧
    (∀ kvs : List (List Char × JValue), sizeOf kvs ≤ n →
      ∃ out, sanitizeObj cfg kvs = .ok out) := by
  intro n
  induction n with
  | zero =>
    refine ⟨?_, ?_, ?_⟩
    · intro v hv; cases v <;> simp at hv <;> omega
    · intro xs hxs; cases xs <;> simp at hxs <;> omega
    · intro kvs hkvs; cases kvs <;> simp at hkvs <;> omega
  | succ n IH =>
    obtain ⟨IHv, IHa, IHo⟩ := IH
    refine ⟨?_, ?_, ?_⟩
    · intro v hv
      match v with
      | .vstr s =>
        obtain ⟨r, hr⟩ := sanitizeString_ok cfg h s
        by_cases he : cfg.enabled = false
        · exact ⟨.vstr s, by simp [sanitize, he]⟩
        · exact ⟨.vstr r, by simp [sanitize, he, hr, Except.map]⟩
      | .vnum m => exact ⟨.vnum m, by simp [sanitize]⟩
      | .vbool b => exact ⟨.vbool b, by simp [sanitize]⟩
      | .vnull => exact ⟨.vnull, by simp [sanitize]⟩
      | .vundef => exact ⟨.vundef, by simp [sanitize]⟩
      | .varr xs =>
        have hxs : sizeOf xs ≤ n := by simp at hv; omega
        obtain ⟨ys, hys⟩ := IHa xs hxs
        by_cases he : cfg.enabled = false
        · exact ⟨.varr xs, by simp [sanitize, he]⟩
        · exact ⟨.varr ys, by simp [sanitize, he, hys, Except.map]⟩
      | .vobj kvs =>
        have hkvs : sizeOf kvs ≤ n := by simp at hv; omega
        obtain ⟨out, hout⟩ := IHo kvs hkvs
        by_cases he : cfg.enabled = false
        · exact ⟨.vobj kvs, by simp [sanitize, he]⟩
        · exact ⟨.vobj out, by simp [sanitize, he, hout, Except.map]⟩
    · intro xs hxs
      match xs with
      | [] => exact ⟨[], by simp [sanitizeArr] <;> rfl⟩
      | x :: rest =>
        have h1 : sizeOf x ≤ n := by simp at hxs; omega
        have h2 : sizeOf rest ≤ n := by simp at hxs; omega
        obtain ⟨y, hy⟩ := IHv x h1
        obtain ⟨ys, hys⟩ := IHa rest h2
        exact ⟨y :: ys, by simp [sanitizeArr, hy, hys] <;> rfl⟩
    · intro kvs hkvs
      match kvs with
      | [] => exact ⟨[], by simp [sanitizeObj] <;> rfl⟩
      | (k, x) :: rest =>
        have h1 : sizeOf x ≤ n := by simp at hkvs; omega
        have h2 : sizeOf rest ≤ n := by simp at hkvs; omega
        obtain ⟨km, hkm⟩ := keyMatches_ok cfg h k
        obtain ⟨y, hy⟩ := IHv x h1
        obtain ⟨out, hout⟩ := IHo rest h2
        cases km
        · exact ⟨(k, y) :: out, by simp [sanitizeObj, hkm, hy, hout] <;> rfl⟩
        · exact ⟨(k, .vstr redactedM) :: out,
            by simp [sanitizeObj, hkm, hout] <;> rfl⟩

theorem sanitize_total (cfg : SanitizationConfig)
    (h : ∀ pats, cfg.customPatterns = some pats →
      ∀ pat ∈ pats, (compileRegex pat).isSome = true) (v : JValue) :
    ∃ w, sanitize cfg v = .ok w :=
  (sanitize_total_aux cfg h (sizeOf v)).1 v le_rfl

/-- Counterexample to claim C2: `sanitize` is not total for arbitrary
`customPatterns` — the pattern `"("` (an unterminated group) makes
`new RegExp(pattern, 'gi')` throw inside `sanitizeString`, so `sanitize`
throws on any string input. -/
theorem claim_C2_never_throws_counterexample :
    sanitize ⟨true, some ["("], false⟩ (.vstr ['p', 'w']) =
      .error (.invalidRegex "(") := by
  have h : sanitizeString ⟨true, some ["("], false⟩ ['p', 'w'] =
      .error (.invalidRegex "(") := rfl
  simp [sanitize, h, Except.map]

/-- Claim C2, amended: `sanitize` is total and pure on every JSON-like
value provided every custom pattern is one `new RegExp` accepts; it throws
a SyntaxError otherwise.  Unrecognized primitive types (numbers, booleans,
null, undefined) pass through unchanged. -/
theorem claim_C2_sanitize_total_for_valid_patterns
    (cfg : SanitizationConfig) (v : JValue)
    (h : ∀ pats, cfg.customPatterns = some pats →
      ∀ pat ∈ pats, (compileRegex pat).isSome = true) :
    (∃ w, sanitize cfg v = .ok w) ∧
    (∀ m : Int, sanitize cfg (.vnum m) = .ok (.vnum m)) ∧
    (∀ b, sanitize cfg (.vbool b) = .ok (.vbool b)) ∧
    sanitize cfg .vnull = .ok .vnull ∧
    sanitize cfg .vundef = .ok .vundef := by
  refine ⟨sanitize_total cfg h v, ?_, ?_, ?_, ?_⟩
  · intro m; simp [sanitize]
  · intro b; simp [sanitize]
  · simp [sanitize]
  · simp [sanitize]

/-- Witness for the amended C2: a config with the valid custom pattern
`"pwd"` sanitizes a concrete string without throwing, and the primitives
pass through. -/
theorem claim_C2_sanitize_total_for_valid_patterns_witness :
    (∃ w, sanitize ⟨true, some ["pwd"], false⟩ (.vstr ['x']) = .ok w) ∧
    (∀ m : Int, sanitize ⟨true, some ["pwd"], false⟩ (.vnum m) =
      .ok (.vnum m)) ∧
    (∀ b, sanitize ⟨true, some ["pwd"], false⟩ (.vbool b) =
      .ok (.vbool b)) ∧
    sanitize ⟨true, some ["pwd"], false⟩ .vnull = .ok .vnull ∧
    sanitize ⟨true, some ["pwd"], false⟩ .vundef = .ok .vundef :=
  claim_C2_sanitize_total_for_valid_patterns ⟨true, some ["pwd"], false⟩
    (.vstr ['x'])
    (by
      intro pats hp pat hm
      injection hp with hp1
      subst hp1
      simp at hm
      subst hm
      decide)

/-! Idempotence of the sanitizer under the default configuration. -/

theorem sanitizeString_default (s : List Char) :
    sanitizeString defaultSanitization s = .ok (defaultReplace s) := rfl

theorem keyMatches_default (k : List Char) :
    keyMatchesSensitivePattern defaultSanitization k =
      .ok (scanTest p1At k || scanTest p2At k || scanTest p3At k) := rfl

theorem exbind_ok {ε α β : Type} (a : α) (f : α → Except ε β) :
    (Except.ok a >>= f) = f a := rfl

theorem exbind_err {ε α β : Type} (e : ε) (f : α → Except ε β) :
    ((Except.error e : Except ε α) >>= f) = .error e := rfl

theorem exfmap_ok {ε α β : Type} (g : α → β) (a : α) :
    (g <$> (Except.ok a : Except ε α)) = .ok (g a) := rfl

theorem exfmap_err {ε α β : Type} (g : α → β) (e : ε) :
    (g <$> (Except.error e : Except ε α)) = .error e := rfl

theorem sanD_vstr (s : List Char) :
    sanitize defaultSanitization (.vstr s) =
      .ok (.vstr (defaultReplace s)) := by
  simp [sanitize, show defaultSanitization.enabled = true from rfl,
    sanitizeString_default, Except.map]

theorem sanD_varr (xs : List JValue) :
    sanitize defaultSanitization (.varr xs) =
      (sanitizeArr defaultSanitization xs).map .varr := by
  simp [sanitize, show defaultSanitization.enabled = true from rfl]

theorem sanD_vobj (kvs : List (List Char × JValue)) :
    sanitize defaultSanitization (.vobj kvs) =
      (sanitizeObj defaultSanitization kvs).map .vobj := by
  simp [sanitize, show defaultSanitization.enabled = true from rfl]

theorem sanD_idem_aux : ∀ n : Nat,
    (∀ v w, sizeOf v ≤ n → sanitize defaultSanitization v = .ok w →
      sanitize defaultSanitization w = .ok w) ∧
    (∀ xs ys, sizeOf xs ≤ n → sanitizeArr defaultSanitization xs = .ok ys →
      sanitizeArr defaultSanitization ys = .ok ys) ∧
    (∀ kvs out, sizeOf kvs ≤ n →
      sanitizeObj defaultSanitization kvs = .ok out →
      sanitizeObj defaultSanitization out = .ok out) := by
  intro n
  induction n with
  | zero =>
    refine ⟨?_, ?_, ?_⟩
    · intro v w hv _; cases v <;> simp at hv
    · intro xs ys hxs _; cases xs <;> simp at hxs
    · intro kvs out hkvs _; cases kvs <;> simp at hkvs
  | succ n IH =>
    obtain ⟨IHv, IHa, IHo⟩ := IH
    refine ⟨?_, ?_, ?_⟩
    · intro v w hv hw
      match v with
      | .vstr s =>
        rw [sanD_vstr] at hw
        injection hw with hw
        subst hw
        rw [sanD_vstr, defaultReplace_idem]
      | .vnum m => simp [sanitize] at hw; subst hw; simp [sanitize]
      | .vbool b => simp [sanitize] at hw; subst hw; simp [sanitize]
      | .vnull => simp [sanitize] at hw; subst hw; simp [sanitize]
      | .vundef => simp [sanitize] at hw; subst hw; simp [sanitize]
      | .varr xs =>
        have hxs : sizeOf xs ≤ n := by simp at hv; omega
        rw [sanD_varr] at hw
        rcases hx : sanitizeArr defaultSanitization xs with e | ys
        · rw [hx] at hw; simp [Except.map] at hw
        · rw [hx] at hw
          simp [Except.map] at hw
          subst hw
          have h2 := IHa xs ys hxs hx
          rw [sanD_varr, h2]
          rfl
      | .vobj kvs =>
        have hkvs : sizeOf kvs ≤ n := by simp at hv; omega
        rw [sanD_vobj] at hw
        rcases hx : sanitizeObj defaultSanitization kvs with e | out
        · rw [hx] at hw; simp [Except.map] at hw
        · rw [hx] at hw
          simp [Except.map] at hw
          subst hw
          have h2 := IHo kvs out hkvs hx
          rw [sanD_vobj, h2]
          rfl
    · intro xs ys hxs hys
      match xs with
      | [] =>
        simp [sanitizeArr] at hys
        subst hys
        simp [sanitizeArr]
      | x :: rest =>
        have h1 : sizeOf x ≤ n := by simp at hxs; omega
        have h2 : sizeOf rest ≤ n := by simp at hxs; omega
        simp only [sanitizeArr] at hys
        rcases hy : sanitize defaultSanitization x with e | y
        · rw [hy] at hys; simp [exbind_err] at hys
        · rw [hy] at hys
          simp only [exbind_ok] at hys
          rcases hr : sanitizeArr defaultSanitization rest with e | rs
          · rw [hr] at hys; simp [exfmap_err] at hys
          · rw [hr] at hys
            simp [exfmap_ok] at hys
            subst hys
            have hy2 := IHv x y h1 hy
            have hr2 := IHa rest rs h2 hr
            simp [sanitizeArr, hy2, hr2, exbind_ok, exfmap_ok]
    · intro kvs out hkvs hout
      match kvs with
      | [] =>
        simp [sanitizeObj] at hout
        subst hout
        simp [sanitizeObj]
      | (k, x) :: rest =>
        have h1 : sizeOf x ≤ n := by simp at hkvs; omega
        have h2 : sizeOf rest ≤ n := by simp at hkvs; omega
        simp only [sanitizeObj, keyMatches_default, exbind_ok] at hout
        cases hb : scanTest p1At k || scanTest p2At k || scanTest p3At k with
        | true =>
          rw [hb] at hout
          simp only [if_pos rfl, exbind_ok] at hout
          rcases hr : sanitizeObj defaultSanitization rest with e | outR
          · rw [hr] at hout; simp [exbind_err, exfmap_err] at hout
          · rw [hr] at hout
            simp [exbind_ok, exfmap_ok] at hout
            subst hout
            have hr2 := IHo rest outR h2 hr
            simp [sanitizeObj, keyMatches_default, hb, hr2, exbind_ok,
              exfmap_ok]
        | false =>
          rw [hb] at hout
          simp only [Bool.false_eq_true, if_false, exbind_ok] at hout
          rcases hy : sanitize defaultSanitization x with e | y
          · rw [hy] at hout; simp [exbind_err, exfmap_err] at hout
          · rw [hy] at hout
            simp only [exbind_ok] at hout
            rcases hr : sanitizeObj defaultSanitization rest with e | outR
            · rw [hr] at hout; simp [exbind_err, exfmap_err] at hout
            · rw [hr] at hout
              simp [exbind_ok, exfmap_ok] at hout
              subst hout
              have hy2 := IHv x y h1 hy
              have hr2 := IHo rest outR h2 hr
              simp [sanitizeObj, keyMatches_default, hb, hy2, hr2,
                exbind_ok, exfmap_ok]

/-- Claim C4: sanitization with the default configuration is idempotent —
a value already produced by `sanitize` is a fixpoint of `sanitize`; in
particular the `'[REDACTED]'` markers substituted in the first pass are
never re-matched by any of the six default patterns. -/
theorem claim_C4_sanitize_idempotent (v w : JValue)
    (h : sanitize defaultSanitization v = .ok w) :
    sanitize defaultSanitization w = .ok w :=
  (sanD_idem_aux (sizeOf v)).1 v w le_rfl h

/-- Witness for C4: sanitizing `{password: 'x'}` once yields the
redacted object, and the theorem applied to that run confirms the second
pass leaves it unchanged. -/
theorem claim_C4_sanitize_idempotent_witness :
    sanitize defaultSanitization (.vobj [("password".data, .vstr ['x'])]) =
      .ok (.vobj [("password".data, .vstr redactedM)]) ∧
    sanitize defaultSanitization
        (.vobj [("password".data, .vstr redactedM)]) =
      .ok (.vobj [("password".data, .vstr redactedM)]) := by
  have hs : scanTest p1At ("password".data) = true := by decide
  have h : sanitize defaultSanitization
      (.vobj [("password".data, .vstr ['x'])]) =
      .ok (.vobj [("password".data, .vstr redactedM)]) := by
    rw [sanD_vobj]
    simp [sanitizeObj, keyMatches_default, hs, exbind_ok, exfmap_ok,
      Except.map]
  exact ⟨h, claim_C4_sanitize_idempotent _ _ h⟩

/-! Shape of `sanitizeObject`: keys and array layout are preserved, and a
sensitive key short-circuits the recursion. -/

theorem sanitize_disabled (cfg : SanitizationConfig)
    (h : cfg.enabled = false) (v : JValue) : sanitize cfg v = .ok v := by
  cases v <;> simp [sanitize, h]

theorem sanitizeObj_pointwise (cfg : SanitizationConfig) :
    ∀ kvs out, sanitizeObj cfg kvs = .ok out →
    out.length = kvs.length ∧
    ∀ i k x, kvs.get? i = some (k, x) →
      ∃ y, out.get? i = some (k, y) ∧
        (keyMatchesSensitivePattern cfg k = .ok true →
          y = .vstr redactedM) ∧
        (keyMatchesSensitivePattern cfg k = .ok false →
          sanitize cfg x = .ok y) := by
  intro kvs
  induction kvs with
  | nil =>
    intro out h
    simp [sanitizeObj] at h
    subst h
    exact ⟨rfl, by intro i k x hi; simp at hi⟩
  | cons kv rest ih =>
    obtain ⟨k, x⟩ := kv
    intro out h
    simp only [sanitizeObj] at h
    rcases hkm : keyMatchesSensitivePattern cfg k with e | km
    · rw [hkm] at h; simp [exbind_err] at h
    · rw [hkm] at h
      simp only [exbind_ok] at h
      cases km with
      | true =>
        simp only [if_pos rfl, exbind_ok] at h
        rcases hr : sanitizeObj cfg rest with e | outR
        · rw [hr] at h; simp [exbind_err, exfmap_err] at h
        · rw [hr] at h
          simp [exbind_ok, exfmap_ok] at h
          subst h
          obtain ⟨hlen, hpt⟩ := ih outR hr
          refine ⟨by simp [hlen], ?_⟩
          intro i k' x' hi
          match i with
          | 0 =>
            simp at hi
            obtain ⟨hk, hx⟩ := hi
            subst hk
            refine ⟨.vstr redactedM, by simp, fun _ => rfl, fun hc => ?_⟩
            rw [hkm] at hc
            cases hc
          | j + 1 =>
            simp only [List.get?_cons_succ] at hi ⊢
            exact hpt j k' x' hi
      | false =>
        simp only [Bool.false_eq_true, if_false, exbind_ok] at h
        rcases hy : sanitize cfg x with e | y
        · rw [hy] at h; simp [exbind_err] at h
        · rw [hy] at h
          simp only [exbind_ok] at h
          rcases hr : sanitizeObj cfg rest with e | outR
          · rw [hr] at h; simp [exbind_err, exfmap_err] at h
          · rw [hr] at h
            simp [exbind_ok, exfmap_ok] at h
            subst h
            obtain ⟨hlen, hpt⟩ := ih outR hr
            refine ⟨by simp [hlen], ?_⟩
            intro i k' x' hi
            match i with
            | 0 =>
              simp at hi
              obtain ⟨hk, hx⟩ := hi
              subst hk
              subst hx
              refine ⟨y, by simp, fun hc => ?_, fun _ => hy⟩
              rw [hkm] at hc
              cases hc
            | j + 1 =>
              simp only [List.get?_cons_succ] at hi ⊢
              exact hpt j k' x' hi

theorem sanitizeObj_keys (cfg : SanitizationConfig) :
    ∀ kvs out, sanitizeObj cfg kvs = .ok out →
    out.map Prod.fst = kvs.map Prod.fst := by
  intro kvs out h
  obtain ⟨hlen, hpt⟩ := sanitizeObj_pointwise cfg kvs out h
  apply List.ext_getElem?
  intro i
  simp only [List.getElem?_map]
  rcases hk : kvs[i]? with _ | ⟨k, x⟩
  · have : out[i]? = none := by
      rw [List.getElem?_eq_none_iff] at hk ⊢
      omega
    rw [this]
  · have hk' : kvs.get? i = some (k, x) := by
      rw [List.get?_eq_getElem?]; exact hk
    obtain ⟨y, hy, _⟩ := hpt i k x hk'
    rw [List.get?_eq_getElem?] at hy
    rw [hy]
    rfl

theorem sanitizeArr_shape (cfg : SanitizationConfig) :
    ∀ xs ys, sanitizeArr cfg xs = .ok ys →
    ys.length = xs.length ∧
    ∀ i x, xs.get? i = some x →
      ∃ y, ys.get? i = some y ∧ sanitize cfg x = .ok y := by
  intro xs
  induction xs with
  | nil =>
    intro ys h
    simp [sanitizeArr] at h
    subst h
    exact ⟨rfl, by intro i x hi; simp at hi⟩
  | cons x rest ih =>
    intro ys h
    simp only [sanitizeArr] at h
    rcases hy : sanitize cfg x with e | y
    · rw [hy] at h; simp [exbind_err] at h
    · rw [hy] at h
      simp only [exbind_ok] at h
      rcases hr : sanitizeArr cfg rest with e | rs
      · rw [hr] at h; simp [exfmap_err] at h
      · rw [hr] at h
        simp [exfmap_ok] at h
        subst h
        obtain ⟨hlen, hpt⟩ := ih rs hr
        refine ⟨by simp [hlen], ?_⟩
        intro i x' hi
        match i with
        | 0 =>
          simp at hi
          subst hi
          exact ⟨y, rfl, hy⟩
        | j + 1 =>
          simp only [List.get?_cons_succ] at hi ⊢
          exact hpt j x' hi

/-- Claim C7: a key matching a sensitive-name pattern (custom patterns or
the password/token/secret keyword families) has its whole value replaced by
the redaction marker without recursion into it; a key that does not match
keeps its value sanitized recursively; keys themselves are kept. -/
theorem claim_C7_sensitive_key_shortcircuit (cfg : SanitizationConfig)
    (kvs out : List (List Char × JValue))
    (h : sanitizeObj cfg kvs = .ok out) :
    out.length = kvs.length ∧
    ∀ i k x, kvs.get? i = some (k, x) →
      ∃ y, out.get? i = some (k, y) ∧
        (keyMatchesSensitivePattern cfg k = .ok true →
          y = .vstr redactedM) ∧
        (keyMatchesSensitivePattern cfg k = .ok false →
          sanitize cfg x = .ok y) :=
  sanitizeObj_pointwise cfg kvs out h

/-- Witness for C7: sanitizing `{password: {a: {b: 'x'}}}` yields exactly
`{password: '[REDACTED]'}` — the nested object under the sensitive key is
never traversed. -/
theorem claim_C7_sensitive_key_shortcircuit_witness :
    sanitizeObj defaultSanitization
      [("password".data, .vobj [("a".data, .vobj [("b".data, .vstr ['x'])])])]
      = .ok [("password".data, .vstr redactedM)] ∧
    ∃ y, [(("password".data : List Char), JValue.vstr redactedM)].get? 0 =
        some ("password".data, y) ∧
      (keyMatchesSensitivePattern defaultSanitization "password".data =
        .ok true → y = .vstr redactedM) ∧
      (keyMatchesSensitivePattern defaultSanitization "password".data =
        .ok false → sanitize defaultSanitization
          (.vobj [("a".data, .vobj [("b".data, .vstr ['x'])])]) = .ok y) := by
  have hs : scanTest p1At ("password".data) = true := by decide
  have h : sanitizeObj defaultSanitization
      [("password".data, .vobj [("a".data, .vobj [("b".data, .vstr ['x'])])])]
      = .ok [("password".data, .vstr redactedM)] := by
    simp [sanitizeObj, keyMatches_default, hs, exbind_ok, exfmap_ok]
  exact ⟨h,
    (claim_C7_sensitive_key_shortcircuit _ _ _ h).2 0 _ _ rfl⟩

/-- Claim C10: sanitization preserves structure — a mapping keeps exactly
its keys in order (only values change), and an array keeps its length with
elements sanitized in place. -/
theorem claim_C10_structure_preserved (cfg : SanitizationConfig)
    (kvs : List (List Char × JValue)) (xs : List JValue) (w w' : JValue)
    (hobj : sanitize cfg (.vobj kvs) = .ok w)
    (harr : sanitize cfg (.varr xs) = .ok w') :
    (∃ out, w = .vobj out ∧ out.map Prod.fst = kvs.map Prod.fst) ∧
    (∃ ys, w' = .varr ys ∧ ys.length = xs.length ∧
      ∀ i x, xs.get? i = some x → ∃ y, ys.get? i = some y ∧
        sanitize cfg x = .ok y) := by
  constructor
  · by_cases he : cfg.enabled = false
    · rw [sanitize_disabled cfg he] at hobj
      injection hobj with hobj
      exact ⟨kvs, hobj.symm, rfl⟩
    · simp only [sanitize, he, if_false] at hobj
      rcases hr : sanitizeObj cfg kvs with e | out
      · rw [hr] at hobj; simp [Except.map] at hobj
      · rw [hr] at hobj
        simp [Except.map] at hobj
        exact ⟨out, hobj.symm, sanitizeObj_keys cfg kvs out hr⟩
  · by_cases he : cfg.enabled = false
    · rw [sanitize_disabled cfg he] at harr
      injection harr with harr
      refine ⟨xs, harr.symm, rfl, ?_⟩
      intro i x hi
      exact ⟨x, hi, sanitize_disabled cfg he x⟩
    · simp only [sanitize, he, if_false] at harr
      rcases hr : sanitizeArr cfg xs with e | ys
      · rw [hr] at harr; simp [Except.map] at harr
      · rw [hr] at harr
        simp [Except.map] at harr
        obtain ⟨hlen, hpt⟩ := sanitizeArr_shape cfg xs ys hr
        exact ⟨ys, harr.symm, hlen, hpt⟩

/-- Witness for C10: a non-sensitive one-entry object keeps its key, and a
one-element array keeps its length and order. -/
theorem claim_C10_structure_preserved_witness :
    (∃ out, JValue.vobj [("k".data, JValue.vnull)] = .vobj out ∧
      out.map Prod.fst =
        [(("k".data : List Char), JValue.vnull)].map Prod.fst) ∧
    (∃ ys, JValue.varr [JValue.vnull] = .varr ys ∧
      ys.length = [JValue.vnull].length ∧
      ∀ i x, [JValue.vnull].get? i = some x → ∃ y, ys.get? i = some y ∧
        sanitize defaultSanitization x = .ok y) := by
  have hk : scanTest p1At ("k".data) = false := by decide
  have hk2 : scanTest p2At ("k".data) = false := by decide
  have hk3 : scanTest p3At ("k".data) = false := by decide
  have hobj : sanitize defaultSanitization
      (.vobj [("k".data, JValue.vnull)]) =
      .ok (.vobj [("k".data, JValue.vnull)]) := by
    rw [sanD_vobj]
    simp [sanitizeObj, keyMatches_default, hk, hk2, hk3, sanitize,
      exbind_ok, exfmap_ok, Except.map]
  have harr : sanitize defaultSanitization (.varr [JValue.vnull]) =
      .ok (.varr [JValue.vnull]) := by
    rw [sanD_varr]
    simp [sanitizeArr, sanitize, exbind_ok, exfmap_ok, Except.map]
  exact claim_C10_structure_preserved defaultSanitization _ _ _ _ hobj harr

/-! Resolution behavior of the capture methods. -/

theorem foldl_snd_length {α β : Type}
    (f : (List RMState × List β) → α → (List RMState × List β))
    (hf : ∀ s a, ((f s a).2).length = s.2.length + 1) :
    ∀ (l : List α) (s : List RMState × List β),
      ((l.foldl f s).2).length = s.2.length + l.length := by
  intro l
  induction l with
  | nil => intro s; simp
  | cons a rest ih =>
    intro s
    simp only [List.foldl_cons]
    rw [ih, hf]
    simp only [List.length_cons]
    omega

theorem sendNotification_resolves (st : LoggerState) (v : JValue)
    (op : Nat → Nat → Except String Unit) (t t' : Nat)
    (hpats : ∀ pats, st.sanitizerCfg.customPatterns = some pats →
      ∀ pat ∈ pats, (compileRegex pat).isSome = true) :
    (sendNotification st v op t t').result = .ok () ∧
    (st.config.enabled = true →
      (sendNotification st v op t t').settled.length =
        st.providers.length) := by
  unfold sendNotification
  by_cases he : st.config.enabled = false
  · rw [if_pos he]
    exact ⟨rfl, fun h => by rw [h] at he; cases he⟩
  · rw [if_neg he]
    obtain ⟨w, hw⟩ := sanitize_total st.sanitizerCfg hpats v
    rw [hw]
    refine ⟨rfl, fun _ => ?_⟩
    dsimp only
    rw [foldl_snd_length _ (by intro s a; simp)]
    simp

/-- One failing key pattern makes the whole `sanitize` call on an object
throw. -/
theorem sanitize_vobj_key_error (cfg : SanitizationConfig) (k : List Char)
    (x : JValue) (rest : List (List Char × JValue)) (e : SanErr)
    (he : cfg.enabled = true)
    (hk : keyMatchesSensitivePattern cfg k = .error e) :
    sanitize cfg (.vobj ((k, x) :: rest)) = .error e := by
  simp [sanitize, he, sanitizeObj, hk, exbind_err, Except.map]

/-- Counterexample to claim C3: with the custom pattern `"("` configured,
the sanitizer throws inside `sendNotification` OUTSIDE the per-provider
try/catch, so the promise returned by `captureException` rejects. -/
theorem claim_C3_never_rejects_counterexample :
    (captureException (ErrorLogger.init cfgBadSan) ['x'] .vundef .vundef []
      (fun _ _ => .ok ()) 0 0).result = .error (.invalidRegex "(") := by
  unfold captureException sendNotification
  rw [if_neg (by decide)]
  rw [sanitize_vobj_key_error (ErrorLogger.init cfgBadSan).sanitizerCfg
    ("message".data) (.vstr ['x'])
    [("severity".data, .vstr "error".data),
     ("timestamp".data, .vstr []),
     ("stack".data, .vundef), ("metadata".data, .vundef),
     ("environment".data,
       .vstr (ErrorLogger.init cfgBadSan).config.environment.data)]
    (.invalidRegex "(") rfl rfl]

/-- Claim C3, amended: provided every configured custom sanitization
pattern is valid, `captureException` and `captureMessage` always resolve —
no provider behavior can reject them — and, when enabled, they resolve
only after every configured provider has settled (one settled outcome per
provider). -/
theorem claim_C3_captures_resolve (st : LoggerState)
    (message level timestamp : List Char) (stack metadata : JValue)
    (op : Nat → Nat → Except String Unit) (t t' : Nat)
    (hpats : ∀ pats, st.sanitizerCfg.customPatterns = some pats →
      ∀ pat ∈ pats, (compileRegex pat).isSome = true) :
    (captureException st message stack metadata timestamp op t t').result =
      .ok () ∧
    (captureMessage st message level metadata timestamp op t t').result =
      .ok () ∧
    (st.config.enabled = true →
      (captureException st message stack metadata timestamp op t t'
        ).settled.length = st.providers.length ∧
      (captureMessage st message level metadata timestamp op t t'
        ).settled.length = st.providers.length) := by
  have h1 := sendNotification_resolves st
    (.vobj [("message".data, .vstr message),
      ("severity".data, .vstr "error".data),
      ("timestamp".data, .vstr timestamp),
      ("stack".data, stack),
      ("metadata".data, metadata),
      ("environment".data, .vstr st.config.environment.data)]) op t t' hpats
  have h2 := sendNotification_resolves st
    (.vobj [("message".data, .vstr message),
      ("severity".data, .vstr level),
      ("timestamp".data, .vstr timestamp),
      ("metadata".data, metadata),
      ("environment".data, .vstr st.config.environment.data)]) op t t' hpats
  exact ⟨h1.1, h2.1, fun hen => ⟨h1.2 hen, h2.2 hen⟩⟩

/-- Witness for the amended C3: the concrete two-provider logger with no
custom patterns resolves and settles both providers. -/
theorem claim_C3_captures_resolve_witness :
    (captureException (ErrorLogger.init cfgBoth) ['x'] .vundef .vundef []
      (fun _ _ => .ok ()) 0 0).result = .ok () ∧
    ((ErrorLogger.init cfgBoth).config.enabled = true →
      (captureException (ErrorLogger.init cfgBoth) ['x'] .vundef .vundef []
        (fun _ _ => .ok ()) 0 0).settled.length =
        (ErrorLogger.init cfgBoth).providers.length) := by
  have h := claim_C3_captures_resolve (ErrorLogger.init cfgBoth) ['x'] [] []
    .vundef .vundef (fun _ _ => .ok ()) 0 0
    (fun pats hp => Option.noConfusion hp)
  exact ⟨h.1, fun hen => (h.2.2 hen).1⟩

/-- Claim C9: with `enabled = false` both capture methods resolve
immediately with zero sanitizer invocations, zero provider sends, and the
RetryManager (circuit breaker) state unchanged. -/
theorem claim_C9_disabled_short_circuit (st : LoggerState)
    (message level timestamp : List Char) (stack metadata : JValue)
    (op : Nat → Nat → Except String Unit) (t t' : Nat)
    (hdis : st.config.enabled = false) :
    captureMessage st message level metadata timestamp op t t' =
      ⟨.ok (), 0, [], st.managers⟩ ∧
    captureException st message stack metadata timestamp op t t' =
      ⟨.ok (), 0, [], st.managers⟩ := by
  unfold captureMessage captureException sendNotification
  simp only [if_pos hdis]
  exact ⟨trivial, trivial⟩

/-- Witness for C9 on the concrete disabled configuration. -/
theorem claim_C9_disabled_short_circuit_witness :
    captureMessage (ErrorLogger.init cfgDisabled) ['x'] ['i'] .vundef []
      (fun _ _ => .ok ()) 0 0 =
      ⟨.ok (), 0, [], (ErrorLogger.init cfgDisabled).managers⟩ ∧
    captureException (ErrorLogger.init cfgDisabled) ['x'] .vundef .vundef []
      (fun _ _ => .ok ()) 0 0 =
      ⟨.ok (), 0, [], (ErrorLogger.init cfgDisabled).managers⟩ :=
  claim_C9_disabled_short_circuit (ErrorLogger.init cfgDisabled) ['x'] ['i']
    [] .vundef .vundef (fun _ _ => .ok ()) 0 0 rfl

end ErrLog

